import Mathlib

/-!
# crypto-voting: threshold ElGamal, shuffle and long-message chunk codec

A shallow embedding of `testThreshold.go`, `testShuffle.go`, `testLongMessage.go` and of
the parameter flow of `main` in `testComplete.go`.

* Scalars are elements of a field `F`, points are elements of an `F`-module `P`
  written additively (`suite.Point().Mul(s, p)` is `s • p`, `Add` is `+`,
  `Sub` is `-`); the base point is a parameter `G`.
* Every draw from `suite.RandomStream()` is an explicit argument.
* A Go panic (`check(err)`, an index or slice out of range) is `none` or an
  `Except.error`.
* Byte slices and Go strings are lists of bytes.
-/

namespace CryptoVoting

/-! ## ElGamal (testThreshold.go, testShuffle.go) -/

section ElGamal

variable {F P : Type} [Field F] [AddCommGroup P] [Module F P]

/-- `encryptMessage` of testThreshold.go; `tempScalar` is the scalar picked from the
random stream and `G` the base point (`Mul(tempScalar, nil)`). -/
def encryptMessage (G : P) (tempScalar : F) (message pubKey : P) : P × P :=
  let elGamal1 := tempScalar • G
  let elGamal2 := tempScalar • pubKey
  let elGamal2 := elGamal2 + message
  (elGamal1, elGamal2)

/-- `decryptMessage` of testShuffle.go. -/
def decryptMessage (elGamal1 elGamal2 : P) (secret : F) : P :=
  let toReverseElGamal := secret • elGamal1
  elGamal2 - toReverseElGamal

/-- `decryptAll` of testShuffle.go: the result has `len(elGamal1)` entries and entry `i`
reads `elGamal2[i]`, which is out of range when `elGamal2` is shorter. -/
def decryptAll : List P → List P → F → Option (List P)
  | [], _, _ => some []
  | _ :: _, [], _ => none
  | c1 :: elGamal1, c2 :: elGamal2, secret =>
      (decryptAll elGamal1 elGamal2 secret).map (fun rest => decryptMessage c1 c2 secret :: rest)

end ElGamal

/-! ## Threshold decryption (testThreshold.go) -/

section Threshold

variable {F P : Type} [Field F] [AddCommGroup P] [Module F P]

/-- `share.PriShare`: a private share `V` with the index `I` of its holder. -/
structure PriShare (F : Type) where
  I : Nat
  V : F

/-- `share.PubShare`: a public share `V` with the index `I` of its holder. -/
structure PubShare (P : Type) where
  I : Nat
  V : P

/-- `vss.DistKeyShare`: the coefficient commitments of the joint polynomial and the
holder's private share. -/
structure DistKeyShare (F P : Type) where
  Commits : List P
  Share : PriShare F

/-- `DistKeyShare.Public()`: the commitment `Commits[0]`; `none` is the index panic. -/
def DistKeyShare.Public (d : DistKeyShare F P) : Option P := d.Commits.head?

/-- `DistKeyShare.PriShare()`. -/
def DistKeyShare.PriShare (d : DistKeyShare F P) : PriShare F := d.Share

/-- The errors of the commitment recovery. -/
inductive ShareError where
  | InsufficientShares
  | DuplicateIndex
deriving DecidableEq, Repr

/-- Value at `x` of the polynomial with coefficients `coeffs` (constant term first). -/
def evalPoly (coeffs : List F) (x : F) : F := coeffs.foldr (fun a acc => a + x * acc) 0

/-- Modelled from the spec: the Lagrange coefficient `λ_i = Π_{j≠i} (0 − j)/(i − j)` over
the supplied indices (§4.2); `xOf` gives the scalar at which the holder of an index
evaluates the polynomial. -/
def lagrangeCoeff (xOf : Nat → F) (indices : List Nat) (i : Nat) : F :=
  ((indices.filter (fun j => j ≠ i)).map (fun j => (0 - xOf j) / (xOf i - xOf j))).prod

/-- Modelled from the spec: `share.RecoverCommit` of the kyber library, which is not part of
the sources. It "takes ≥ t valid (index, value) shadow pairs, computes Lagrange coefficients
over the set of supplied indices, and returns Π shadow_i^{λ_i}"; it "fails with
InsufficientShares if fewer than t valid shadows are supplied" and with `DuplicateIndex`
when an index occurs twice (§4.2). -/
def RecoverCommit (xOf : Nat → F) (shares : List (PubShare P)) (t _n : Nat) :
    Except ShareError P :=
  if shares.length < t then Except.error ShareError.InsufficientShares
  else if ¬ (shares.map (fun s => s.I)).Nodup then Except.error ShareError.DuplicateIndex
  else Except.ok
    ((shares.map (fun s => lagrangeCoeff xOf (shares.map (fun s => s.I)) s.I • s.V)).sum)

/-- `decryptMessageSecretless` of testThreshold.go; an `Except.error` is the panic of
`check(err)`. -/
def decryptMessageSecretless (xOf : Nat → F) (_elGamal1 elGamal2 : P)
    (shadows : List (PubShare P)) (t n : Nat) : Except ShareError P :=
  match RecoverCommit xOf shadows t n with
  | Except.error err => Except.error err
  | Except.ok key => Except.ok (elGamal2 - key)

/-- `extractShadow` of testThreshold.go. -/
def extractShadow (elGamal1 _elGamal2 : P) (distShare : DistKeyShare F P) : PubShare P :=
  let priv := distShare.PriShare
  let value := priv.V • elGamal1
  let index := priv.I
  { I := index, V := value }

/-- The shares in `shares` are values of the polynomial `coeffs` at distinct evaluation
points, one per holder, and there are at least `t` of them. -/
def ValidShares (xOf : Nat → F) (coeffs : List F) (t : Nat) (shares : List (DistKeyShare F P)) :
    Prop :=
  (∀ s ∈ shares, s.Share.V = evalPoly coeffs (xOf s.Share.I)) ∧
  (shares.map (fun s => s.Share.I)).Nodup ∧
  (∀ s ∈ shares, ∀ s' ∈ shares, xOf s.Share.I = xOf s'.Share.I → s.Share.I = s'.Share.I) ∧
  t ≤ shares.length

end Threshold

/-! ## Shuffle test (testShuffle.go) and `checkDecryption` (testThreshold.go) -/

section ShuffleDefs

variable {F P : Type} [Field F] [AddCommGroup P] [Module F P]

/-- Modelled from the spec: `shuffle.Shuffle` of the kyber library, which is not part of the
sources. It "applies a uniformly random secret permutation π over the index set and
re-randomizes each ciphertext with a fresh random scalar" (§4.5): the `i`-th output pair is
`(elGamal1[π(i)] + s_i*G, elGamal2[π(i)] + s_i*h)`. The permutation drawn is the list `shufflePi`
of indices and `s i` is the `i`-th fresh scalar. -/
def Shuffle (G h : P) (elGamal1 elGamal2 : List P) (shufflePi : List Nat) (s : Nat → F) :
    List P × List P :=
  ((List.range shufflePi.length).map (fun i => elGamal1.getD (shufflePi.getD i 0) 0 + s i • G),
   (List.range shufflePi.length).map (fun i => elGamal2.getD (shufflePi.getD i 0) 0 + s i • h))

/-- `sort.Sort(SortablePointList(points))`: points are ordered by their `String()`, here a
key `str` into a linear order. The sort is computed by insertion; when `str` is injective
the sorted arrangement is unique, so any correct sort gives it. -/
def sortPoints {P κ : Type} [LinearOrder κ] (str : P → κ) (points : List P) : List P :=
  points.insertionSort (fun x y => str x ≤ str y)

/-- The loop of `checkDecryption` over the two sorted lists: `messages[i].Equal(...)` for
every `i`. -/
def checkPairs {P : Type} [DecidableEq P] : List P → List P → Except String Unit
  | [], _ => Except.ok ()
  | _ :: _, [] => Except.error "index out of range"
  | m :: messages, d :: decryptedMessages =>
      if m = d then checkPairs messages decryptedMessages
      else Except.error "Message incorrectly decrypted!"

/-- `checkDecryption` of testThreshold.go; an `Except.error` is a panic with that text. -/
def checkDecryption {P κ : Type} [LinearOrder κ] [DecidableEq P] (str : P → κ)
    (messages decryptedMessages : List P) : Except String Unit :=
  if messages.length ≠ decryptedMessages.length then
    Except.error "Decrypted messages do not match up with messages! (different len)"
  else
    checkPairs (sortPoints str messages) (sortPoints str decryptedMessages)

end ShuffleDefs

/-! ## Key generation (`generate`, `fullShare`, `createThresholdShares` of testThreshold.go) -/

section DkgDefs

variable {F P : Type} [Field F] [AddCommGroup P] [Module F P]

/-- What a run of `createThresholdShares` can panic with: an error of the key-generation
library handed to `check(err)`, or an index out of range. -/
inductive DkgPanic where
  | InvalidThreshold
  | NotAParticipant
  | NotTheRecipient
  | OwnResponse
  | NoDealForResponse
  | InvalidJustification
  | NotCertified
  | IndexOutOfRange
deriving DecidableEq, Repr

/-- Modelled from the spec: a `Deal` (§3), "dealer j's offer to participant i — an encrypted
Shamir share of dealer j's secret polynomial at x=i, plus public commitments to the
polynomial's coefficients". `Index` is the dealer, `Recipient` the participant the share is
encrypted to. -/
structure Deal (F P : Type) where
  Index : Nat
  Recipient : Nat
  Share : F
  Commits : List P

/-- Modelled from the spec: the verdict of a verifier (§3), `Approved` (`Status = true`) or
`Complaint`; `Index` is the verifier that issues it. -/
structure VssResponse where
  Index : Nat
  Status : Bool
deriving DecidableEq, Repr

set_option linter.dupNamespace false in
/-- Modelled from the spec: a `Response` (§3), "participant i's verdict on a received
Deal"; `Index` is the dealer of that deal. -/
structure Response where
  Index : Nat
  Response : VssResponse
deriving DecidableEq, Repr

/-- Modelled from the spec: a `Justification` (§3), the "dealer's rebuttal to a Complaint,
revealing the disputed share opening for public verification". -/
structure Justification (F P : Type) where
  Index : Nat
  Verifier : Nat
  Share : F
  Commits : List P

/-- Modelled from the spec: the state of one participant's key generator of the Pedersen DKG
of kyber's `dkg/pedersen` package, which is not part of the sources (§4.3): its index among
the `n` participants, the threshold, its own secret polynomial, the deal it holds from each
dealer, and the approvals and complaints it knows of (`approvals j v`: verifier `v` approves
the deal of dealer `j`). -/
structure DistKeyGenerator (F P : Type) where
  index : Nat
  n : Nat
  t : Nat
  secret : List F
  received : Nat → Option (Deal F P)
  approvals : Nat → Nat → Bool
  complaints : Nat → Nat → Bool

/-- Value at `x` of the committed polynomial, in the exponent. -/
def evalCommit (commits : List P) (x : F) : P := commits.foldr (fun c acc => c + x • acc) 0

/-- Modelled from the spec: a recipient "verifies the encrypted share against the dealer's
public commitments" (§4.3 step 2): the share times the base point is the value of the `t`
commitments at the recipient's evaluation point. -/
def verifyShare [DecidableEq P] (G : P) (xOf : Nat → F) (t : Nat) (share : F) (commits : List P)
    (recipient : Nat) : Bool :=
  decide (commits.length = t) && decide (share • G = evalCommit commits (xOf recipient))

/-- Modelled from the spec: the library's test of the threshold, `validT` of kyber's `vss`
package. The spec names `1 ≤ t ≤ n` as the valid range (§7); the library is stricter and
also refuses `t = 1` (`t >= 2 && t <= len(verifiers)`), which is what is embedded. -/
def validT (t n : Nat) : Bool := decide (2 ≤ t ∧ t ≤ n)

/-- Modelled from the spec: `vss.NewDistKeyGenerator(suite, longterm, participants, t)`
(§4.3 step 1): the participant, "knowing all public identity keys and t, independently
constructs a degree-(t−1) polynomial", with coefficients `coeffs 0 .. coeffs (t-1)` drawn
from the random stream; its index is the place of its own public key among the
participants, and it stands by its own deal. A threshold that fails `validT` is an error. -/
def NewDistKeyGenerator [DecidableEq P] (G : P) (longterm : F)
    (participants : List P) (t : Nat) (coeffs : Nat → F) :
    Except DkgPanic (DistKeyGenerator F P) :=
  if validT t participants.length = false then Except.error DkgPanic.InvalidThreshold
  else
    let index := participants.indexOf (longterm • G)
    if participants.length ≤ index then Except.error DkgPanic.NotAParticipant
    else
      Except.ok
        { index := index
          n := participants.length
          t := t
          secret := (List.range t).map coeffs
          received := fun _ => none
          approvals := fun j v => decide (j = index ∧ v = index)
          complaints := fun _ _ => false }

/-- Modelled from the spec: `DistKeyGenerator.Deals()` (§4.3 step 1), "one `Deal` per other
participant": the map from the index of a participant to the deal for it, as the list of
its entries in increasing order of the index. -/
def DistKeyGenerator.Deals (G : P) (xOf : Nat → F) (d : DistKeyGenerator F P) :
    Except DkgPanic (List (Nat × Deal F P)) :=
  Except.ok
    (((List.range d.n).filter (fun i => decide (i ≠ d.index))).map (fun i =>
      (i, { Index := d.index, Recipient := i, Share := evalPoly d.secret (xOf i),
            Commits := d.secret.map (fun a => a • G) })))

/-- Modelled from the spec: `DistKeyGenerator.ProcessDeal(deal)` (§4.3 step 2): the
recipient (nobody else can read the encrypted share) "verifies the encrypted share against
the dealer's public commitments; emits a `Response` — `Approved` if verification succeeds,
`Complaint` otherwise". It keeps the deal and notes its own verdict, and that the dealer
stands by its deal. -/
def DistKeyGenerator.ProcessDeal [DecidableEq P] (G : P) (xOf : Nat → F)
    (d : DistKeyGenerator F P) (deal : Deal F P) :
    Except DkgPanic (DistKeyGenerator F P × Response) :=
  if deal.Recipient ≠ d.index then Except.error DkgPanic.NotTheRecipient
  else
    let status := verifyShare G xOf d.t deal.Share deal.Commits d.index
    Except.ok
      ({ d with
          received := fun j => if j = deal.Index then some deal else d.received j
          approvals := fun j v =>
            if j = deal.Index ∧ (v = deal.Index ∨ (v = d.index ∧ status = true)) then true
            else d.approvals j v
          complaints := fun j v =>
            if j = deal.Index ∧ v = d.index ∧ status = false then true else d.complaints j v },
       { Index := deal.Index, Response := { Index := d.index, Status := status } })

/-- Modelled from the spec: `DistKeyGenerator.ProcessResponse(response)` (§4.3 step 3): a
participant notes the verdict of another verifier on a deal it knows; "if a `Complaint`
arrives for its own deal, it must emit a `Justification` that publicly reveals the disputed
share". -/
def DistKeyGenerator.ProcessResponse (G : P) (xOf : Nat → F) (d : DistKeyGenerator F P)
    (response : Response) :
    Except DkgPanic (DistKeyGenerator F P × Option (Justification F P)) :=
  if response.Response.Index = d.index then Except.error DkgPanic.OwnResponse
  else if response.Index ≠ d.index ∧ (d.received response.Index).isNone then
    Except.error DkgPanic.NoDealForResponse
  else
    let d :=
      { d with
          approvals := fun j v =>
            if j = response.Index ∧ v = response.Response.Index ∧ response.Response.Status = true
            then true else d.approvals j v
          complaints := fun j v =>
            if j = response.Index ∧ v = response.Response.Index ∧ response.Response.Status = false
            then true else d.complaints j v }
    if response.Index = d.index ∧ response.Response.Status = false then
      Except.ok (d, some
        { Index := d.index, Verifier := response.Response.Index,
          Share := evalPoly d.secret (xOf response.Response.Index),
          Commits := d.secret.map (fun a => a • G) })
    else Except.ok (d, none)

/-- Modelled from the spec: `DistKeyGenerator.ProcessJustification(justification)` (§4.3
step 3): the revealed share is verified again; a successful justification settles the
complaint, and a failing one is the error `InvalidJustification` (§7). -/
def DistKeyGenerator.ProcessJustification [DecidableEq P] (G : P) (xOf : Nat → F)
    (d : DistKeyGenerator F P) (justification : Justification F P) :
    Except DkgPanic (DistKeyGenerator F P) :=
  if verifyShare G xOf d.t justification.Share justification.Commits justification.Verifier then
    Except.ok
      { d with
          approvals := fun j v =>
            if j = justification.Index ∧ v = justification.Verifier then true
            else d.approvals j v
          complaints := fun j v =>
            if j = justification.Index ∧ v = justification.Verifier then false
            else d.complaints j v }
  else Except.error DkgPanic.InvalidJustification

/-- Modelled from the spec: the qualifying dealers as a participant sees them (§4.3 steps 3
and 4): it holds the dealer's deal (or is the dealer), knows of no open complaint against
it, and knows of at least `t` participants that approve it ("the same contributor-count and
threshold used system-wide"). -/
def DistKeyGenerator.QUAL (d : DistKeyGenerator F P) : List Nat :=
  (List.range d.n).filter (fun j =>
    (decide (j = d.index) || (d.received j).isSome) &&
    (List.range d.n).all (fun v => !d.complaints j v) &&
    decide (d.t ≤ ((List.range d.n).filter (fun v => d.approvals j v)).length))

/-- Modelled from the spec: `DistKeyGenerator.Certified()` (§4.3 step 4, §7): the
qualifying-dealer count has not dropped below `t`. -/
def DistKeyGenerator.Certified (d : DistKeyGenerator F P) : Bool :=
  decide (d.t ≤ d.QUAL.length)

/-- The commitments of dealer `j` as the participant holds them. -/
def DistKeyGenerator.commitsOf (G : P) (d : DistKeyGenerator F P) (j : Nat) : List P :=
  if j = d.index then d.secret.map (fun a => a • G)
  else match d.received j with
    | some deal => deal.Commits
    | none => []

/-- The share of dealer `j` for the participant as the participant holds it. -/
def DistKeyGenerator.shareOf (xOf : Nat → F) (d : DistKeyGenerator F P) (j : Nat) : F :=
  if j = d.index then evalPoly d.secret (xOf d.index)
  else match d.received j with
    | some deal => deal.Share
    | none => 0

/-- Modelled from the spec: `DistKeyGenerator.DistKeyShare()` (§4.3 step 5): a certified
participant "derives its `DistKeyShare` by combining the valid share contributions from all
qualifying dealers' polynomials at its own index, and computes the joint public key as the
aggregate of all qualifying dealers' constant-term commitments" (the aggregate is taken of
every coefficient's commitment). -/
def DistKeyGenerator.DistKeyShare (G : P) (xOf : Nat → F) (d : DistKeyGenerator F P) :
    Except DkgPanic (CryptoVoting.DistKeyShare F P) :=
  if d.Certified = false then Except.error DkgPanic.NotCertified
  else
    Except.ok
      { Commits := (List.range d.t).map (fun c =>
          (d.QUAL.map (fun j => (d.commitsOf G j).getD c 0)).sum)
        Share := { I := d.index, V := (d.QUAL.map (fun j => d.shareOf xOf j)).sum } }

/-- `genPair` of testThreshold.go; `sc` is the scalar picked from the random stream. -/
def genPair (G : P) (sc : F) : F × P := (sc, sc • G)

/-- The second loop of `generate`: one key generator per user `i`, with `check(err)`. -/
def generateLoop [DecidableEq P] (G : P) (coeffs : Nat → Nat → F) (partSec : List F)
    (partPubs : List P) (t : Nat) :
    List Nat → Except DkgPanic (List (DistKeyGenerator F P))
  | [] => Except.ok []
  | i :: rest =>
      match NewDistKeyGenerator G (partSec.getD i 0) partPubs t (coeffs i) with
      | Except.error err => Except.error err
      | Except.ok dkg =>
          match generateLoop G coeffs partSec partPubs t rest with
          | Except.error err => Except.error err
          | Except.ok dkgs => Except.ok (dkg :: dkgs)

/-- `generate` of testThreshold.go. `keys i` is the scalar `genPair` picks for user `i` and
`coeffs i` what `NewDistKeyGenerator` draws for user `i`. -/
def generate [DecidableEq P] (G : P) (keys : Nat → F)
    (coeffs : Nat → Nat → F) (n t : Nat) : Except DkgPanic (List (DistKeyGenerator F P)) :=
  let partPubs := (List.range n).map (fun i => (genPair G (keys i)).2)
  let partSec := (List.range n).map (fun i => (genPair G (keys i)).1)
  generateLoop G coeffs partSec partPubs t (List.range n)

/-- The loop `for j, deal := range deals` of `fullShare`: `dkgs[j]` processes the deal and
the response is appended to `resps`. Go ranges over the map `deals` in no fixed order; the
entries are taken in increasing order of `j`, which only fixes the order of `resps`. -/
def dealLoop [DecidableEq P] (G : P) (xOf : Nat → F) :
    List (DistKeyGenerator F P) → List Response → List (Nat × Deal F P) →
      Except DkgPanic (List (DistKeyGenerator F P) × List Response)
  | dkgs, resps, [] => Except.ok (dkgs, resps)
  | dkgs, resps, (j, deal) :: rest =>
      match dkgs.get? j with
      | none => Except.error DkgPanic.IndexOutOfRange
      | some processor =>
          match processor.ProcessDeal G xOf deal with
          | Except.error err => Except.error err
          | Except.ok (processor, response) =>
              dealLoop G xOf (dkgs.set j processor) (resps ++ [response]) rest

/-- The first loop of `fullShare`, `for _, generator := range dkgs`, over the places of the
generators that are left. -/
def dealAllLoop [DecidableEq P] (G : P) (xOf : Nat → F) :
    List (DistKeyGenerator F P) → List Response → List Nat →
      Except DkgPanic (List (DistKeyGenerator F P) × List Response)
  | dkgs, resps, [] => Except.ok (dkgs, resps)
  | dkgs, resps, g :: rest =>
      match dkgs.get? g with
      | none => Except.error DkgPanic.IndexOutOfRange
      | some generator =>
          match generator.Deals G xOf with
          | Except.error err => Except.error err
          | Except.ok deals =>
              match dealLoop G xOf dkgs resps deals with
              | Except.error err => Except.error err
              | Except.ok (dkgs, resps) => dealAllLoop G xOf dkgs resps rest

/-- The loop `for i, dkg := range dkgs` of `fullShare` for one response: everyone but the
responder processes it, and a justification goes to the responder. -/
def responseLoop [DecidableEq P] (G : P) (xOf : Nat → F) (response : Response) :
    List (DistKeyGenerator F P) → List Nat → Except DkgPanic (List (DistKeyGenerator F P))
  | dkgs, [] => Except.ok dkgs
  | dkgs, i :: rest =>
      if i = response.Response.Index then responseLoop G xOf response dkgs rest
      else
        match dkgs.get? i with
        | none => Except.error DkgPanic.IndexOutOfRange
        | some dkg =>
            match dkg.ProcessResponse G xOf response with
            | Except.error err => Except.error err
            | Except.ok (dkg, none) => responseLoop G xOf response (dkgs.set i dkg) rest
            | Except.ok (dkg, some justification) =>
                let dkgs := dkgs.set i dkg
                match dkgs.get? response.Response.Index with
                | none => Except.error DkgPanic.IndexOutOfRange
                | some sender =>
                    match sender.ProcessJustification G xOf justification with
                    | Except.error err => Except.error err
                    | Except.ok sender =>
                        responseLoop G xOf response
                          (dkgs.set response.Response.Index sender) rest

/-- The second loop of `fullShare`, `for _, response := range resps`. -/
def responseAllLoop [DecidableEq P] (G : P) (xOf : Nat → F) :
    List (DistKeyGenerator F P) → List Response → Except DkgPanic (List (DistKeyGenerator F P))
  | dkgs, [] => Except.ok dkgs
  | dkgs, response :: rest =>
      match responseLoop G xOf response dkgs (List.range dkgs.length) with
      | Except.error err => Except.error err
      | Except.ok dkgs => responseAllLoop G xOf dkgs rest

/-- `fullShare` of testThreshold.go; the key generators are updated in place, so the result
is their list after the communication. -/
def fullShare [DecidableEq P] (G : P) (xOf : Nat → F) (dkgs : List (DistKeyGenerator F P)) :
    Except DkgPanic (List (DistKeyGenerator F P)) :=
  match dealAllLoop G xOf dkgs [] (List.range dkgs.length) with
  | Except.error err => Except.error err
  | Except.ok (dkgs, resps) => responseAllLoop G xOf dkgs resps

/-- The loop of `createThresholdShares` that collects the share of every certified key
generator. -/
def collectShares (G : P) (xOf : Nat → F) :
    List (DistKeyGenerator F P) → Except DkgPanic (List (CryptoVoting.DistKeyShare F P))
  | [] => Except.ok []
  | shareholder :: rest =>
      if shareholder.Certified then
        match shareholder.DistKeyShare G xOf with
        | Except.error err => Except.error err
        | Except.ok newShare =>
            match collectShares G xOf rest with
            | Except.error err => Except.error err
            | Except.ok shares => Except.ok (newShare :: shares)
      else collectShares G xOf rest

/-- `createThresholdShares` of testThreshold.go; an `Except.error` is a panic. -/
def createThresholdShares [DecidableEq P] (G : P) (xOf : Nat → F)
    (keys : Nat → F) (coeffs : Nat → Nat → F) (contributorCount threshold : Nat) :
    Except DkgPanic (List (CryptoVoting.DistKeyShare F P)) :=
  match generate G keys coeffs contributorCount threshold with
  | Except.error err => Except.error err
  | Except.ok dkgs =>
      match fullShare G xOf dkgs with
      | Except.error err => Except.error err
      | Except.ok dkgs => collectShares G xOf dkgs

/-- The secret polynomial of dealer `j`: the `t` coefficients it draws. -/
def dealerSecret (coeffs : Nat → Nat → F) (t j : Nat) : List F := (List.range t).map (coeffs j)

/-- The deal of dealer `j` for participant `i`. -/
def trueDeal (G : P) (xOf : Nat → F) (coeffs : Nat → Nat → F) (t j i : Nat) : Deal F P :=
  { Index := j, Recipient := i, Share := evalPoly (dealerSecret coeffs t j) (xOf i),
    Commits := (dealerSecret coeffs t j).map (fun a => a • G) }

/-- The key generator of participant `k` as `NewDistKeyGenerator` leaves it. -/
def freshGenerator (coeffs : Nat → Nat → F) (n t k : Nat) : DistKeyGenerator F P :=
  { index := k, n := n, t := t, secret := dealerSecret coeffs t k, received := fun _ => none,
    approvals := fun j v => decide (j = k ∧ v = k), complaints := fun _ _ => false }

/-- The approving response of verifier `v` to the deal of dealer `j`. -/
def approval (j v : Nat) : Response := { Index := j, Response := { Index := v, Status := true } }

/-- The state of the key generator of participant `k` is sound: it is the generator of `k`
among `n` participants with threshold `t`, every deal it holds is the dealer's deal for it,
and it knows of no complaint. -/
def Sound (G : P) (xOf : Nat → F) (coeffs : Nat → Nat → F) (n t k : Nat)
    (d : DistKeyGenerator F P) : Prop :=
  d.index = k ∧ d.n = n ∧ d.t = t ∧ d.secret = dealerSecret coeffs t k ∧
  (∀ j deal, d.received j = some deal → deal = trueDeal G xOf coeffs t j k) ∧
  (∀ j v, d.complaints j v = false) ∧ d.approvals k k = true

/-- The key generator `d'` knows all that `d` knows. -/
def Grows (d d' : DistKeyGenerator F P) : Prop :=
  (∀ j deal, d.received j = some deal → d'.received j = some deal) ∧
  (∀ j v, d.approvals j v = true → d'.approvals j v = true)

/-- Every key generator of the list is sound for its place. -/
def SysSound (G : P) (xOf : Nat → F) (coeffs : Nat → Nat → F) (n t : Nat)
    (dkgs : List (DistKeyGenerator F P)) : Prop :=
  dkgs.length = n ∧ ∀ k d, dkgs.get? k = some d → Sound G xOf coeffs n t k d

/-- Every key generator of the list `dkgs'` knows all that the one at its place in `dkgs`
knows. -/
def SysGrows (dkgs dkgs' : List (DistKeyGenerator F P)) : Prop :=
  ∀ k d, dkgs.get? k = some d → ∃ d', dkgs'.get? k = some d' ∧ Grows d d'

/-- Every key generator of the list holds the deal of every other dealer. -/
def HasDeals (n : Nat) (dkgs : List (DistKeyGenerator F P)) : Prop :=
  ∀ k d, dkgs.get? k = some d → ∀ j, j < n → j ≠ k → (d.received j).isSome = true

/-- The share the participant `k` ends with: the aggregate of the commitments of all `n`
dealers, and the sum of their polynomials at the evaluation point of `k`. -/
def jointShare (G : P) (xOf : Nat → F) (coeffs : Nat → Nat → F) (n t k : Nat) :
    DistKeyShare F P :=
  { Commits := (List.range t).map (fun c =>
      ((List.range n).map (fun j =>
        ((dealerSecret coeffs t j).map (fun a => a • G)).getD c 0)).sum)
    Share := { I := k,
               V := ((List.range n).map (fun j => evalPoly (dealerSecret coeffs t j) (xOf k))).sum } }

end DkgDefs

/-! ## The complete benchmark driver (testComplete.go) -/

section MainDefs

/-- The parameters `main` of testComplete.go works with: those it writes in the headers of
the shuffle, encryption and decryption files, the arguments of
`createThresholdShares(n, t)` after the environment loop, and the arguments `t, n` of
`decryptMessages`. -/
structure MainParameters where
  headerN : Int
  headerT : Int
  environmentN : Int
  environmentT : Int
  decryptT : Int
  decryptN : Int
deriving DecidableEq, Repr

/-- The loop `for i := 0; i < 10; i++` of `main`: every iteration computes
`newContributorCount := n - 10 + i*2` and assigns `t = newContributorCount`; the value is
`t` after the loop. -/
def environmentLoop (n t : Int) : Int :=
  (List.range 10).foldl
    (fun _t i =>
      let newContributorCount := n - 10 + (i : Int) * 2
      newContributorCount)
    t

/-- The flow of `n` and `t` through `main` of testComplete.go. -/
def mainParameters : MainParameters :=
  let n : Int := 20
  let t : Int := 10
  let headerN := n
  let headerT := t
  let t := environmentLoop n t
  { headerN := headerN, headerT := headerT, environmentN := n, environmentT := t,
    decryptT := t, decryptN := n }

end MainDefs

/-! ## Long-message chunk codec (testLongMessage.go) -/

section Codec

/-- A Go `byte`. -/
abbrev Byte := Fin 256

/-- The hyper-parameter `messagePartitions`. -/
def messagePartitions : Nat := 8

/-- The hyper-parameter `randomnessLength`. -/
def randomnessLength : Nat := 16

/-- Go's `byte(i)` conversion of an `int`. -/
def byteOfInt (i : Nat) : Byte := ⟨i % 256, Nat.mod_lt _ (by decide)⟩

/-- Go's builtin `copy(dst, src)`: the first `min(len(dst), len(src))` bytes of `dst` are
overwritten; the result is the new content of `dst`. -/
def goCopy (dst src : List Byte) : List Byte :=
  src.take dst.length ++ dst.drop src.length

/-- One iteration of the loop of `encryptLongMessage` up to the call of `Embed`: from the
loop index `i` and `remainingData` it builds `buffer` and the new `remainingData`.
`EmbedLen` is `suite.Point().EmbedLen()`, `randomBytes` the 16-byte buffer filled from the
random stream. `none` is an out-of-range panic (`buffer[0:randomnessLength]`,
`buffer[randomnessLength]`). -/
def fillBuffer (EmbedLen : Nat) (randomBytes : List Byte) (i : Nat)
    (remainingData : List Byte) : Option (List Byte × List Byte) :=
  let meaningfulDataLength := EmbedLen - randomnessLength - 1
  let buffer : List Byte := List.replicate EmbedLen 0
  if EmbedLen < randomnessLength then none
  else
    let buffer := goCopy (buffer.take randomnessLength) randomBytes ++ buffer.drop randomnessLength
    if EmbedLen ≤ randomnessLength then none
    else
      let buffer := buffer.set randomnessLength (byteOfInt i)
      if meaningfulDataLength ≤ remainingData.length then
        let buffer := buffer.take (randomnessLength + 1) ++
          goCopy (buffer.drop (randomnessLength + 1)) (remainingData.take meaningfulDataLength)
        some (buffer, remainingData.drop meaningfulDataLength)
      else
        let buffer := buffer.take (randomnessLength + 1) ++
          goCopy (buffer.drop (randomnessLength + 1)) remainingData
        some (buffer, [])

/-- The loop `for i := range messagePortions` of `encryptLongMessage`, with `count`
iterations left, loop index `i` and the current `remainingData`; `act i buffer` is what
the iteration records for its buffer (the embedding and its encryption). -/
def portionLoop {β : Type} (EmbedLen : Nat) (randomBytes : List Byte) (act : Nat → List Byte → β) :
    Nat → Nat → List Byte → Option (List β)
  | 0, _, _ => some []
  | count + 1, i, remainingData =>
      match fillBuffer EmbedLen randomBytes i remainingData with
      | none => none
      | some (buffer, remainingData) =>
          (portionLoop EmbedLen randomBytes act count (i + 1) remainingData).map
            (fun rest => act i buffer :: rest)

/-- The buffers that the iterations of `encryptLongMessage` hand to `Embed`. -/
def messageBuffers (EmbedLen : Nat) (randomBytes data : List Byte) : Option (List (List Byte)) :=
  portionLoop EmbedLen randomBytes (fun _ buffer => buffer) messagePartitions 0 data

/-- `SortableBytesList.Less` on the two slices `a[i]`, `a[j]`. -/
def SortableBytesList.Less : List Byte → List Byte → Bool
  | [], [] => false
  | [], _ :: _ => true
  | _ :: _, [] => false
  | x :: xs, y :: ys => if x ≠ y then decide (x < y) else SortableBytesList.Less xs ys

/-- `isDataEqual`. -/
def isDataEqual (a b : List Byte) : Bool :=
  if a.length ≠ b.length then false
  else (List.zip a b).all (fun p => decide (p.1 = p.2))

/-- `sort.Sort(SortableBytesList(messageChunks))`. `Less` is a strict total order on byte
strings, so the sorted arrangement of a list is unique and any correct sort gives it; it
is computed here by insertion. -/
def sortChunks (messageChunks : List (List Byte)) : List (List Byte) :=
  messageChunks.insertionSort (fun x y => SortableBytesList.Less y x = false)

/-- The variables of the scan of `compileMessages`. -/
structure CompileState where
  currentPrefix : List Byte
  currentIndex : Byte
  completeMessages : List (List Byte)
deriving DecidableEq, Repr

/-- The body of the loop `for i := range messageChunks` of `compileMessages` for one
chunk; `none` is a panic (a slice or index out of range). -/
def compileStep (st : CompileState) (chunk : List Byte) : Option CompileState :=
  if chunk.length < randomnessLength + 1 then none
  else
    let pre := chunk.take randomnessLength
    let index := chunk.getD randomnessLength 0
    let data := chunk.drop (randomnessLength + 1)
    if isDataEqual st.currentPrefix pre then
      if st.currentIndex = index then some st
      else
        match st.completeMessages.getLast? with
        | none => none
        | some last =>
            some { st with
              currentIndex := index
              completeMessages := st.completeMessages.dropLast ++ [last ++ data] }
    else
      some { currentPrefix := pre, currentIndex := index,
             completeMessages := st.completeMessages ++ [data] }

/-- The scan of `compileMessages` over the chunks that are left. -/
def compileLoop : CompileState → List (List Byte) → Option CompileState
  | st, [] => some st
  | st, chunk :: rest =>
      match compileStep st chunk with
      | none => none
      | some st => compileLoop st rest

/-- `compileMessages` from the point where all the data has been retrieved. -/
def compileChunks (messageChunks : List (List Byte)) : Option (List (List Byte)) :=
  (compileLoop { currentPrefix := [], currentIndex := 0, completeMessages := [] }
    (sortChunks messageChunks)).map (fun st => st.completeMessages)

/-- The first loop of `compileMessages`: the data of every decrypted point is retrieved
with its `Data()` method; `none` is the panic of `check(err)`. -/
def retrieveData {P : Type} (Data : P → Option (List Byte)) : List P → Option (List (List Byte))
  | [] => some []
  | point :: rest =>
      match Data point with
      | none => none
      | some data => (retrieveData Data rest).map (fun chunks => data :: chunks)

/-- `compileMessages`; `Data` is the `Data()` method of a point, `none` when it
reports an error. -/
def compileMessages {P : Type} (Data : P → Option (List Byte)) (decryptedMessages : List P) :
    Option (List (List Byte)) :=
  match retrieveData Data decryptedMessages with
  | none => none
  | some messageChunks => compileChunks messageChunks

/-- `encryptLongMessage`: every iteration embeds its buffer and encrypts the embedding
under `h`. `Embed buffer e` is `suite.Point().Embed(buffer, suite.RandomStream())` with `e`
what the embedding draws from the stream; `embedRand i` and `encRand i` are the draws of
iteration `i`. The result is `(messagePortions, elGamal1, elGamal2)`. -/
def encryptLongMessage {F P E : Type} [Field F] [AddCommGroup P] [Module F P]
    (G : P) (Embed : List Byte → E → P) (EmbedLen : Nat) (randomBytes : List Byte)
    (embedRand : Nat → E) (encRand : Nat → F) (data : List Byte) (h : P) :
    Option (List P × List P × List P) :=
  (portionLoop EmbedLen randomBytes
      (fun i buffer =>
        let embeddedMessage := Embed buffer (embedRand i)
        (embeddedMessage, encryptMessage G (encRand i) embeddedMessage h))
      messagePartitions 0 data).map
    (fun out => (out.map (fun o => o.1), out.map (fun o => o.2.1), out.map (fun o => o.2.2)))

end Codec

/-! ## Vocabulary of the codec properties -/

section CodecVocabulary

/-- The strict lexicographic order on byte strings. -/
abbrev lexLt (x y : List Byte) : Prop := List.Lex (· < ·) x y

/-- The order `sortChunks` sorts by: `y` is not before `x`. -/
abbrev notAfter (x y : List Byte) : Prop := SortableBytesList.Less y x = false

/-- The 16-byte nonce of a chunk. -/
def nonceOf (chunk : List Byte) : List Byte := chunk.take randomnessLength

/-- The index byte of a chunk. -/
def indexOf (chunk : List Byte) : Byte := chunk.getD randomnessLength 0

/-- The payload of a chunk: the bytes from offset 17 on. -/
def payloadOf (chunk : List Byte) : List Byte := chunk.drop (randomnessLength + 1)

/-- The start of the scan of `compileMessages`. -/
def initState : CompileState := { currentPrefix := [], currentIndex := 0, completeMessages := [] }

/-- The messages a scan without skipped chunks produces from the chunks that are left, when
the message in progress is `m` and its nonce is `N`. -/
def groupFrom (N m : List Byte) : List (List Byte) → List (List Byte)
  | [] => [m]
  | c :: rest =>
      if nonceOf c = N then groupFrom N (m ++ payloadOf c) rest
      else m :: groupFrom (nonceOf c) (payloadOf c) rest

/-- Two chunks carry the same nonce and the same index byte. -/
def SameKey (a b : List Byte) : Prop := nonceOf a = nonceOf b ∧ indexOf a = indexOf b

/-- A payload filled up with zero bytes to length `L`. -/
def zeroPad (L : Nat) (x : List Byte) : List Byte := x ++ List.replicate (L - x.length) 0

/-- The chunk with nonce `N`, index `i` and (padded) payload `x`. -/
def chunkOf (L : Nat) (N : List Byte) (i : Nat) (x : List Byte) : List Byte :=
  N ++ byteOfInt i :: zeroPad L x

/-- The first `k` chunks of the split of `data` under nonce `N` with payload length `L`:
chunk `j` carries `data[j*L .. (j+1)*L)`, cut at the end of `data` and filled with zeros. -/
def splitChunks (L : Nat) (N data : List Byte) (k : Nat) : List (List Byte) :=
  (List.range k).map (fun j => chunkOf L N j ((data.drop (j * L)).take L))

/-- A concrete group for the worked examples: sequences of rationals, a vector space over
the rationals. -/
abbrev SeqPoint : Type := Nat → ℚ

/-- An embedding into `SeqPoint`: coordinate `k` holds byte `k` of the data. -/
def seqEmbed (data : List Byte) (_e : Unit) : SeqPoint := fun k => ((data.getD k 0).val : ℚ)

/-- The data of a `SeqPoint` under an embedding length `n`: its first `n` coordinates. -/
def seqData (n : Nat) (p : SeqPoint) : Option (List Byte) :=
  some ((List.range n).map (fun k => byteOfInt (p k).num.toNat))

/-- No message is in progress, or some message has been started. -/
def Started (st : CompileState) : Prop := st.currentPrefix = [] ∨ st.completeMessages ≠ []

/-- The nonces at which a scan that is at nonce `N` starts a new message. -/
def tailNonces (N : List Byte) : List (List Byte) → List (List Byte)
  | [] => []
  | c :: rest =>
      if nonceOf c = N then tailNonces N rest else nonceOf c :: tailNonces (nonceOf c) rest

/-- The payloads of the chunks of `S` with nonce `N`, one after the other in the order of
`S`. -/
def payloadsOf (S : List (List Byte)) (N : List Byte) : List Byte :=
  ((S.filter (fun c => nonceOf c = N)).map payloadOf).flatten

/-- The chunks with nonce `N`, taken in increasing order of the index byte. -/
def chunksOfNonce (chunks : List (List Byte)) (N : List Byte) : List (List Byte) :=
  (chunks.filter (fun c => nonceOf c = N)).insertionSort (fun a b => indexOf a ≤ indexOf b)

/-- The message of nonce `N`: the concatenation of the payloads of the chunks with that
nonce taken in increasing order of the index byte. -/
def messageOfNonce (chunks : List (List Byte)) (N : List Byte) : List Byte :=
  ((chunksOfNonce chunks N).map payloadOf).flatten

/-- The chunks a scan that has just looked at `p` does not skip: a chunk is dropped when it
has the nonce and the index byte of the last chunk kept. -/
def dropSame (p : List Byte) : List (List Byte) → List (List Byte)
  | [] => []
  | c :: rest =>
      if nonceOf p = nonceOf c ∧ indexOf p = indexOf c then dropSame p rest
      else c :: dropSame c rest

/-- The chunks of a sorted sequence that are the first with their nonce and index byte. -/
def keepFirst : List (List Byte) → List (List Byte)
  | [] => []
  | c :: rest => c :: dropSame c rest

end CodecVocabulary

/-! ## Lemmas on Lagrange recovery -/

section ThresholdLemmas

variable {F P : Type} [Field F] [AddCommGroup P] [Module F P]

open Polynomial

theorem evalPoly_eq_eval (coeffs : List F) :
    ∃ p : F[X], p.degree < coeffs.length ∧ ∀ x, p.eval x = evalPoly coeffs x := by
  induction coeffs with
  | nil => exact ⟨0, by simp, fun x => by simp [evalPoly]⟩
  | cons a cs ih =>
    obtain ⟨p, hp, he⟩ := ih
    refine ⟨C a + X * p, ?_, fun x => ?_⟩
    · rw [degree_lt_iff_coeff_zero] at hp ⊢
      intro k hk
      obtain ⟨j, rfl⟩ : ∃ j, k = j + 1 := ⟨k - 1, by simp at hk; omega⟩
      have hj : cs.length ≤ j := by simp at hk; omega
      simp [coeff_C, coeff_X_mul, hp j hj]
    · simp [evalPoly, he x]

theorem lagrangeCoeff_eq (xOf : Nat → F) (indices : List Nat) (hn : indices.Nodup) (i : Nat) :
    lagrangeCoeff xOf indices i = (Lagrange.basis indices.toFinset xOf i).eval 0 := by
  unfold lagrangeCoeff Lagrange.basis
  rw [eval_prod]
  have hf : (indices.filter (fun j => j ≠ i)).toFinset = indices.toFinset.erase i := by
    ext j; simp [and_comm]
  rw [← hf, List.prod_toFinset _ (hn.filter _)]
  congr 1
  apply List.map_congr_left
  intro j _
  simp [Lagrange.basisDivisor, div_eq_mul_inv, mul_comm]

theorem lagrange_sum (xOf : Nat → F) (coeffs : List F) (indices : List Nat)
    (hn : indices.Nodup) (hinj : Set.InjOn xOf {i | i ∈ indices})
    (ht : coeffs.length ≤ indices.length) :
    (indices.map (fun i => lagrangeCoeff xOf indices i * evalPoly coeffs (xOf i))).sum =
      evalPoly coeffs 0 := by
  obtain ⟨p, hp, he⟩ := evalPoly_eq_eval coeffs
  have hinj' : Set.InjOn xOf (indices.toFinset : Set ℕ) := by
    intro a ha b hb hab
    exact hinj (by simpa using ha) (by simpa using hb) hab
  have hcard : p.degree < indices.toFinset.card := by
    rw [List.toFinset_card_of_nodup hn]
    exact lt_of_lt_of_le hp (by exact_mod_cast ht)
  have key := Lagrange.eq_interpolate (f := p) hinj' hcard
  have h0 := congrArg (fun q => q.eval 0) key
  simp only [Lagrange.interpolate_apply, eval_finset_sum, eval_mul, eval_C] at h0
  rw [← he 0, h0, ← List.sum_toFinset _ hn]
  apply Finset.sum_congr rfl
  intro i _
  rw [lagrangeCoeff_eq xOf indices hn i, he, mul_comm]




theorem recoverCommit_shadows (xOf : Nat → F) (coeffs : List F) (t n : Nat)
    (shares : List (DistKeyShare F P)) (c1 c2 : P) (hdeg : coeffs.length = t)
    (hv : ValidShares xOf coeffs t shares) :
    RecoverCommit xOf (shares.map (extractShadow c1 c2)) t n =
      Except.ok (evalPoly coeffs 0 • c1) := by
  obtain ⟨hval, hnd, hinj, ht⟩ := hv
  have hI : (shares.map (extractShadow c1 c2)).map (fun s => s.I) =
      shares.map (fun s => s.Share.I) := by
    simp [List.map_map, Function.comp_def, extractShadow, DistKeyShare.PriShare]
  unfold RecoverCommit
  rw [if_neg (by simp; omega), hI, if_neg (by simpa using hnd)]
  congr 1
  have hsum := lagrange_sum xOf coeffs (shares.map (fun s => s.Share.I)) hnd
    (by
      intro a ha b hb hab
      simp only [Set.mem_setOf_eq, List.mem_map] at ha hb
      obtain ⟨s, hs, rfl⟩ := ha
      obtain ⟨s', hs', rfl⟩ := hb
      exact hinj s hs s' hs' hab)
    (by simp; omega)
  rw [← hsum, List.sum_smul, List.map_map, List.map_map, List.map_map]
  congr 1
  apply List.map_congr_left
  intro s hs
  simp only [Function.comp, extractShadow, DistKeyShare.PriShare, hval s hs, smul_smul]


theorem decrypt_valid (G : P) (xOf : Nat → F) (coeffs : List F) (t n : Nat)
    (shares : List (DistKeyShare F P)) (m : P) (r : F) (hdeg : coeffs.length = t)
    (hv : ValidShares xOf coeffs t shares) :
    decryptMessageSecretless xOf (encryptMessage G r m (evalPoly coeffs 0 • G)).1
        (encryptMessage G r m (evalPoly coeffs 0 • G)).2
        (shares.map (extractShadow (encryptMessage G r m (evalPoly coeffs 0 • G)).1
          (encryptMessage G r m (evalPoly coeffs 0 • G)).2)) t n = Except.ok m := by
  unfold decryptMessageSecretless
  rw [recoverCommit_shadows xOf coeffs t n shares _ _ hdeg hv]
  simp only [encryptMessage]
  congr 1
  rw [smul_smul, smul_smul, mul_comm]
  abel

end ThresholdLemmas

/-! ## Lemmas on the shuffle test -/

section ShuffleLemmas
open List

theorem checkPairs_self {P : Type} [DecidableEq P] (l : List P) : checkPairs l l = Except.ok () := by
  induction l with
  | nil => rfl
  | cons x l ih => simp [checkPairs, ih]

theorem sortPoints_congr {P κ : Type} [LinearOrder κ] (str : P → κ)
    (hstr : Function.Injective str) {l₁ l₂ : List P} (hp : l₁ ~ l₂) :
    sortPoints str l₁ = sortPoints str l₂ := by
  have hanti : IsAntisymm P (fun x y => str x ≤ str y) :=
    ⟨fun x y hxy hyx => hstr (le_antisymm hxy hyx)⟩
  have htotal : IsTotal P (fun x y => str x ≤ str y) := ⟨fun x y => le_total _ _⟩
  have htrans : IsTrans P (fun x y => str x ≤ str y) := ⟨fun x y z => le_trans⟩
  unfold sortPoints
  exact List.eq_of_perm_of_sorted
    (((List.perm_insertionSort _ l₁).trans hp).trans (List.perm_insertionSort _ l₂).symm)
    (List.sorted_insertionSort _ l₁) (List.sorted_insertionSort _ l₂)

variable {F P : Type} [Field F] [AddCommGroup P] [Module F P]

theorem decryptAll_length : ∀ (e1 e2 : List P) (a : F), e1.length = e2.length →
    decryptAll e1 e2 a =
      some ((List.range e1.length).map
        (fun i => decryptMessage (e1.getD i 0) (e2.getD i 0) a)) := by
  intro e1
  induction e1 with
  | nil => intro e2 a _; simp [decryptAll]
  | cons x e1 ih =>
    intro e2 a h
    cases e2 with
    | nil => simp at h
    | cons y e2 =>
      simp only [List.length_cons, Nat.add_right_cancel_iff] at h
      simp only [decryptAll, ih e2 a h, Option.map_some', List.length_cons]
      rw [List.range_succ_eq_map]
      simp [Function.comp_def]

theorem decryptMessage_rerandomize (G : P) (a s : F) (c1 c2 : P) :
    decryptMessage (c1 + s • G) (c2 + s • (a • G)) a = decryptMessage c1 c2 a := by
  simp only [decryptMessage, smul_add]
  rw [smul_smul, smul_smul, mul_comm a s]
  abel

theorem map_getD_perm_range {α : Type} (l : List α) (d : α) (shufflePi : List Nat)
    (hpi : shufflePi ~ List.range l.length) : shufflePi.map (fun j => l.getD j d) ~ l := by
  have h1 := hpi.map (fun j => l.getD j d)
  have h2 : (List.range l.length).map (fun j => l.getD j d) = l := by
    apply List.ext_getElem
    · simp
    · intro i h1 h2
      simp [List.getElem?_eq_getElem h2]
  rwa [h2] at h1

end ShuffleLemmas

/-! ## Lemmas on key generation -/

section DkgLemmas

variable {F P : Type} [Field F] [AddCommGroup P] [Module F P]

theorem evalCommit_map (G : P) (coeffs : List F) (x : F) :
    evalCommit (coeffs.map (fun c => c • G)) x = evalPoly coeffs x • G := by
  induction coeffs with
  | nil => simp [evalCommit, evalPoly]
  | cons c cs ih =>
    have ih' : List.foldr (fun c acc => c + x • acc) 0 (cs.map (fun c => c • G)) =
        List.foldr (fun a acc => a + x * acc) 0 cs • G := ih
    simp only [evalCommit, evalPoly, List.map_cons, List.foldr_cons, ih', add_smul, smul_smul]

theorem verifyShare_trueDeal [DecidableEq P] (G : P) (xOf : Nat → F) (coeffs : Nat → Nat → F)
    (t j i : Nat) :
    verifyShare G xOf t (trueDeal G xOf coeffs t j i).Share (trueDeal G xOf coeffs t j i).Commits
      i = true := by
  simp only [verifyShare, trueDeal, dealerSecret, List.length_map, List.length_range,
    decide_True, Bool.true_and, decide_eq_true_eq]
  exact (evalCommit_map G _ _).symm

omit [Field F] [AddCommGroup P] [Module F P] in
theorem grows_refl (d : DistKeyGenerator F P) : Grows d d := ⟨fun _ _ h => h, fun _ _ h => h⟩

omit [Field F] [AddCommGroup P] [Module F P] in
theorem grows_trans {d₁ d₂ d₃ : DistKeyGenerator F P} (h₁ : Grows d₁ d₂) (h₂ : Grows d₂ d₃) :
    Grows d₁ d₃ :=
  ⟨fun j deal h => h₂.1 j deal (h₁.1 j deal h), fun j v h => h₂.2 j v (h₁.2 j v h)⟩

omit [Field F] [AddCommGroup P] [Module F P] in
theorem sysGrows_refl (dkgs : List (DistKeyGenerator F P)) : SysGrows dkgs dkgs :=
  fun _ d h => ⟨d, h, grows_refl d⟩

omit [Field F] [AddCommGroup P] [Module F P] in
theorem sysGrows_trans {a b c : List (DistKeyGenerator F P)} (h₁ : SysGrows a b)
    (h₂ : SysGrows b c) : SysGrows a c := by
  intro k d hd
  obtain ⟨d', hd', hg⟩ := h₁ k d hd
  obtain ⟨d'', hd'', hg'⟩ := h₂ k d' hd'
  exact ⟨d'', hd'', grows_trans hg hg'⟩

theorem processDeal_sound [DecidableEq P] (G : P) (xOf : Nat → F) (coeffs : Nat → Nat → F)
    (n t k j : Nat) (d : DistKeyGenerator F P) (hd : Sound G xOf coeffs n t k d) :
    ∃ d', d.ProcessDeal G xOf (trueDeal G xOf coeffs t j k) = Except.ok (d', approval j k) ∧
      Sound G xOf coeffs n t k d' ∧ Grows d d' ∧
      d'.received j = some (trueDeal G xOf coeffs t j k) ∧
      d'.approvals j j = true ∧ d'.approvals j k = true := by
  obtain ⟨h1, h2, h3, h4, h5, h6, h7⟩ := hd
  have hv : verifyShare G xOf d.t (trueDeal G xOf coeffs t j k).Share
      (trueDeal G xOf coeffs t j k).Commits d.index = true := by
    rw [h1, h3]; exact verifyShare_trueDeal G xOf coeffs t j k
  have hrec : (trueDeal G xOf coeffs t j k).Recipient = d.index := by rw [h1]; rfl
  have hidx : (trueDeal G xOf coeffs t j k).Index = j := rfl
  cases hres : d.ProcessDeal G xOf (trueDeal G xOf coeffs t j k) with
  | error e =>
    unfold DistKeyGenerator.ProcessDeal at hres
    rw [if_neg (by simp [hrec])] at hres
    cases hres
  | ok p =>
  unfold DistKeyGenerator.ProcessDeal at hres
  rw [if_neg (by simp [hrec])] at hres
  obtain ⟨d', r⟩ := p
  simp only [hv, Except.ok.injEq, Prod.mk.injEq] at hres
  obtain ⟨hd', hr⟩ := hres
  refine ⟨d', ?_, ?_, ?_, ?_, ?_, ?_⟩ <;> subst hd'
  · rw [← hr, h1]
    rfl
  · refine ⟨h1, h2, h3, h4, ?_, ?_, ?_⟩
    · intro j' deal hdeal
      simp only [hidx] at hdeal
      by_cases hj : j' = j
      · subst hj
        simp at hdeal
        exact hdeal.symm
      · simp only [hj, if_false] at hdeal
        exact h5 j' deal hdeal
    · intro j' v
      simp [hv, h6]
    · simp only [hidx]
      split
      · rfl
      · exact h7
  · refine ⟨?_, ?_⟩
    · intro j' deal hdeal
      simp only [hidx]
      by_cases hj : j' = j
      · subst hj
        simp only [if_true]
        rw [h5 j' deal hdeal]
      · simp only [hj, if_false]
        exact hdeal
    · intro j' v hjv
      simp only [hidx]
      split
      · rfl
      · exact hjv
  · simp [hidx]
  · simp [hidx]
  · simp [hidx, h1]

theorem processResponse_sound (G : P) (xOf : Nat → F) (coeffs : Nat → Nat → F)
    (n t k j v : Nat) (d : DistKeyGenerator F P) (hd : Sound G xOf coeffs n t k d)
    (hv : v ≠ k) (hj : j = k ∨ (d.received j).isSome = true) :
    ∃ d', d.ProcessResponse G xOf (approval j v) = Except.ok (d', none) ∧
      Sound G xOf coeffs n t k d' ∧ Grows d d' ∧ d'.approvals j v = true := by
  obtain ⟨h1, h2, h3, h4, h5, h6, h7⟩ := hd
  have hne : ¬ (approval j v).Response.Index = d.index := by rw [h1]; exact hv
  have hdeal : ¬ ((approval j v).Index ≠ d.index ∧ (d.received (approval j v).Index).isNone = true) := by
    rintro ⟨ha, hb⟩
    rcases hj with hj | hj
    · exact ha (by rw [h1]; exact hj)
    · have : (d.received j).isNone = true := hb
      rw [Option.isNone_iff_eq_none] at this
      rw [this] at hj
      cases hj
  cases hres : d.ProcessResponse G xOf (approval j v) with
  | error e =>
    unfold DistKeyGenerator.ProcessResponse at hres
    rw [if_neg hne, if_neg hdeal] at hres
    simp [approval] at hres
  | ok p =>
  obtain ⟨d', r⟩ := p
  unfold DistKeyGenerator.ProcessResponse at hres
  rw [if_neg hne, if_neg hdeal] at hres
  simp only [approval, Bool.true_eq_false, and_false, if_false, Except.ok.injEq,
    Prod.mk.injEq] at hres
  obtain ⟨hd', hr⟩ := hres
  refine ⟨d', by rw [hr], ?_, ?_, ?_⟩ <;> subst hd'
  · refine ⟨h1, h2, h3, h4, h5, ?_, ?_⟩
    · intro j' v'
      simp [h6]
    · simp only
      split
      · rfl
      · exact h7
  · refine ⟨fun _ _ h => h, ?_⟩
    intro j' v' hjv
    simp only
    split
    · rfl
    · exact hjv
  · simp

theorem sysSound_set (G : P) (xOf : Nat → F) (coeffs : Nat → Nat → F) (n t i : Nat)
    (dkgs : List (DistKeyGenerator F P)) (d d' : DistKeyGenerator F P)
    (hs : SysSound G xOf coeffs n t dkgs) (hi : dkgs.get? i = some d)
    (hd' : Sound G xOf coeffs n t i d') (hg : Grows d d') :
    SysSound G xOf coeffs n t (dkgs.set i d') ∧ SysGrows dkgs (dkgs.set i d') ∧
      (dkgs.set i d').get? i = some d' := by
  have hlt : i < dkgs.length := by
    rw [List.get?_eq_getElem?] at hi
    exact (List.getElem?_eq_some_iff.1 hi).1
  refine ⟨⟨by rw [List.length_set]; exact hs.1, ?_⟩, ?_, ?_⟩
  · intro k x hk
    rw [List.get?_eq_getElem?, List.getElem?_set] at hk
    by_cases hik : i = k
    · subst hik
      simp only [if_true, hlt] at hk
      cases hk
      exact hd'
    · simp only [hik, if_false] at hk
      exact hs.2 k x (by rw [List.get?_eq_getElem?]; exact hk)
  · intro k x hk
    by_cases hik : i = k
    · subst hik
      rw [hi] at hk
      cases hk
      exact ⟨d', by rw [List.get?_eq_getElem?, List.getElem?_set]; simp [hlt], hg⟩
    · refine ⟨x, ?_, grows_refl x⟩
      rw [List.get?_eq_getElem?, List.getElem?_set]
      simp only [hik, if_false]
      rw [← List.get?_eq_getElem?]
      exact hk
  · rw [List.get?_eq_getElem?, List.getElem?_set]
    simp [hlt]

theorem sysSound_get (G : P) (xOf : Nat → F) (coeffs : Nat → Nat → F) (n t i : Nat)
    (dkgs : List (DistKeyGenerator F P)) (hs : SysSound G xOf coeffs n t dkgs) (hi : i < n) :
    ∃ d, dkgs.get? i = some d ∧ Sound G xOf coeffs n t i d := by
  have hlt : i < dkgs.length := by rw [hs.1]; exact hi
  refine ⟨dkgs[i], ?_, ?_⟩
  · rw [List.get?_eq_getElem?]; exact List.getElem?_eq_getElem hlt
  · exact hs.2 i _ (by rw [List.get?_eq_getElem?]; exact List.getElem?_eq_getElem hlt)

theorem dealLoop_sound [DecidableEq P] (G : P) (xOf : Nat → F) (coeffs : Nat → Nat → F)
    (n t g : Nat) :
    ∀ (I : List Nat) (dkgs : List (DistKeyGenerator F P)) (resps : List Response),
      (∀ i ∈ I, i < n) → SysSound G xOf coeffs n t dkgs →
      ∃ dkgs', dealLoop G xOf dkgs resps (I.map (fun i => (i, trueDeal G xOf coeffs t g i))) =
          Except.ok (dkgs', resps ++ I.map (fun i => approval g i)) ∧
        SysSound G xOf coeffs n t dkgs' ∧ SysGrows dkgs dkgs' ∧
        ∀ i ∈ I, ∃ d', dkgs'.get? i = some d' ∧
          d'.received g = some (trueDeal G xOf coeffs t g i) ∧
          d'.approvals g g = true ∧ d'.approvals g i = true := by
  intro I
  induction I with
  | nil =>
    intro dkgs resps _ hs
    exact ⟨dkgs, by simp [dealLoop], hs, sysGrows_refl dkgs, by simp⟩
  | cons i I ih =>
    intro dkgs resps hI hs
    obtain ⟨d, hget, hd⟩ := sysSound_get G xOf coeffs n t i dkgs hs (hI i (List.mem_cons_self _ _))
    obtain ⟨d1, hp, hd1, hg1, hr1, ha1, hb1⟩ := processDeal_sound G xOf coeffs n t i g d hd
    obtain ⟨hs1, hsg1, hget1⟩ := sysSound_set G xOf coeffs n t i dkgs d d1 hs hget hd1 hg1
    obtain ⟨dkgs', hloop, hs', hsg', hfacts⟩ := ih (dkgs.set i d1) (resps ++ [approval g i])
      (fun x hx => hI x (List.mem_cons_of_mem _ hx)) hs1
    refine ⟨dkgs', ?_, hs', sysGrows_trans hsg1 hsg', ?_⟩
    · simp only [List.map_cons, dealLoop, hget, hp, hloop]
      simp
    · intro x hx
      rcases List.mem_cons.1 hx with rfl | hx
      · obtain ⟨d', hd', hgr⟩ := hsg' x d1 hget1
        exact ⟨d', hd', hgr.1 _ _ hr1, hgr.2 _ _ ha1, hgr.2 _ _ hb1⟩
      · exact hfacts x hx

theorem deals_sound (G : P) (xOf : Nat → F) (coeffs : Nat → Nat → F) (n t g : Nat)
    (d : DistKeyGenerator F P) (hd : Sound G xOf coeffs n t g d) :
    d.Deals G xOf = Except.ok
      (((List.range n).filter (fun i => decide (i ≠ g))).map
        (fun i => (i, trueDeal G xOf coeffs t g i))) := by
  obtain ⟨h1, h2, _, h4, _⟩ := hd
  simp only [DistKeyGenerator.Deals, h1, h2, h4, trueDeal]

theorem dealAllLoop_sound [DecidableEq P] (G : P) (xOf : Nat → F) (coeffs : Nat → Nat → F)
    (n t : Nat) :
    ∀ (Gs : List Nat) (dkgs : List (DistKeyGenerator F P)) (resps : List Response),
      (∀ g ∈ Gs, g < n) → SysSound G xOf coeffs n t dkgs →
      ∃ dkgs' R, dealAllLoop G xOf dkgs resps Gs = Except.ok (dkgs', resps ++ R) ∧
        SysSound G xOf coeffs n t dkgs' ∧ SysGrows dkgs dkgs' ∧
        (∀ r ∈ R, ∃ g v, g < n ∧ v < n ∧ v ≠ g ∧ r = approval g v) ∧
        ∀ g ∈ Gs, ∀ i, i < n → i ≠ g →
          approval g i ∈ R ∧
          ∃ d', dkgs'.get? i = some d' ∧
            d'.received g = some (trueDeal G xOf coeffs t g i) ∧
            d'.approvals g g = true ∧ d'.approvals g i = true := by
  intro Gs
  induction Gs with
  | nil =>
    intro dkgs resps _ hs
    exact ⟨dkgs, [], by simp [dealAllLoop], hs, sysGrows_refl dkgs, by simp, by simp⟩
  | cons g Gs ih =>
    intro dkgs resps hG hs
    have hg : g < n := hG g (List.mem_cons_self _ _)
    obtain ⟨d, hget, hd⟩ := sysSound_get G xOf coeffs n t g dkgs hs hg
    have hI : ∀ i ∈ (List.range n).filter (fun i => decide (i ≠ g)), i < n := by
      intro i hi
      exact List.mem_range.1 (List.mem_filter.1 hi).1
    obtain ⟨dkgs1, hloop1, hs1, hsg1, hfacts1⟩ :=
      dealLoop_sound G xOf coeffs n t g _ dkgs resps hI hs
    obtain ⟨dkgs', R, hloop, hs', hsg', hR, hfacts⟩ :=
      ih dkgs1 (resps ++ ((List.range n).filter (fun i => decide (i ≠ g))).map
        (fun i => approval g i)) (fun x hx => hG x (List.mem_cons_of_mem _ hx)) hs1
    refine ⟨dkgs', ((List.range n).filter (fun i => decide (i ≠ g))).map
      (fun i => approval g i) ++ R, ?_, hs', sysGrows_trans hsg1 hsg', ?_, ?_⟩
    · simp only [dealAllLoop, hget, deals_sound G xOf coeffs n t g d hd, hloop1, hloop,
        List.append_assoc]
    · intro r hr
      rcases List.mem_append.1 hr with hr | hr
      · obtain ⟨i, hi, rfl⟩ := List.mem_map.1 hr
        have hi' := List.mem_filter.1 hi
        exact ⟨g, i, hg, List.mem_range.1 hi'.1, by simpa using hi'.2, rfl⟩
      · exact hR r hr
    · intro g' hg' i hi hne
      rcases List.mem_cons.1 hg' with rfl | hg'
      · have hmem : i ∈ (List.range n).filter (fun i => decide (i ≠ g')) :=
          List.mem_filter.2 ⟨List.mem_range.2 hi, by simpa using hne⟩
        refine ⟨List.mem_append_left _ (List.mem_map.2 ⟨i, hmem, rfl⟩), ?_⟩
        obtain ⟨d1, hd1, hr1, ha1, hb1⟩ := hfacts1 i hmem
        obtain ⟨d', hd', hgr⟩ := hsg' i d1 hd1
        exact ⟨d', hd', hgr.1 _ _ hr1, hgr.2 _ _ ha1, hgr.2 _ _ hb1⟩
      · obtain ⟨hm, hrest⟩ := hfacts g' hg' i hi hne
        exact ⟨List.mem_append_right _ hm, hrest⟩

theorem hasDeals_grows (G : P) (xOf : Nat → F) (coeffs : Nat → Nat → F) (n t : Nat)
    (dkgs dkgs' : List (DistKeyGenerator F P)) (hs : SysSound G xOf coeffs n t dkgs)
    (hs' : SysSound G xOf coeffs n t dkgs') (hg : SysGrows dkgs dkgs')
    (hd : HasDeals n dkgs) : HasDeals n dkgs' := by
  intro k d' hk j hj hjk
  have hlt : k < n := by
    rw [List.get?_eq_getElem?] at hk
    have := (List.getElem?_eq_some_iff.1 hk).1
    rwa [hs'.1] at this
  obtain ⟨d, hget, _⟩ := sysSound_get G xOf coeffs n t k dkgs hs hlt
  obtain ⟨d'', hget'', hgr⟩ := hg k d hget
  rw [hk] at hget''
  cases hget''
  have h := hd k d hget j hj hjk
  obtain ⟨deal, hdeal⟩ := Option.isSome_iff_exists.1 h
  rw [hgr.1 j deal hdeal]
  rfl

theorem responseLoop_sound [DecidableEq P] (G : P) (xOf : Nat → F) (coeffs : Nat → Nat → F)
    (n t g v : Nat) (hg : g < n) :
    ∀ (Is : List Nat) (dkgs : List (DistKeyGenerator F P)),
      (∀ i ∈ Is, i < n) → SysSound G xOf coeffs n t dkgs → HasDeals n dkgs →
      ∃ dkgs', responseLoop G xOf (approval g v) dkgs Is = Except.ok dkgs' ∧
        SysSound G xOf coeffs n t dkgs' ∧ SysGrows dkgs dkgs' ∧
        ∀ i ∈ Is, i ≠ v → ∃ d', dkgs'.get? i = some d' ∧ d'.approvals g v = true := by
  intro Is
  induction Is with
  | nil =>
    intro dkgs _ hs _
    exact ⟨dkgs, by simp [responseLoop], hs, sysGrows_refl dkgs, by simp⟩
  | cons i Is ih =>
    intro dkgs hI hs hdeals
    have hrest : ∀ x ∈ Is, x < n := fun x hx => hI x (List.mem_cons_of_mem _ hx)
    by_cases hiv : i = v
    · obtain ⟨dkgs', hloop, hs', hsg', hfacts⟩ := ih dkgs hrest hs hdeals
      refine ⟨dkgs', ?_, hs', hsg', ?_⟩
      · simp only [responseLoop, approval, hiv, if_true]
        exact hloop
      · intro x hx hxv
        rcases List.mem_cons.1 hx with rfl | hx
        · exact absurd hiv hxv
        · exact hfacts x hx hxv
    · obtain ⟨d, hget, hd⟩ :=
        sysSound_get G xOf coeffs n t i dkgs hs (hI i (List.mem_cons_self _ _))
      have hj : g = i ∨ (d.received g).isSome = true := by
        by_cases hgi : g = i
        · exact Or.inl hgi
        · exact Or.inr (hdeals i d hget g hg hgi)
      obtain ⟨d1, hp, hd1, hg1, ha1⟩ :=
        processResponse_sound G xOf coeffs n t i g v d hd (fun e => hiv e.symm) hj
      obtain ⟨hs1, hsg1, hget1⟩ := sysSound_set G xOf coeffs n t i dkgs d d1 hs hget hd1 hg1
      have hdeals1 := hasDeals_grows G xOf coeffs n t dkgs _ hs hs1 hsg1 hdeals
      obtain ⟨dkgs', hloop, hs', hsg', hfacts⟩ := ih (dkgs.set i d1) hrest hs1 hdeals1
      refine ⟨dkgs', ?_, hs', sysGrows_trans hsg1 hsg', ?_⟩
      · have hiv' : ¬ i = (approval g v).Response.Index := hiv
        rw [responseLoop, if_neg hiv']
        simp only [hget, hp]
        exact hloop
      · intro x hx hxv
        rcases List.mem_cons.1 hx with rfl | hx
        · obtain ⟨d', hd', hgr⟩ := hsg' x d1 hget1
          exact ⟨d', hd', hgr.2 _ _ ha1⟩
        · exact hfacts x hx hxv

theorem responseAllLoop_sound [DecidableEq P] (G : P) (xOf : Nat → F) (coeffs : Nat → Nat → F)
    (n t : Nat) :
    ∀ (R : List Response) (dkgs : List (DistKeyGenerator F P)),
      (∀ r ∈ R, ∃ g v, g < n ∧ v < n ∧ v ≠ g ∧ r = approval g v) →
      SysSound G xOf coeffs n t dkgs → HasDeals n dkgs →
      ∃ dkgs', responseAllLoop G xOf dkgs R = Except.ok dkgs' ∧
        SysSound G xOf coeffs n t dkgs' ∧ SysGrows dkgs dkgs' ∧
        ∀ g v, approval g v ∈ R → ∀ i, i < n → i ≠ v →
          ∃ d', dkgs'.get? i = some d' ∧ d'.approvals g v = true := by
  intro R
  induction R with
  | nil =>
    intro dkgs _ hs _
    exact ⟨dkgs, by simp [responseAllLoop], hs, sysGrows_refl dkgs, by simp⟩
  | cons r R ih =>
    intro dkgs hR hs hdeals
    obtain ⟨g, v, hg, _, _, rfl⟩ := hR r (List.mem_cons_self _ _)
    obtain ⟨dkgs1, hloop1, hs1, hsg1, hfacts1⟩ :=
      responseLoop_sound G xOf coeffs n t g v hg (List.range dkgs.length) dkgs
        (fun i hi => by rw [hs.1] at hi; exact List.mem_range.1 hi) hs hdeals
    have hdeals1 := hasDeals_grows G xOf coeffs n t dkgs _ hs hs1 hsg1 hdeals
    obtain ⟨dkgs', hloop, hs', hsg', hfacts⟩ :=
      ih dkgs1 (fun x hx => hR x (List.mem_cons_of_mem _ hx)) hs1 hdeals1
    refine ⟨dkgs', ?_, hs', sysGrows_trans hsg1 hsg', ?_⟩
    · simp only [responseAllLoop, hloop1]
      exact hloop
    · intro g' v' hmem i hi hiv
      rcases List.mem_cons.1 hmem with heq | hmem
      · have hgv : g' = g ∧ v' = v := by
          simp only [approval, Response.mk.injEq, VssResponse.mk.injEq, and_true] at heq
          exact heq
        obtain ⟨rfl, rfl⟩ := hgv
        obtain ⟨d1, hd1, ha1⟩ :=
          hfacts1 i (by rw [hs.1]; exact List.mem_range.2 hi) hiv
        obtain ⟨d', hd', hgr⟩ := hsg' i d1 hd1
        exact ⟨d', hd', hgr.2 _ _ ha1⟩
      · exact hfacts g' v' hmem i hi hiv

theorem newDistKeyGenerator_fresh [DecidableEq P] (G : P) (keys : Nat → F)
    (coeffs : Nat → Nat → F) (n t i : Nat) (hv : validT t n = true) (hi : i < n)
    (hkeys : ((List.range n).map (fun i => keys i • G)).Nodup) :
    NewDistKeyGenerator G (((List.range n).map (fun i => (genPair G (keys i)).1)).getD i 0)
        ((List.range n).map (fun i => (genPair G (keys i)).2)) t (coeffs i) =
      Except.ok (freshGenerator coeffs n t i) := by
  have hsec : ((List.range n).map (fun i => (genPair G (keys i)).1)).getD i 0 = keys i := by
    simp [List.getD_eq_getElem?_getD, genPair, hi]
  have hidx : ((List.range n).map (fun i => keys i • G)).indexOf (keys i • G) = i := by
    have hlen : i < ((List.range n).map (fun i => keys i • G)).length := by simpa using hi
    have h := List.get_indexOf hkeys ⟨i, hlen⟩
    simpa using h
  rw [hsec]
  simp only [NewDistKeyGenerator, genPair, List.length_map, List.length_range, hv, hidx,
    Bool.true_eq_false, if_false, not_le.2 hi, freshGenerator, dealerSecret]

theorem generateLoop_fresh [DecidableEq P] (G : P) (keys : Nat → F)
    (coeffs : Nat → Nat → F) (n t : Nat) (hv : validT t n = true)
    (hkeys : ((List.range n).map (fun i => keys i • G)).Nodup) :
    ∀ Is : List Nat, (∀ i ∈ Is, i < n) →
      generateLoop G coeffs ((List.range n).map (fun i => (genPair G (keys i)).1))
          ((List.range n).map (fun i => (genPair G (keys i)).2)) t Is =
        Except.ok (Is.map (freshGenerator coeffs n t)) := by
  intro Is
  induction Is with
  | nil => intro _; rfl
  | cons i Is ih =>
    intro hI
    rw [generateLoop, newDistKeyGenerator_fresh G keys coeffs n t i hv
      (hI i (List.mem_cons_self _ _)) hkeys]
    simp only [ih (fun x hx => hI x (List.mem_cons_of_mem _ hx)), List.map_cons]

theorem generate_fresh [DecidableEq P] (G : P) (keys : Nat → F)
    (coeffs : Nat → Nat → F) (n t : Nat) (hv : validT t n = true)
    (hkeys : ((List.range n).map (fun i => keys i • G)).Nodup) :
    generate G keys coeffs n t = Except.ok ((List.range n).map (freshGenerator coeffs n t)) :=
  generateLoop_fresh G keys coeffs n t hv hkeys (List.range n)
    (fun _ hi => List.mem_range.1 hi)

theorem generate_zero [DecidableEq P] (G : P) (keys : Nat → F) (coeffs : Nat → Nat → F)
    (t : Nat) : generate G keys coeffs 0 t = Except.ok [] := rfl

theorem generate_invalid [DecidableEq P] (G : P) (keys : Nat → F) (coeffs : Nat → Nat → F)
    (n t : Nat) (hn : 1 ≤ n) (hv : validT t n = false) :
    generate G keys coeffs n t = Except.error DkgPanic.InvalidThreshold := by
  have h : ∀ (S : List F) (Pubs : List P) (Is : List Nat), Pubs.length = n → Is ≠ [] →
      generateLoop G coeffs S Pubs t Is = Except.error DkgPanic.InvalidThreshold := by
    intro S Pubs Is hlen hIs
    cases Is with
    | nil => exact absurd rfl hIs
    | cons i rest => simp [generateLoop, NewDistKeyGenerator, hlen, hv]
  unfold generate
  exact h _ _ _ (by simp) (by
    intro h0
    have := congrArg List.length h0
    simp at this
    omega)

theorem sysSound_fresh (G : P) (xOf : Nat → F) (coeffs : Nat → Nat → F) (n t : Nat) :
    SysSound G xOf coeffs n t ((List.range n).map (freshGenerator coeffs n t)) := by
  refine ⟨by simp, ?_⟩
  intro k d hk
  rw [List.get?_eq_getElem?] at hk
  obtain ⟨hlt, hd⟩ := List.getElem?_eq_some_iff.1 hk
  simp only [List.getElem_map, List.getElem_range] at hd
  subst hd
  refine ⟨rfl, rfl, rfl, rfl, ?_, ?_, ?_⟩
  · intro j deal h
    simp [freshGenerator] at h
  · intro j v; rfl
  · simp [freshGenerator]

theorem fullShare_sound [DecidableEq P] (G : P) (xOf : Nat → F) (coeffs : Nat → Nat → F)
    (n t : Nat) (dkgs : List (DistKeyGenerator F P)) (hs : SysSound G xOf coeffs n t dkgs) :
    ∃ dkgs', fullShare G xOf dkgs = Except.ok dkgs' ∧ SysSound G xOf coeffs n t dkgs' ∧
      ∀ k d, dkgs'.get? k = some d →
        (∀ j, j < n → j ≠ k → d.received j = some (trueDeal G xOf coeffs t j k)) ∧
        (∀ j v, j < n → v < n → d.approvals j v = true) := by
  obtain ⟨dkgs1, R, hdeal, hs1, hsg1, hR, hfacts1⟩ :=
    dealAllLoop_sound G xOf coeffs n t (List.range dkgs.length) dkgs []
      (fun g hg => by rw [hs.1] at hg; exact List.mem_range.1 hg) hs
  have hmem : ∀ g, g < n → g ∈ List.range dkgs.length := by
    intro g hg
    rw [hs.1]
    exact List.mem_range.2 hg
  have hlt1 : ∀ k d, dkgs1.get? k = some d → k < n := by
    intro k d hk
    rw [List.get?_eq_getElem?] at hk
    have := (List.getElem?_eq_some_iff.1 hk).1
    rwa [hs1.1] at this
  have hdeals1 : HasDeals n dkgs1 := by
    intro k d hk j hj hjk
    obtain ⟨_, d', hd', hrec, _, _⟩ := hfacts1 j (hmem j hj) k (hlt1 k d hk) (Ne.symm hjk)
    rw [hk] at hd'
    cases hd'
    rw [hrec]
    rfl
  obtain ⟨dkgs2, hresp, hs2, hsg2, hfacts2⟩ :=
    responseAllLoop_sound G xOf coeffs n t R dkgs1 hR hs1 hdeals1
  refine ⟨dkgs2, ?_, hs2, ?_⟩
  · simp only [fullShare, hdeal, List.nil_append]
    exact hresp
  · intro k d hk
    have hkn : k < n := by
      rw [List.get?_eq_getElem?] at hk
      have := (List.getElem?_eq_some_iff.1 hk).1
      rwa [hs2.1] at this
    obtain ⟨d1, hd1, hsound1⟩ := sysSound_get G xOf coeffs n t k dkgs1 hs1 hkn
    obtain ⟨d2, hd2, hgr⟩ := hsg2 k d1 hd1
    rw [hk] at hd2
    cases hd2
    have hsound2 := hs2.2 k d hk
    constructor
    · intro j hj hjk
      obtain ⟨_, d', hd', hrec, _, _⟩ := hfacts1 j (hmem j hj) k hkn (Ne.symm hjk)
      rw [hd1] at hd'
      cases hd'
      exact hgr.1 _ _ hrec
    · intro j v hj hv
      by_cases hvj : v = j
      · subst hvj
        by_cases hkv : k = v
        · subst hkv
          exact hsound2.2.2.2.2.2.2
        · obtain ⟨_, d', hd', _, ha, _⟩ := hfacts1 v (hmem v hj) k hkn hkv
          rw [hd1] at hd'
          cases hd'
          exact hgr.2 _ _ ha
      · obtain ⟨hin, dv, hdv, _, _, hav⟩ := hfacts1 j (hmem j hj) v hv hvj
        by_cases hkv : k = v
        · subst hkv
          rw [hd1] at hdv
          cases hdv
          exact hgr.2 _ _ hav
        · obtain ⟨d', hd', ha⟩ := hfacts2 j v hin k hkn hkv
          rw [hk] at hd'
          cases hd'
          exact ha

theorem qual_complete (G : P) (xOf : Nat → F) (coeffs : Nat → Nat → F) (n t k : Nat)
    (d : DistKeyGenerator F P) (htn : t ≤ n) (hd : Sound G xOf coeffs n t k d)
    (hrec : ∀ j, j < n → j ≠ k → d.received j = some (trueDeal G xOf coeffs t j k))
    (happ : ∀ j v, j < n → v < n → d.approvals j v = true) :
    d.QUAL = List.range n := by
  obtain ⟨hidx, hn, ht, _, _, hcomp, _⟩ := hd
  unfold DistKeyGenerator.QUAL
  rw [hn, ht, hidx]
  apply List.filter_eq_self.2
  intro j hj
  have hjn := List.mem_range.1 hj
  have h1 : (decide (j = k) || (d.received j).isSome) = true := by
    by_cases hjk : j = k
    · simp [hjk]
    · simp [hrec j hjn hjk]
  have h2 : (List.range n).all (fun v => !d.complaints j v) = true := by
    simp [hcomp]
  have h3 : (List.range n).filter (fun v => d.approvals j v) = List.range n := by
    apply List.filter_eq_self.2
    intro v hv
    exact happ j v hjn (List.mem_range.1 hv)
  rw [h1, h2, h3]
  simp [htn]

theorem distKeyShare_complete (G : P) (xOf : Nat → F) (coeffs : Nat → Nat → F) (n t k : Nat)
    (d : DistKeyGenerator F P) (htn : t ≤ n) (hd : Sound G xOf coeffs n t k d)
    (hrec : ∀ j, j < n → j ≠ k → d.received j = some (trueDeal G xOf coeffs t j k))
    (happ : ∀ j v, j < n → v < n → d.approvals j v = true) :
    d.Certified = true ∧ d.DistKeyShare G xOf = Except.ok (jointShare G xOf coeffs n t k) := by
  have hq := qual_complete G xOf coeffs n t k d htn hd hrec happ
  obtain ⟨hidx, hn, ht, hsec, _, _, _⟩ := hd
  have hcert : d.Certified = true := by
    simp [DistKeyGenerator.Certified, hq, ht, htn]
  refine ⟨hcert, ?_⟩
  have hc : ∀ j, j ∈ List.range n →
      d.commitsOf G j = (dealerSecret coeffs t j).map (fun a => a • G) := by
    intro j hj
    by_cases hjk : j = k
    · simp [DistKeyGenerator.commitsOf, hidx, hjk, hsec]
    · simp [DistKeyGenerator.commitsOf, hidx, hjk, hrec j (List.mem_range.1 hj) hjk, trueDeal]
  have hsh : ∀ j, j ∈ List.range n →
      d.shareOf xOf j = evalPoly (dealerSecret coeffs t j) (xOf k) := by
    intro j hj
    by_cases hjk : j = k
    · simp [DistKeyGenerator.shareOf, hidx, hjk, hsec]
    · simp [DistKeyGenerator.shareOf, hidx, hjk, hrec j (List.mem_range.1 hj) hjk, trueDeal]
  unfold DistKeyGenerator.DistKeyShare
  rw [hcert, hq, ht, hidx]
  simp only [Bool.true_eq_false, if_false, jointShare]
  congr 2
  · apply List.map_congr_left
    intro c _
    congr 1
    apply List.map_congr_left
    intro j hj
    rw [hc j hj]
  · congr 1
    congr 1
    apply List.map_congr_left
    intro j hj
    exact hsh j hj

theorem collectShares_complete (G : P) (xOf : Nat → F) (coeffs : Nat → Nat → F) (n t : Nat) :
    ∀ l : List (DistKeyGenerator F P),
      (∀ d ∈ l, d.Certified = true ∧
        d.DistKeyShare G xOf = Except.ok (jointShare G xOf coeffs n t d.index)) →
      collectShares G xOf l =
        Except.ok (l.map (fun d => jointShare G xOf coeffs n t d.index)) := by
  intro l
  induction l with
  | nil => intro _; rfl
  | cons d l ih =>
    intro h
    obtain ⟨hc, hs⟩ := h d (List.mem_cons_self _ _)
    simp only [collectShares, hc, if_true, hs,
      ih (fun x hx => h x (List.mem_cons_of_mem _ hx)), List.map_cons]

theorem createThresholdShares_valid [DecidableEq P] (G : P) (xOf : Nat → F) (keys : Nat → F)
    (coeffs : Nat → Nat → F) (n t : Nat) (hv : validT t n = true)
    (hkeys : ((List.range n).map (fun i => keys i • G)).Nodup) :
    createThresholdShares G xOf keys coeffs n t =
      Except.ok ((List.range n).map (jointShare G xOf coeffs n t)) := by
  have htn : t ≤ n := by
    simp only [validT, decide_eq_true_eq] at hv
    exact hv.2
  obtain ⟨dkgs, hfull, hs, hfacts⟩ :=
    fullShare_sound G xOf coeffs n t _ (sysSound_fresh G xOf coeffs n t)
  have hall : ∀ d ∈ dkgs, d.Certified = true ∧
      d.DistKeyShare G xOf = Except.ok (jointShare G xOf coeffs n t d.index) := by
    intro d hd
    obtain ⟨k, hk, hget⟩ := List.getElem_of_mem hd
    have hget' : dkgs.get? k = some d := by
      rw [List.get?_eq_getElem?, List.getElem?_eq_getElem hk, hget]
    have hsound := hs.2 k d hget'
    obtain ⟨hrec, happ⟩ := hfacts k d hget'
    rw [hsound.1]
    exact distKeyShare_complete G xOf coeffs n t k d htn hsound hrec happ
  have hidx : dkgs.map (fun d => d.index) = List.range n := by
    apply List.ext_getElem
    · simp [hs.1]
    · intro k h1 h2
      simp only [List.getElem_map, List.getElem_range]
      have hk : k < dkgs.length := by simpa using h1
      have hget' : dkgs.get? k = some dkgs[k] := by
        rw [List.get?_eq_getElem?, List.getElem?_eq_getElem hk]
      exact (hs.2 k _ hget').1
  unfold createThresholdShares
  rw [generate_fresh G keys coeffs n t hv hkeys]
  simp only [hfull]
  rw [collectShares_complete G xOf coeffs n t dkgs hall, ← hidx, List.map_map]
  rfl

theorem createThresholdShares_zero [DecidableEq P] (G : P) (xOf : Nat → F) (keys : Nat → F)
    (coeffs : Nat → Nat → F) (t : Nat) :
    createThresholdShares G xOf keys coeffs 0 t = Except.ok [] := rfl

theorem createThresholdShares_invalid [DecidableEq P] (G : P) (xOf : Nat → F)
    (keys : Nat → F) (coeffs : Nat → Nat → F) (n t : Nat) (hn : 1 ≤ n)
    (hv : validT t n = false) :
    createThresholdShares G xOf keys coeffs n t = Except.error DkgPanic.InvalidThreshold := by
  unfold createThresholdShares
  rw [generate_invalid G keys coeffs n t hn hv]

theorem jointShare_public (G : P) (xOf : Nat → F) (coeffs : Nat → Nat → F) (n t k : Nat)
    (ht : 1 ≤ t) :
    (jointShare G xOf coeffs n t k).Public =
      some ((List.range n).map (fun j => coeffs j 0 • G)).sum := by
  obtain ⟨m, rfl⟩ : ∃ m, t = m + 1 := ⟨t - 1, by omega⟩
  simp [DistKeyShare.Public, jointShare, dealerSecret, List.range_succ_eq_map]

theorem validT_iff (t n : Nat) : validT t n = true ↔ 2 ≤ t ∧ t ≤ n := by
  simp [validT]

theorem validT_false_iff (t n : Nat) : validT t n = false ↔ t < 2 ∨ n < t := by
  rw [← Bool.not_eq_true, validT_iff]
  omega

end DkgLemmas

/-! ## Lemmas on the chunk codec -/

section CodecLemmas

open List

theorem Less_iff_lexLt (x y : List Byte) : SortableBytesList.Less x y = true ↔ lexLt x y := by
  induction x generalizing y with
  | nil =>
    cases y with
    | nil => simp [SortableBytesList.Less]
    | cons b ys => simpa [SortableBytesList.Less] using List.Lex.nil
  | cons a xs ih =>
    cases y with
    | nil => simp [SortableBytesList.Less]
    | cons b ys =>
      simp only [SortableBytesList.Less]
      by_cases hab : a = b
      · subst hab
        simp only [ne_eq, not_true_eq_false, if_false, ih]
        exact List.Lex.cons_iff.symm
      · simp only [ne_eq, hab, not_false_eq_true, if_true, decide_eq_true_eq]
        constructor
        · exact fun h => List.Lex.rel h
        · intro h
          cases h with
          | cons h => exact absurd rfl hab
          | rel h => exact h

theorem notAfter_iff (x y : List Byte) : notAfter x y ↔ ¬ lexLt y x := by
  unfold notAfter
  rw [← Less_iff_lexLt]
  simp

instance notAfter_total : IsTotal (List Byte) notAfter where
  total x y := by
    rw [notAfter_iff, notAfter_iff]
    by_cases h : lexLt y x
    · exact Or.inr (asymm h)
    · exact Or.inl h

instance notAfter_trans : IsTrans (List Byte) notAfter where
  trans x y z hxy hyz := by
    rw [notAfter_iff] at *
    intro hzx
    rcases (List.Lex.isOrderConnected (fun a b : Byte => a < b)).conn z y x hzx with h | h
    · exact hyz h
    · exact hxy h

instance notAfter_antisymm : IsAntisymm (List Byte) notAfter where
  antisymm x y hxy hyx := by
    rw [notAfter_iff] at *
    rcases (List.Lex.isTrichotomous (fun a b : Byte => a < b)).trichotomous x y with h | h | h
    · exact absurd h hyx
    · exact h
    · exact absurd h hxy

theorem sortChunks_perm (L : List (List Byte)) : sortChunks L ~ L :=
  List.perm_insertionSort _ L

theorem sortChunks_sorted (L : List (List Byte)) : (sortChunks L).Sorted notAfter :=
  List.sorted_insertionSort _ L

theorem sortChunks_eq_of_sorted {L S : List (List Byte)} (hp : S ~ L) (hs : S.Sorted notAfter) :
    sortChunks L = S :=
  List.eq_of_perm_of_sorted ((sortChunks_perm L).trans hp.symm) (sortChunks_sorted L) hs

theorem sortChunks_congr {L₁ L₂ : List (List Byte)} (hp : L₁ ~ L₂) :
    sortChunks L₁ = sortChunks L₂ :=
  sortChunks_eq_of_sorted ((sortChunks_perm L₁).trans hp) (sortChunks_sorted L₁) |>.symm

theorem isDataEqual_iff (a b : List Byte) : isDataEqual a b = true ↔ a = b := by
  unfold isDataEqual
  induction a generalizing b with
  | nil => cases b <;> simp
  | cons x xs ih =>
    cases b with
    | nil => simp
    | cons y ys =>
      have := ih ys
      by_cases hl : xs.length = ys.length
      · simp [hl] at this
        simp [hl, this]
      · have hne : xs ≠ ys := fun h => hl (by rw [h])
        simp [hl, hne]

theorem nonceOf_length {c : List Byte} (h : randomnessLength + 1 ≤ c.length) :
    (nonceOf c).length = randomnessLength := by
  simp [nonceOf]; omega

theorem compileStep_init {c : List Byte} (h : randomnessLength + 1 ≤ c.length)
    (ms : List (List Byte)) :
    compileStep { currentPrefix := [], currentIndex := 0, completeMessages := ms } c =
      some { currentPrefix := nonceOf c, currentIndex := indexOf c,
             completeMessages := ms ++ [payloadOf c] } := by
  have hl := nonceOf_length h
  have hne : ([] : List Byte) ≠ nonceOf c := by
    intro e; rw [← e] at hl; simp [randomnessLength] at hl
  have hne' : ¬ ([] : List Byte) = List.take randomnessLength c := hne
  have hd : isDataEqual [] (List.take randomnessLength c) = false := by
    rw [← Bool.not_eq_true, isDataEqual_iff]; exact hne'
  simp [compileStep, Nat.not_lt.mpr h, hd, nonceOf, indexOf, payloadOf]

theorem compileStep_new {c : List Byte} (h : randomnessLength + 1 ≤ c.length)
    (st : CompileState) (hne : st.currentPrefix ≠ nonceOf c) :
    compileStep st c =
      some { currentPrefix := nonceOf c, currentIndex := indexOf c,
             completeMessages := st.completeMessages ++ [payloadOf c] } := by
  have hd : isDataEqual st.currentPrefix (List.take randomnessLength c) = false := by
    rw [← Bool.not_eq_true, isDataEqual_iff]; exact hne
  simp [compileStep, Nat.not_lt.mpr h, hd, nonceOf, indexOf, payloadOf]

theorem compileStep_skip {c : List Byte} (h : randomnessLength + 1 ≤ c.length)
    (st : CompileState) (hp : st.currentPrefix = nonceOf c) (hi : st.currentIndex = indexOf c) :
    compileStep st c = some st := by
  have hd : isDataEqual st.currentPrefix (List.take randomnessLength c) = true := by
    rw [isDataEqual_iff]; exact hp
  have hi' : st.currentIndex = c.getD randomnessLength 0 := hi
  simp [compileStep, Nat.not_lt.mpr h, hd, hi']

theorem compileStep_extend {c : List Byte} (h : randomnessLength + 1 ≤ c.length)
    (N : List Byte) (k : Byte) (ms : List (List Byte)) (m : List Byte)
    (hp : N = nonceOf c) (hi : k ≠ indexOf c) :
    compileStep { currentPrefix := N, currentIndex := k, completeMessages := ms ++ [m] } c =
      some { currentPrefix := N, currentIndex := indexOf c,
             completeMessages := ms ++ [m ++ payloadOf c] } := by
  have hd : isDataEqual N (List.take randomnessLength c) = true := by
    rw [isDataEqual_iff]; exact hp
  have hi' := hi
  simp only [indexOf, ne_eq, List.getD_eq_getElem?_getD] at hi'
  simp [compileStep, Nat.not_lt.mpr h, hd, hi', indexOf, payloadOf]

theorem compileStep_some {st st1 : CompileState} {c : List Byte}
    (h : compileStep st c = some st1) :
    randomnessLength + 1 ≤ c.length ∧ st1.currentPrefix = nonceOf c ∧
      st1.currentIndex = indexOf c := by
  unfold compileStep at h
  by_cases hl : c.length < randomnessLength + 1
  · simp [hl] at h
  · simp only [hl, if_false] at h
    refine ⟨Nat.not_lt.mp hl, ?_⟩
    by_cases hd : isDataEqual st.currentPrefix (List.take randomnessLength c) = true
    · simp only [hd, if_true] at h
      have hp := (isDataEqual_iff _ _).1 hd
      by_cases hi : st.currentIndex = c.getD randomnessLength 0
      · simp only [hi, if_true, Option.some.injEq] at h
        subst h
        exact ⟨hp, hi⟩
      · simp only [hi, if_false] at h
        cases hg : st.completeMessages.getLast? with
        | none => simp [hg] at h
        | some last =>
          simp only [hg, Option.some.injEq] at h
          subst h
          exact ⟨hp, rfl⟩
    · simp only [hd] at h
      simp only [Bool.false_eq_true, if_false, Option.some.injEq] at h
      subst h
      exact ⟨rfl, rfl⟩

theorem compileLoop_append (st : CompileState) (A B : List (List Byte)) :
    compileLoop st (A ++ B) = (compileLoop st A).bind (fun st1 => compileLoop st1 B) := by
  induction A generalizing st with
  | nil => simp [compileLoop]
  | cons a A ih =>
    simp only [List.cons_append, compileLoop]
    cases compileStep st a with
    | none => simp
    | some st1 => simpa using ih st1

theorem compileLoop_group (S : List (List Byte)) :
    ∀ (p : List Byte) (ms : List (List Byte)) (m : List Byte),
      (∀ c ∈ S, randomnessLength + 1 ≤ c.length) →
      List.Chain (fun a b => ¬ SameKey a b) p S →
      ∃ st, compileLoop { currentPrefix := nonceOf p, currentIndex := indexOf p,
                          completeMessages := ms ++ [m] } S = some st ∧
        st.completeMessages = ms ++ groupFrom (nonceOf p) m S := by
  induction S with
  | nil =>
    intro p ms m _ _
    exact ⟨_, rfl, rfl⟩
  | cons c rest ih =>
    intro p ms m hlen hch
    have hc : randomnessLength + 1 ≤ c.length := hlen c (List.mem_cons_self _ _)
    have hrest : ∀ x ∈ rest, randomnessLength + 1 ≤ x.length :=
      fun x hx => hlen x (List.mem_cons_of_mem _ hx)
    rw [List.chain_cons] at hch
    obtain ⟨hpc, hch⟩ := hch
    by_cases hN : nonceOf c = nonceOf p
    · have hi : indexOf p ≠ indexOf c := fun e => hpc ⟨hN.symm, e⟩
      obtain ⟨st, hst, hms⟩ := ih c ms (m ++ payloadOf c) hrest hch
      refine ⟨st, ?_, ?_⟩
      · simp only [compileLoop]
        rw [compileStep_extend hc _ _ _ _ hN.symm hi, ← hN]
        exact hst
      · rw [hms, groupFrom, if_pos hN, hN]
    · obtain ⟨st, hst, hms⟩ := ih c (ms ++ [m]) (payloadOf c) hrest hch
      refine ⟨st, ?_, ?_⟩
      · simp only [compileLoop]
        rw [compileStep_new hc _ (fun e => hN e.symm)]
        exact hst
      · rw [hms, groupFrom, if_neg hN]
        simp

theorem compileLoop_init_group (c : List Byte) (S : List (List Byte))
    (hlen : ∀ x ∈ c :: S, randomnessLength + 1 ≤ x.length)
    (hch : List.Chain (fun a b => ¬ SameKey a b) c S) :
    ∃ st, compileLoop initState (c :: S) = some st ∧
      st.completeMessages = groupFrom (nonceOf c) (payloadOf c) S := by
  obtain ⟨st, hst, hms⟩ := compileLoop_group S c [] (payloadOf c)
    (fun x hx => hlen x (List.mem_cons_of_mem _ hx)) hch
  refine ⟨st, ?_, by simpa using hms⟩
  simp only [compileLoop, initState]
  rw [compileStep_init (hlen c (List.mem_cons_self _ _))]
  simpa using hst

theorem goCopy_zeros (L : Nat) (x : List Byte) (h : x.length ≤ L) :
    goCopy (List.replicate L 0) x = zeroPad L x := by
  simp [goCopy, zeroPad, List.take_of_length_le h]

theorem fillBuffer_eq (EmbedLen : Nat) (randomBytes : List Byte) (i : Nat)
    (remainingData : List Byte) (hE : randomnessLength + 1 ≤ EmbedLen)
    (hr : randomBytes.length = randomnessLength) :
    fillBuffer EmbedLen randomBytes i remainingData =
      some (chunkOf (EmbedLen - randomnessLength - 1) randomBytes i
              (remainingData.take (EmbedLen - randomnessLength - 1)),
            remainingData.drop (EmbedLen - randomnessLength - 1)) := by
  obtain ⟨L, rfl⟩ : ∃ L, EmbedLen = randomnessLength + 1 + L := ⟨EmbedLen - (randomnessLength + 1), by omega⟩
  have hL : randomnessLength + 1 + L - randomnessLength - 1 = L := by omega
  have h0 : (List.replicate (randomnessLength + 1 + L) (0 : Byte)) =
      List.replicate randomnessLength 0 ++ (0 : Byte) :: List.replicate L 0 := by
    rw [show randomnessLength + 1 + L = randomnessLength + (1 + L) by omega, List.replicate_add,
      show 1 + L = L + 1 by omega, List.replicate_succ]
  have h1 : goCopy ((List.replicate (randomnessLength + 1 + L) (0 : Byte)).take randomnessLength)
      randomBytes ++ (List.replicate (randomnessLength + 1 + L) (0 : Byte)).drop randomnessLength =
      randomBytes ++ (0 : Byte) :: List.replicate L 0 := by
    rw [h0, List.take_left' (by simp), List.drop_left' (by simp)]
    simp [goCopy, hr]
  have h2 : (randomBytes ++ (0 : Byte) :: List.replicate L 0).set randomnessLength (byteOfInt i) =
      randomBytes ++ byteOfInt i :: List.replicate L 0 := by
    rw [List.set_append_right _ _ (by omega)]
    simp [hr]
  have h3 : (randomBytes ++ byteOfInt i :: List.replicate L 0).take (randomnessLength + 1) =
      randomBytes ++ [byteOfInt i] := by
    rw [show randomBytes ++ byteOfInt i :: List.replicate L 0 =
      (randomBytes ++ [byteOfInt i]) ++ List.replicate L 0 by simp]
    exact List.take_left' (by simp [hr])
  have h4 : (randomBytes ++ byteOfInt i :: List.replicate L 0).drop (randomnessLength + 1) =
      List.replicate L 0 := by
    rw [show randomBytes ++ byteOfInt i :: List.replicate L 0 =
      (randomBytes ++ [byteOfInt i]) ++ List.replicate L 0 by simp]
    exact List.drop_left' (by simp [hr])
  unfold fillBuffer
  simp only [hL, h1, h2, h3, h4]
  rw [if_neg (by omega), if_neg (by omega)]
  by_cases hlen : L ≤ remainingData.length
  · rw [if_pos hlen, goCopy_zeros L _ (by simp)]
    simp [chunkOf]
  · rw [if_neg hlen, goCopy_zeros L _ (by omega)]
    have h5 : remainingData.take L = remainingData := List.take_of_length_le (by omega)
    have h6 : remainingData.drop L = [] := List.drop_of_length_le (by omega)
    simp [chunkOf, h5, h6]

theorem portionLoop_eq {β : Type} (EmbedLen : Nat) (randomBytes : List Byte)
    (act : Nat → List Byte → β) (hE : randomnessLength + 1 ≤ EmbedLen)
    (hr : randomBytes.length = randomnessLength) (count : Nat) :
    ∀ (i : Nat) (remainingData : List Byte),
      portionLoop EmbedLen randomBytes act count i remainingData =
        some ((List.range count).map (fun j =>
          act (i + j) (chunkOf (EmbedLen - randomnessLength - 1) randomBytes (i + j)
            ((remainingData.drop (j * (EmbedLen - randomnessLength - 1))).take
              (EmbedLen - randomnessLength - 1))))) := by
  induction count with
  | zero => intro i r; simp [portionLoop]
  | succ count ih =>
    intro i r
    simp only [portionLoop]
    rw [fillBuffer_eq EmbedLen randomBytes i r hE hr]
    simp only [ih, Option.map_some']
    rw [List.range_succ_eq_map]
    simp only [List.map_cons, List.map_map, Nat.zero_mul, List.drop_zero, Nat.add_zero]
    congr 2
    apply List.map_congr_left
    intro j _
    simp only [Function.comp, List.drop_drop]
    rw [show i + 1 + j = i + (j + 1) by omega,
      show EmbedLen - randomnessLength - 1 + j * (EmbedLen - randomnessLength - 1) =
        (j + 1) * (EmbedLen - randomnessLength - 1) by rw [Nat.succ_mul]; omega]

theorem retrieveData_of_data {P : Type} (Data : P → Option (List Byte)) :
    ∀ (pts : List P) (chunks : List (List Byte)), pts.map Data = chunks.map some →
      retrieveData Data pts = some chunks := by
  intro pts
  induction pts with
  | nil => intro chunks h; cases chunks <;> simp_all [retrieveData]
  | cons p pts ih =>
    intro chunks h
    cases chunks with
    | nil => simp at h
    | cons c cs =>
      simp only [List.map_cons, List.cons.injEq] at h
      simp [retrieveData, h.1, ih cs h.2]

theorem compileMessages_of_data {P : Type} (Data : P → Option (List Byte)) (pts : List P)
    (chunks : List (List Byte)) (h : pts.map Data = chunks.map some) :
    compileMessages Data pts = compileChunks chunks := by
  simp [compileMessages, retrieveData_of_data Data pts chunks h]

theorem compileChunks_congr {L₁ L₂ : List (List Byte)} (hp : L₁ ~ L₂) :
    compileChunks L₁ = compileChunks L₂ := by
  simp [compileChunks, sortChunks_congr hp]

theorem groupFrom_same (N : List Byte) (S : List (List Byte)) (hS : ∀ c ∈ S, nonceOf c = N) :
    ∀ m, groupFrom N m S = [m ++ (S.map payloadOf).flatten] := by
  induction S with
  | nil => intro m; simp [groupFrom]
  | cons c rest ih =>
    intro m
    rw [groupFrom, if_pos (hS c (List.mem_cons_self _ _)),
      ih (fun x hx => hS x (List.mem_cons_of_mem _ hx))]
    simp

theorem zeroPad_join (L : Nat) : ∀ (k : Nat) (data : List Byte),
    ((List.range k).map (fun j => zeroPad L ((data.drop (j * L)).take L))).flatten =
      data.take (k * L) ++ List.replicate (k * L - data.length) 0 := by
  intro k
  induction k with
  | zero => intro data; simp
  | succ k ih =>
    intro data
    rw [List.range_succ_eq_map]
    simp only [List.map_cons, List.map_map, List.flatten_cons, Nat.zero_mul, List.drop_zero]
    have hdd : ∀ j, data.drop ((j + 1) * L) = (data.drop L).drop (j * L) := by
      intro j
      rw [List.drop_drop, Nat.succ_mul, Nat.add_comm]
    have hmap : (List.map ((fun j => zeroPad L ((data.drop (j * L)).take L)) ∘ Nat.succ)
        (List.range k)) =
        List.map (fun j => zeroPad L (((data.drop L).drop (j * L)).take L)) (List.range k) := by
      apply List.map_congr_left
      intro j _
      simp only [Function.comp, Nat.succ_eq_add_one, hdd]
    rw [hmap, ih (data.drop L)]
    by_cases hlen : L ≤ data.length
    · have h1 : zeroPad L (data.take L) = data.take L := by
        simp [zeroPad, Nat.min_eq_left hlen]
      have h2 : (k + 1) * L = L + k * L := by rw [Nat.succ_mul, Nat.add_comm]
      rw [h1, h2, ← List.append_assoc, ← List.take_add, List.length_drop]
      congr 2
      omega
    · have hlt : data.length < L := Nat.lt_of_not_le hlen
      have h1 : data.take L = data := List.take_of_length_le (by omega)
      have h2 : data.drop L = [] := List.drop_of_length_le (by omega)
      have h3 : (k + 1) * L = L + k * L := by rw [Nat.succ_mul, Nat.add_comm]
      have h4 : data.take (L + k * L) = data := List.take_of_length_le (by omega)
      rw [h1, h2, h3, h4]
      simp only [zeroPad, List.take_nil, List.length_nil, Nat.sub_zero, List.nil_append,
        List.append_assoc, ← List.replicate_add]
      congr 2
      omega

theorem nonceOf_chunkOf (L : Nat) (N : List Byte) (i : Nat) (x : List Byte)
    (hN : N.length = randomnessLength) : nonceOf (chunkOf L N i x) = N := by
  unfold nonceOf chunkOf
  exact List.take_left' hN

theorem indexOf_chunkOf (L : Nat) (N : List Byte) (i : Nat) (x : List Byte)
    (hN : N.length = randomnessLength) : indexOf (chunkOf L N i x) = byteOfInt i := by
  unfold indexOf chunkOf
  rw [List.getD_eq_getElem?_getD, List.getElem?_append_right (by omega)]
  simp [hN]

theorem payloadOf_chunkOf (L : Nat) (N : List Byte) (i : Nat) (x : List Byte)
    (hN : N.length = randomnessLength) : payloadOf (chunkOf L N i x) = zeroPad L x := by
  unfold payloadOf chunkOf
  rw [show N ++ byteOfInt i :: zeroPad L x = (N ++ [byteOfInt i]) ++ zeroPad L x by simp]
  exact List.drop_left' (by simp [hN])

theorem length_zeroPad (L : Nat) (x : List Byte) (hx : x.length ≤ L) :
    (zeroPad L x).length = L := by
  simp [zeroPad]; omega

theorem length_chunkOf (L : Nat) (N : List Byte) (i : Nat) (x : List Byte)
    (hN : N.length = randomnessLength) (hx : x.length ≤ L) :
    (chunkOf L N i x).length = randomnessLength + 1 + L := by
  simp [chunkOf, hN, length_zeroPad L x hx]; omega

theorem lexLt_append_left (p s t : List Byte) : lexLt (p ++ s) (p ++ t) ↔ lexLt s t := by
  induction p with
  | nil => simp
  | cons a p ih => simpa [lexLt] using (List.Lex.cons_iff.trans ih)

theorem byteOfInt_lt {i j : Nat} (hij : i < j) (hj : j < 256) : byteOfInt i < byteOfInt j := by
  simp only [byteOfInt, Fin.mk_lt_mk]
  rw [Nat.mod_eq_of_lt (by omega), Nat.mod_eq_of_lt hj]
  exact hij

theorem notAfter_chunkOf (L : Nat) (N : List Byte) {i j : Nat} (x y : List Byte)
    (hij : i < j) (hj : j < 256) : notAfter (chunkOf L N i x) (chunkOf L N j y) := by
  rw [notAfter_iff, chunkOf, chunkOf, lexLt_append_left]
  intro h
  have hlt := byteOfInt_lt hij hj
  generalize byteOfInt i = a at h hlt
  generalize byteOfInt j = b at h hlt
  generalize zeroPad L x = u at h
  generalize zeroPad L y = v at h
  cases h with
  | cons h => exact absurd hlt (lt_irrefl _)
  | rel h => exact absurd hlt (lt_asymm h)

theorem messageBuffers_eq (EmbedLen : Nat) (randomBytes data : List Byte)
    (hE : randomnessLength + 1 ≤ EmbedLen) (hr : randomBytes.length = randomnessLength) :
    messageBuffers EmbedLen randomBytes data =
      some (splitChunks (EmbedLen - randomnessLength - 1) randomBytes data messagePartitions) := by
  unfold messageBuffers splitChunks
  rw [portionLoop_eq EmbedLen randomBytes _ hE hr]
  simp

theorem compileChunks_of_sorted (c : List Byte) (S : List (List Byte))
    (hlen : ∀ x ∈ c :: S, randomnessLength + 1 ≤ x.length)
    (hs : (c :: S).Pairwise (fun a b => notAfter a b ∧ ¬ SameKey a b)) :
    compileChunks (c :: S) = some (groupFrom (nonceOf c) (payloadOf c) S) := by
  have hsorted : (c :: S).Sorted notAfter := hs.imp (fun h => h.1)
  have hchain : List.Chain (fun a b => ¬ SameKey a b) c S :=
    List.Pairwise.chain (hs.imp (fun h => h.2))
  obtain ⟨st, hst, hms⟩ := compileLoop_init_group c S hlen hchain
  unfold compileChunks
  rw [sortChunks_eq_of_sorted (List.Perm.refl _) hsorted]
  change Option.map _ (compileLoop initState (c :: S)) = _
  rw [hst]
  simp [hms]

theorem splitChunks_succ (L : Nat) (N data : List Byte) (k : Nat) :
    splitChunks L N data (k + 1) =
      chunkOf L N 0 (data.take L) ::
        (List.range k).map (fun j => chunkOf L N (j + 1) ((data.drop ((j + 1) * L)).take L)) := by
  unfold splitChunks
  rw [List.range_succ_eq_map]
  simp [Function.comp_def]

theorem splitChunks_pairwise (L : Nat) (N data : List Byte) (k : Nat) (hk : k ≤ 256)
    (hN : N.length = randomnessLength) :
    (splitChunks L N data k).Pairwise (fun a b => notAfter a b ∧ ¬ SameKey a b) := by
  unfold splitChunks
  rw [List.pairwise_map]
  refine (List.pairwise_lt_range k).imp_of_mem ?_
  intro i j hi hj hij
  have hj' : j < 256 := lt_of_lt_of_le (List.mem_range.1 hj) hk
  refine ⟨notAfter_chunkOf L N _ _ hij hj', ?_⟩
  intro hsame
  have h := hsame.2
  rw [indexOf_chunkOf L N i _ hN, indexOf_chunkOf L N j _ hN] at h
  exact absurd h (ne_of_lt (byteOfInt_lt hij hj'))

theorem splitChunks_length_ge (L : Nat) (N data : List Byte) (k : Nat)
    (hN : N.length = randomnessLength) :
    ∀ x ∈ splitChunks L N data k, x.length = randomnessLength + 1 + L := by
  intro x hx
  simp only [splitChunks, List.mem_map] at hx
  obtain ⟨j, _, rfl⟩ := hx
  exact length_chunkOf L N j _ hN (by simp)

theorem compileChunks_split (L : Nat) (N data : List Byte) (k : Nat) (hk : k + 1 ≤ 256)
    (hN : N.length = randomnessLength) :
    compileChunks (splitChunks L N data (k + 1)) =
      some [data.take ((k + 1) * L) ++ List.replicate ((k + 1) * L - data.length) 0] := by
  have hp := splitChunks_pairwise L N data (k + 1) hk hN
  have hl := splitChunks_length_ge L N data (k + 1) hN
  have hj := zeroPad_join L (k + 1) data
  have hpay : (splitChunks L N data (k + 1)).map payloadOf =
      (List.range (k + 1)).map (fun j => zeroPad L ((data.drop (j * L)).take L)) := by
    simp [splitChunks, Function.comp_def, payloadOf_chunkOf L N _ _ hN]
  have hnonce : ∀ c ∈ splitChunks L N data (k + 1), nonceOf c = N := by
    intro c hc
    simp only [splitChunks, List.mem_map] at hc
    obtain ⟨j, _, rfl⟩ := hc
    exact nonceOf_chunkOf L N j _ hN
  rw [← hpay] at hj
  rw [splitChunks_succ] at hp hl hj hnonce ⊢
  rw [compileChunks_of_sorted _ _ (fun x hx => by rw [hl x hx]; omega) hp]
  rw [hnonce _ (List.mem_cons_self _ _),
    groupFrom_same N _ (fun c hc => hnonce c (List.mem_cons_of_mem _ hc))]
  rw [← hj]
  simp

variable {F P E : Type} [Field F] [AddCommGroup P] [Module F P]

theorem encryptLongMessage_eq (G : P) (Embed : List Byte → E → P) (EmbedLen : Nat)
    (randomBytes : List Byte) (embedRand : Nat → E) (encRand : Nat → F) (data : List Byte)
    (h : P) (hE : randomnessLength + 1 ≤ EmbedLen) (hr : randomBytes.length = randomnessLength) :
    encryptLongMessage G Embed EmbedLen randomBytes embedRand encRand data h =
      some
        ((List.range messagePartitions).map (fun j =>
            Embed ((splitChunks (EmbedLen - randomnessLength - 1) randomBytes data
              messagePartitions).getD j []) (embedRand j)),
         (List.range messagePartitions).map (fun j => encRand j • G),
         (List.range messagePartitions).map (fun j =>
            encRand j • h + Embed ((splitChunks (EmbedLen - randomnessLength - 1) randomBytes data
              messagePartitions).getD j []) (embedRand j))) := by
  unfold encryptLongMessage
  rw [portionLoop_eq EmbedLen randomBytes _ hE hr]
  simp only [Option.map_some', List.map_map, Nat.zero_add, Function.comp_def, encryptMessage]
  rfl

theorem decryptAll_map {ι : Type} (l : List ι) (f g : ι → P) (secret : F) :
    decryptAll (l.map f) (l.map g) secret =
      some (l.map (fun j => decryptMessage (f j) (g j) secret)) := by
  induction l with
  | nil => simp [decryptAll]
  | cons x l ih => simp [decryptAll, ih]

theorem decryptMessage_encrypt (G : P) (a r : F) (m : P) :
    decryptMessage (r • G) (r • (a • G) + m) a = m := by
  simp only [decryptMessage]
  rw [smul_smul, smul_smul, mul_comm a r]
  abel

theorem data_of_map_eq {P : Type} (Data : P → Option (List Byte)) (dec : List P)
    (chunks : List (List Byte)) (h : dec.map Data = chunks.map some) :
    (∀ p ∈ dec, Data p = some ((Data p).getD [])) ∧ chunks = dec.map (fun p => (Data p).getD []) := by
  induction dec generalizing chunks with
  | nil => cases chunks <;> simp_all
  | cons p dec ih =>
    cases chunks with
    | nil => simp at h
    | cons c cs =>
      simp only [List.map_cons, List.cons.injEq] at h
      obtain ⟨h1, h2⟩ := ih cs h.2
      refine ⟨?_, ?_⟩
      · intro q hq
        rcases List.mem_cons.1 hq with rfl | hq
        · simp [h.1]
        · exact h1 q hq
      · simp [h.1, h2]

theorem compileMessages_perm {P : Type} (Data : P → Option (List Byte)) (pts dec : List P)
    (chunks : List (List Byte)) (hp : pts ~ dec) (h : dec.map Data = chunks.map some) :
    compileMessages Data pts = compileChunks chunks := by
  obtain ⟨h1, h2⟩ := data_of_map_eq Data dec chunks h
  have hpts : pts.map Data = (pts.map (fun p => (Data p).getD [])).map some := by
    rw [List.map_map]
    exact List.map_congr_left (fun p hp' => h1 p (hp.subset hp'))
  rw [compileMessages_of_data Data pts _ hpts, h2]
  exact compileChunks_congr (hp.map _)

theorem round_trip_padded_aux (G : P) (a : F) (Embed : List Byte → E → P)
    (Data : P → Option (List Byte)) (EmbedLen : Nat) (randomBytes : List Byte)
    (embedRand : Nat → E) (encRand : Nat → F) (data : List Byte)
    (hE : 17 ≤ EmbedLen) (hr : randomBytes.length = 16)
    (hData : ∀ b e, b.length = EmbedLen → Data (Embed b e) = some b) :
    ∃ portions e1 e2 dec,
      encryptLongMessage G Embed EmbedLen randomBytes embedRand encRand data (a • G) =
        some (portions, e1, e2) ∧
      decryptAll e1 e2 a = some dec ∧
      ∀ pts, pts ~ dec →
        compileMessages Data pts =
          some [data.take (8 * (EmbedLen - 17)) ++
            List.replicate (8 * (EmbedLen - 17) - data.length) 0] := by
  have hE' : randomnessLength + 1 ≤ EmbedLen := hE
  have hr' : randomBytes.length = randomnessLength := hr
  refine ⟨_, _, _, _, encryptLongMessage_eq G Embed EmbedLen randomBytes embedRand encRand data
    (a • G) hE' hr', decryptAll_map _ _ _ a, ?_⟩
  intro pts hp
  have hL : EmbedLen - randomnessLength - 1 = EmbedLen - 17 := by
    simp only [randomnessLength]; omega
  have hchunks : ((List.range messagePartitions).map (fun j =>
      decryptMessage (encRand j • G)
        (encRand j • a • G + Embed ((splitChunks (EmbedLen - randomnessLength - 1) randomBytes data
          messagePartitions).getD j []) (embedRand j)) a)).map Data =
      (splitChunks (EmbedLen - randomnessLength - 1) randomBytes data messagePartitions).map some := by
    simp only [decryptMessage_encrypt, List.map_map]
    unfold splitChunks
    rw [List.map_map]
    apply List.map_congr_left
    intro j hj
    have hj' := List.mem_range.1 hj
    simp only [Function.comp, List.getD_eq_getElem?_getD, List.getElem?_map,
      List.getElem?_range hj', Option.map_some', Option.getD_some]
    apply hData
    rw [length_chunkOf _ _ _ _ hr' (by simp)]
    omega
  rw [compileMessages_perm Data pts _ _ hp hchunks]
  have := compileChunks_split (EmbedLen - randomnessLength - 1) randomBytes data 7 (by omega) hr'
  rw [hL] at this ⊢
  exact this

theorem seqData_seqEmbed (n : Nat) (data : List Byte) (e : Unit) (h : data.length = n) :
    seqData n (seqEmbed data e) = some data := by
  unfold seqData seqEmbed
  congr 1
  apply List.ext_getElem
  · simp [h]
  · intro k h1 h2
    simp only [List.getElem_map, List.getElem_range, Rat.num_natCast, Int.toNat_ofNat]
    have hk : k < data.length := h2
    rw [List.getD_eq_getElem _ _ hk]
    apply Fin.ext
    simp [byteOfInt, Nat.mod_eq_of_lt (data[k]).isLt]

theorem compileStep_total {st : CompileState} {c : List Byte} (hst : Started st)
    (hc : randomnessLength + 1 ≤ c.length) :
    ∃ st1, compileStep st c = some st1 ∧ Started st1 := by
  by_cases hp : st.currentPrefix = nonceOf c
  · have hne : st.completeMessages ≠ [] := by
      rcases hst with h | h
      · have hl := nonceOf_length hc
        rw [← hp, h] at hl
        simp [randomnessLength] at hl
      · exact h
    by_cases hi : st.currentIndex = indexOf c
    · exact ⟨st, compileStep_skip hc st hp hi, Or.inr hne⟩
    · obtain ⟨ms, m, hms⟩ : ∃ ms m, st.completeMessages = ms ++ [m] :=
        ⟨_, _, (List.dropLast_append_getLast hne).symm⟩
      have hst_eq : st = ⟨st.currentPrefix, st.currentIndex, ms ++ [m]⟩ := by
        cases st; simp_all
      have hstep := compileStep_extend hc st.currentPrefix st.currentIndex ms m hp hi
      rw [← hst_eq] at hstep
      exact ⟨_, hstep, Or.inr (by simp)⟩
  · exact ⟨_, compileStep_new hc st hp, Or.inr (by simp)⟩

theorem compileLoop_total (S : List (List Byte)) :
    ∀ st, Started st → (∀ c ∈ S, randomnessLength + 1 ≤ c.length) →
      ∃ st1, compileLoop st S = some st1 := by
  induction S with
  | nil => intro st _ _; exact ⟨st, rfl⟩
  | cons c S ih =>
    intro st hst hlen
    obtain ⟨st1, h1, hs1⟩ := compileStep_total hst (hlen c (List.mem_cons_self _ _))
    obtain ⟨st2, h2⟩ := ih st1 hs1 (fun x hx => hlen x (List.mem_cons_of_mem _ hx))
    exact ⟨st2, by simp only [compileLoop, h1, h2]⟩

theorem compileChunks_total (chunks : List (List Byte))
    (hlen : ∀ c ∈ chunks, randomnessLength + 1 ≤ c.length) :
    ∃ msgs, compileChunks chunks = some msgs := by
  obtain ⟨st, hst⟩ := compileLoop_total (sortChunks chunks)
    { currentPrefix := [], currentIndex := 0, completeMessages := [] } (Or.inl rfl)
    (fun c hc => hlen c ((sortChunks_perm chunks).subset hc))
  exact ⟨st.completeMessages, by simp [compileChunks, hst]⟩

theorem data_of_forall {P : Type} (Data : P → Option (List Byte)) (pts : List P)
    (h : ∀ p ∈ pts, ∃ d, Data p = some d ∧ 17 ≤ d.length) :
    pts.map Data = (pts.map (fun p => (Data p).getD [])).map some ∧
      ∀ c ∈ pts.map (fun p => (Data p).getD []), randomnessLength + 1 ≤ c.length := by
  refine ⟨?_, ?_⟩
  · rw [List.map_map]
    apply List.map_congr_left
    intro p hp
    obtain ⟨d, hd, _⟩ := h p hp
    simp [hd]
  · intro c hc
    obtain ⟨p, hp, rfl⟩ := List.mem_map.1 hc
    obtain ⟨d, hd, hl⟩ := h p hp
    simpa [hd, randomnessLength] using hl

theorem notAfter_refl (x : List Byte) : notAfter x x := by
  rw [notAfter_iff]
  exact irrefl_of (List.Lex (fun a b : Byte => a < b)) x

theorem sorted_duplicate {S1 S2 : List (List Byte)} {c : List Byte}
    (h : (S1 ++ c :: S2).Sorted notAfter) : (S1 ++ c :: c :: S2).Sorted notAfter := by
  unfold List.Sorted at h ⊢
  rw [List.pairwise_append] at h ⊢
  obtain ⟨h1, h2, h3⟩ := h
  refine ⟨h1, ?_, ?_⟩
  · rw [List.pairwise_cons]
    refine ⟨?_, h2⟩
    intro x hx
    rcases List.mem_cons.1 hx with rfl | hx
    · exact notAfter_refl _
    · exact (List.pairwise_cons.1 h2).1 x hx
  · intro a ha b hb
    rcases List.mem_cons.1 hb with rfl | hb
    · exact h3 a ha _ (List.mem_cons_self _ _)
    · exact h3 a ha b hb

theorem compileLoop_duplicate (S1 S2 : List (List Byte)) (c : List Byte) (st : CompileState) :
    compileLoop st (S1 ++ c :: c :: S2) = compileLoop st (S1 ++ c :: S2) := by
  rw [compileLoop_append, compileLoop_append]
  cases h1 : compileLoop st S1 with
  | none => rfl
  | some st1 =>
    simp only [Option.some_bind, compileLoop]
    cases h2 : compileStep st1 c with
    | none => rfl
    | some st2 =>
      obtain ⟨hc, hp, hi⟩ := compileStep_some h2
      simp only [compileStep_skip hc st2 hp hi]

theorem compileChunks_duplicate (A B : List (List Byte)) (c : List Byte) (hc : c ∈ A ++ B) :
    compileChunks (A ++ c :: B) = compileChunks (A ++ B) := by
  have hmem : c ∈ sortChunks (A ++ B) := (sortChunks_perm (A ++ B)).symm.subset hc
  obtain ⟨S1, S2, hS⟩ := List.append_of_mem hmem
  have hsorted : (S1 ++ c :: c :: S2).Sorted notAfter := by
    apply sorted_duplicate
    rw [← hS]
    exact sortChunks_sorted _
  have hperm : S1 ++ c :: c :: S2 ~ A ++ c :: B := by
    have h1 : S1 ++ c :: c :: S2 ~ c :: (S1 ++ c :: S2) := List.perm_middle
    have h2 : A ++ c :: B ~ c :: (A ++ B) := List.perm_middle
    refine h1.trans (List.Perm.trans ?_ h2.symm)
    rw [← hS]
    exact (sortChunks_perm (A ++ B)).cons c
  unfold compileChunks
  rw [sortChunks_eq_of_sorted hperm hsorted, hS, compileLoop_duplicate]

theorem nonceOf_mk (N : List Byte) (b : Byte) (x : List Byte)
    (hN : N.length = randomnessLength) : nonceOf (N ++ b :: x) = N := by
  unfold nonceOf
  exact List.take_left' hN

theorem indexOf_mk (N : List Byte) (b : Byte) (x : List Byte)
    (hN : N.length = randomnessLength) : indexOf (N ++ b :: x) = b := by
  unfold indexOf
  rw [List.getD_eq_getElem?_getD, List.getElem?_append_right (by omega)]
  simp [hN]

theorem payloadOf_mk (N : List Byte) (b : Byte) (x : List Byte)
    (hN : N.length = randomnessLength) : payloadOf (N ++ b :: x) = x := by
  unfold payloadOf
  rw [show N ++ b :: x = (N ++ [b]) ++ x by simp]
  exact List.drop_left' (by simp [hN])

theorem compileChunks_pair (N p0 p1 : List Byte) (hN : N.length = randomnessLength) :
    compileChunks [N ++ 0 :: p0, N ++ 1 :: p1] = some [p0 ++ p1] := by
  have hs : [N ++ (0 : Byte) :: p0, N ++ (1 : Byte) :: p1].Pairwise
      (fun a b => notAfter a b ∧ ¬ SameKey a b) := by
    rw [List.pairwise_cons]
    refine ⟨?_, by simp⟩
    intro b hb
    rw [List.mem_singleton] at hb
    subst hb
    refine ⟨?_, ?_⟩
    · rw [notAfter_iff, lexLt_append_left]
      intro h
      cases h with
      | rel h => exact absurd h (by decide)
    · intro h
      have h2 := h.2
      rw [indexOf_mk N _ _ hN, indexOf_mk N _ _ hN] at h2
      exact absurd h2 (by decide)
  rw [compileChunks_of_sorted _ _ ?_ hs]
  · rw [groupFrom, if_pos (by rw [nonceOf_mk N _ _ hN, nonceOf_mk N _ _ hN])]
    simp [groupFrom, payloadOf_mk N _ _ hN]
  · intro x hx
    simp only [List.mem_cons, List.mem_singleton, List.not_mem_nil, or_false] at hx
    rcases hx with rfl | rfl <;> simp [hN]

theorem compileMessages_of_perm_data {P : Type} (Data : P → Option (List Byte)) (pts : List P)
    (chunks : List (List Byte)) (h : pts.map Data ~ chunks.map some) :
    compileMessages Data pts = compileChunks chunks := by
  have hsome : ∀ p ∈ pts, Data p = some ((Data p).getD []) := by
    intro p hp
    have hm : Data p ∈ chunks.map some := h.subset (List.mem_map_of_mem Data hp)
    obtain ⟨c, _, hc⟩ := List.mem_map.1 hm
    simp [← hc]
  have hpts : pts.map Data = (pts.map (fun p => (Data p).getD [])).map some := by
    rw [List.map_map]
    exact List.map_congr_left hsome
  rw [compileMessages_of_data Data pts _ hpts]
  apply compileChunks_congr
  have h2 := h.map (fun o => o.getD [])
  simpa [List.map_map, Function.comp_def] using h2

theorem lexLt_irrefl (x : List Byte) : ¬ lexLt x x :=
  irrefl_of (List.Lex (fun a b : Byte => a < b)) x

theorem lexLt_trans {x y z : List Byte} (h1 : lexLt x y) (h2 : lexLt y z) : lexLt x z := by
  rcases (List.Lex.isOrderConnected (fun a b : Byte => a < b)).conn x z y h1 with h | h
  · exact h
  · exact absurd h2 (asymm h)

theorem lexLt_of_not {x y : List Byte} (h1 : ¬ lexLt y x) (h2 : x ≠ y) : lexLt x y := by
  rcases (List.Lex.isTrichotomous (fun a b : Byte => a < b)).trichotomous x y with h | h | h
  · exact h
  · exact absurd h h2
  · exact absurd h h1

theorem lexLt_of_not_of_lt {x y z : List Byte} (h1 : ¬ lexLt y x) (h2 : lexLt y z) :
    lexLt x z := by
  by_cases h : x = y
  · rw [h]; exact h2
  · exact lexLt_trans (lexLt_of_not h1 h) h2

theorem lexLt_append_of_lt : ∀ (p q s t : List Byte), p.length = q.length → lexLt p q →
    lexLt (p ++ s) (q ++ t) := by
  intro p
  induction p with
  | nil => intro q s t hl h; cases q <;> simp_all
  | cons a p ih =>
    intro q s t hl h
    cases q with
    | nil => simp at hl
    | cons b q =>
      simp only [List.length_cons, Nat.add_right_cancel_iff] at hl
      cases h with
      | cons h => exact List.Lex.cons (ih q s t hl h)
      | rel h => exact List.Lex.rel h

theorem chunk_decomp {c : List Byte} (hc : randomnessLength + 1 ≤ c.length) :
    c = nonceOf c ++ indexOf c :: payloadOf c := by
  unfold nonceOf indexOf payloadOf
  have h1 : randomnessLength < c.length := hc
  rw [List.getD_eq_getElem _ _ h1, ← List.drop_eq_getElem_cons h1, List.take_append_drop]

theorem lexLt_of_nonce_lt {a b : List Byte} (ha : randomnessLength + 1 ≤ a.length)
    (hb : randomnessLength + 1 ≤ b.length) (h : lexLt (nonceOf a) (nonceOf b)) : lexLt a b := by
  rw [chunk_decomp ha, chunk_decomp hb]
  exact lexLt_append_of_lt _ _ _ _ (by rw [nonceOf_length ha, nonceOf_length hb]) h

theorem lexLt_of_index_lt {a b : List Byte} (ha : randomnessLength + 1 ≤ a.length)
    (hb : randomnessLength + 1 ≤ b.length) (hn : nonceOf a = nonceOf b)
    (h : indexOf a < indexOf b) : lexLt a b := by
  rw [chunk_decomp ha, chunk_decomp hb, hn, lexLt_append_left]
  exact List.Lex.rel h

theorem payloadsOf_cons_pos {c : List Byte} {N : List Byte} (S : List (List Byte))
    (h : nonceOf c = N) : payloadsOf (c :: S) N = payloadOf c ++ payloadsOf S N := by
  simp [payloadsOf, List.filter_cons, h]

theorem payloadsOf_cons_neg {c : List Byte} {N : List Byte} (S : List (List Byte))
    (h : nonceOf c ≠ N) : payloadsOf (c :: S) N = payloadsOf S N := by
  simp [payloadsOf, List.filter_cons, h]

theorem payloadsOf_absent (S : List (List Byte)) (N : List Byte)
    (h : ∀ c ∈ S, nonceOf c ≠ N) : payloadsOf S N = [] := by
  have hf : S.filter (fun c => nonceOf c = N) = [] := by
    rw [List.filter_eq_nil_iff]
    intro c hc
    simpa using h c hc
  simp [payloadsOf, hf]

theorem groupFrom_sorted (S : List (List Byte)) :
    ∀ (N m : List Byte),
      S.Pairwise (fun a b => ¬ lexLt (nonceOf b) (nonceOf a)) →
      (∀ c ∈ S, ¬ lexLt (nonceOf c) N) →
      groupFrom N m S = (m ++ payloadsOf S N) :: (tailNonces N S).map (payloadsOf S) ∧
      (∀ N' ∈ tailNonces N S, lexLt N N') ∧
      (tailNonces N S).Pairwise lexLt ∧
      (∀ N' ∈ tailNonces N S, ∃ c ∈ S, nonceOf c = N') ∧
      (∀ c ∈ S, nonceOf c = N ∨ nonceOf c ∈ tailNonces N S) := by
  induction S with
  | nil =>
    intro N m _ _
    simp [groupFrom, tailNonces, payloadsOf]
  | cons c rest ih =>
    intro N m hp hge
    rw [List.pairwise_cons] at hp
    obtain ⟨hhead, hrest⟩ := hp
    by_cases hN : nonceOf c = N
    · obtain ⟨h1, h2, h3, h4, h5⟩ := ih N (m ++ payloadOf c) hrest
        (fun x hx => hge x (List.mem_cons_of_mem _ hx))
      have htail : tailNonces N (c :: rest) = tailNonces N rest := by
        simp [tailNonces, hN]
      rw [htail]
      refine ⟨?_, h2, h3, ?_, ?_⟩
      · rw [groupFrom, if_pos hN, h1, payloadsOf_cons_pos rest hN, List.append_assoc]
        congr 1
        apply List.map_congr_left
        intro N' hN'
        rw [payloadsOf_cons_neg rest]
        intro e
        rw [hN] at e
        exact lexLt_irrefl N (e ▸ h2 N' hN')
      · intro N' hN'
        obtain ⟨x, hx, hxN⟩ := h4 N' hN'
        exact ⟨x, List.mem_cons_of_mem _ hx, hxN⟩
      · intro x hx
        rcases List.mem_cons.1 hx with rfl | hx
        · exact Or.inl hN
        · exact h5 x hx
    · have hlt : lexLt N (nonceOf c) :=
        lexLt_of_not (hge c (List.mem_cons_self _ _)) (fun e => hN e.symm)
      obtain ⟨h1, h2, h3, h4, h5⟩ := ih (nonceOf c) (payloadOf c) hrest hhead
      have htail : tailNonces N (c :: rest) = nonceOf c :: tailNonces (nonceOf c) rest := by
        simp [tailNonces, hN]
      rw [htail]
      refine ⟨?_, ?_, ?_, ?_, ?_⟩
      · rw [groupFrom, if_neg hN, h1, payloadsOf_cons_neg rest hN]
        have habs : payloadsOf rest N = [] := by
          apply payloadsOf_absent
          intro x hx e
          have := hhead x hx
          rw [e] at this
          exact this hlt
        rw [habs, List.append_nil, List.map_cons, payloadsOf_cons_pos rest rfl]
        congr 2
        apply List.map_congr_left
        intro N' hN'
        rw [payloadsOf_cons_neg rest]
        intro e
        exact lexLt_irrefl N' (e ▸ h2 N' hN')
      · intro N' hN'
        rcases List.mem_cons.1 hN' with rfl | hN'
        · exact hlt
        · exact lexLt_trans hlt (h2 N' hN')
      · rw [List.pairwise_cons]
        exact ⟨h2, h3⟩
      · intro N' hN'
        rcases List.mem_cons.1 hN' with rfl | hN'
        · exact ⟨c, List.mem_cons_self _ _, rfl⟩
        · obtain ⟨x, hx, hxN⟩ := h4 N' hN'
          exact ⟨x, List.mem_cons_of_mem _ hx, hxN⟩
      · intro x hx
        rcases List.mem_cons.1 hx with rfl | hx
        · exact Or.inr (List.mem_cons_self _ _)
        · rcases h5 x hx with h | h
          · exact Or.inr (by rw [h]; exact List.mem_cons_self _ _)
          · exact Or.inr (List.mem_cons_of_mem _ h)

theorem sameKey_symm {a b : List Byte} (h : ¬ SameKey a b) : ¬ SameKey b a :=
  fun h' => h ⟨h'.1.symm, h'.2.symm⟩

theorem sortChunks_keys (chunks : List (List Byte))
    (hkey : chunks.Pairwise (fun a b => ¬ SameKey a b)) :
    (sortChunks chunks).Pairwise (fun a b => notAfter a b ∧ ¬ SameKey a b) := by
  have h1 : (sortChunks chunks).Pairwise (fun a b => ¬ SameKey a b) :=
    (sortChunks_perm chunks).symm.pairwise hkey (fun h => sameKey_symm h)
  exact (sortChunks_sorted chunks).and h1

theorem payloadsOf_sorted (chunks : List (List Byte)) (N : List Byte)
    (hlen : ∀ c ∈ chunks, randomnessLength + 1 ≤ c.length)
    (hkey : chunks.Pairwise (fun a b => ¬ SameKey a b)) :
    payloadsOf (sortChunks chunks) N = messageOfNonce chunks N := by
  have hS := sortChunks_keys chunks hkey
  have hlenS : ∀ c ∈ sortChunks chunks, randomnessLength + 1 ≤ c.length :=
    fun c hc => hlen c ((sortChunks_perm chunks).subset hc)
  -- the chunks of nonce `N` in the sorted list are strictly increasing in the index byte
  have hY : ((sortChunks chunks).filter (fun c => nonceOf c = N)).Pairwise
      (fun a b => indexOf a < indexOf b) := by
    have hf := List.Pairwise.filter (fun c => nonceOf c = N) hS
    refine hf.imp_of_mem ?_
    intro a b ha hb hab
    rw [List.mem_filter] at ha hb
    have hna : nonceOf a = N := by simpa using ha.2
    have hnb : nonceOf b = N := by simpa using hb.2
    rcases lt_trichotomy (indexOf a) (indexOf b) with h | h | h
    · exact h
    · exact absurd ⟨hna.trans hnb.symm, h⟩ hab.2
    · have := lexLt_of_index_lt (hlenS b hb.1) (hlenS a ha.1) (hnb.trans hna.symm) h
      exact absurd this ((notAfter_iff a b).1 hab.1)
  have hperm : (sortChunks chunks).filter (fun c => nonceOf c = N) ~
      chunks.filter (fun c => nonceOf c = N) := (sortChunks_perm chunks).filter _
  have htotal : IsTotal (List Byte) (fun a b => indexOf a ≤ indexOf b) :=
    ⟨fun a b => le_total _ _⟩
  have htrans : IsTrans (List Byte) (fun a b => indexOf a ≤ indexOf b) :=
    ⟨fun a b c => le_trans⟩
  have hZs : (chunksOfNonce chunks N).Sorted (fun a b => indexOf a ≤ indexOf b) :=
    List.sorted_insertionSort _ _
  have hZp : chunksOfNonce chunks N ~ (sortChunks chunks).filter (fun c => nonceOf c = N) :=
    (List.perm_insertionSort _ _).trans hperm.symm
  have hZne : (chunksOfNonce chunks N).Pairwise (fun a b => indexOf a ≠ indexOf b) :=
    hZp.symm.pairwise (hY.imp (fun h => ne_of_lt h)) (fun h => fun e => h e.symm)
  have hZ : (chunksOfNonce chunks N).Pairwise (fun a b => indexOf a < indexOf b) :=
    (List.Pairwise.and hZs hZne).imp (fun h => lt_of_le_of_ne h.1 h.2)
  have hanti : IsAntisymm (List Byte) (fun a b => indexOf a < indexOf b) :=
    ⟨fun a b h1 h2 => absurd h1 (lt_asymm h2)⟩
  have heq : chunksOfNonce chunks N = (sortChunks chunks).filter (fun c => nonceOf c = N) :=
    List.eq_of_perm_of_sorted hZp hZ hY
  simp [payloadsOf, messageOfNonce, heq]

theorem compileChunks_mixed (chunks : List (List Byte))
    (hlen : ∀ c ∈ chunks, randomnessLength + 1 ≤ c.length)
    (hkey : chunks.Pairwise (fun a b => ¬ SameKey a b)) :
    ∃ nonces : List (List Byte),
      nonces.Pairwise lexLt ∧
      (∀ N, N ∈ nonces ↔ ∃ c ∈ chunks, nonceOf c = N) ∧
      compileChunks chunks = some (nonces.map (messageOfNonce chunks)) := by
  have hS := sortChunks_keys chunks hkey
  have hperm := sortChunks_perm chunks
  have hlenS : ∀ c ∈ sortChunks chunks, randomnessLength + 1 ≤ c.length :=
    fun c hc => hlen c (hperm.subset hc)
  have hcc : compileChunks chunks = compileChunks (sortChunks chunks) :=
    compileChunks_congr hperm.symm
  cases hs : sortChunks chunks with
  | nil =>
    have hnil : chunks = [] := List.Perm.eq_nil (hs ▸ hperm.symm)
    subst hnil
    exact ⟨[], List.Pairwise.nil, by simp, by decide⟩
  | cons c rest =>
    rw [hs] at hS hlenS
    have hnonce : (c :: rest).Pairwise (fun a b => ¬ lexLt (nonceOf b) (nonceOf a)) := by
      refine hS.imp_of_mem ?_
      intro a b ha hb hab h
      exact (notAfter_iff a b).1 hab.1 (lexLt_of_nonce_lt (hlenS b hb) (hlenS a ha) h)
    have hge : ∀ x ∈ c :: rest, ¬ lexLt (nonceOf x) (nonceOf c) := by
      intro x hx
      rcases List.mem_cons.1 hx with rfl | hx
      · exact lexLt_irrefl _
      · exact (List.pairwise_cons.1 hnonce).1 x hx
    obtain ⟨h1, h2, h3, h4, h5⟩ := groupFrom_sorted (c :: rest) (nonceOf c) [] hnonce hge
    have hg : groupFrom (nonceOf c) [] (c :: rest) = groupFrom (nonceOf c) (payloadOf c) rest := by
      simp [groupFrom]
    refine ⟨nonceOf c :: tailNonces (nonceOf c) (c :: rest), ?_, ?_, ?_⟩
    · rw [List.pairwise_cons]
      exact ⟨h2, h3⟩
    · intro N
      constructor
      · intro hN
        rcases List.mem_cons.1 hN with rfl | hN
        · exact ⟨c, hperm.subset (hs ▸ List.mem_cons_self _ _), rfl⟩
        · obtain ⟨x, hx, hxN⟩ := h4 N hN
          exact ⟨x, hperm.subset (hs ▸ hx), hxN⟩
      · rintro ⟨x, hx, rfl⟩
        have hx' : x ∈ c :: rest := hs ▸ hperm.symm.subset hx
        rcases h5 x hx' with h | h
        · rw [h]; exact List.mem_cons_self _ _
        · exact List.mem_cons_of_mem _ h
    · rw [hcc, hs, compileChunks_of_sorted c rest hlenS hS, ← hg, h1, List.nil_append,
        List.map_cons]
      have hpay : ∀ N, payloadsOf (c :: rest) N = messageOfNonce chunks N := by
        intro N
        rw [← hs]
        exact payloadsOf_sorted chunks N hlen hkey
      have hfun : payloadsOf (c :: rest) = messageOfNonce chunks := funext hpay
      rw [hfun]

theorem lexLt_iff_first_difference (x y : List Byte) :
    lexLt x y ↔
      (∃ t, t ≠ [] ∧ y = x ++ t) ∨
      (∃ p a b s t, x = p ++ a :: s ∧ y = p ++ b :: t ∧ a < b) := by
  induction x generalizing y with
  | nil =>
    cases y with
    | nil =>
      constructor
      · intro h; cases h
      · rintro (⟨t, ht, h⟩ | ⟨p, a, b, s, t, h, _, _⟩)
        · simp at h; exact absurd h ht
        · simp at h
    | cons b ys =>
      constructor
      · intro _; exact Or.inl ⟨b :: ys, by simp, by simp⟩
      · intro _; exact List.Lex.nil
  | cons a xs ih =>
    cases y with
    | nil =>
      constructor
      · intro h; cases h
      · rintro (⟨t, _, h⟩ | ⟨p, a', b, s, t, _, h, _⟩)
        · simp at h
        · simp at h
    | cons b ys =>
      constructor
      · intro h
        cases h with
        | cons h =>
          rcases (ih ys).1 h with ⟨t, ht, e⟩ | ⟨p, a', b', s, t, e1, e2, hlt⟩
          · exact Or.inl ⟨t, ht, by rw [e]; rfl⟩
          · exact Or.inr ⟨a :: p, a', b', s, t, by rw [e1]; rfl, by rw [e2]; rfl, hlt⟩
        | rel h => exact Or.inr ⟨[], a, b, xs, ys, rfl, rfl, h⟩
      · rintro (⟨t, ht, e⟩ | ⟨p, a', b', s, t, e1, e2, hlt⟩)
        · simp only [List.cons_append, List.cons.injEq] at e
          obtain ⟨rfl, e⟩ := e
          exact List.Lex.cons ((ih ys).2 (Or.inl ⟨t, ht, e⟩))
        · cases p with
          | nil =>
            simp only [List.nil_append, List.cons.injEq] at e1 e2
            obtain ⟨rfl, _⟩ := e1
            obtain ⟨rfl, _⟩ := e2
            exact List.Lex.rel hlt
          | cons c p =>
            simp only [List.cons_append, List.cons.injEq] at e1 e2
            obtain ⟨rfl, e1⟩ := e1
            obtain ⟨rfl, e2⟩ := e2
            exact List.Lex.cons ((ih ys).2 (Or.inr ⟨p, a', b', s, t, e1, e2, hlt⟩))

theorem compileLoop_short (S : List (List Byte)) :
    ∀ st, (∃ c ∈ S, c.length < randomnessLength + 1) → compileLoop st S = none := by
  induction S with
  | nil => intro st h; obtain ⟨c, hc, _⟩ := h; cases hc
  | cons c rest ih =>
    intro st h
    simp only [compileLoop]
    cases hstep : compileStep st c with
    | none => rfl
    | some st1 =>
      have hc := (compileStep_some hstep).1
      obtain ⟨x, hx, hxl⟩ := h
      rcases List.mem_cons.1 hx with rfl | hx
      · omega
      · exact ih st1 ⟨x, hx, hxl⟩

theorem compileChunks_short (chunks : List (List Byte))
    (h : ∃ c ∈ chunks, c.length < randomnessLength + 1) : compileChunks chunks = none := by
  obtain ⟨c, hc, hl⟩ := h
  unfold compileChunks
  rw [compileLoop_short _ _ ⟨c, (sortChunks_perm chunks).symm.subset hc, hl⟩]
  rfl

theorem dropSame_sublist (S : List (List Byte)) : ∀ p, (dropSame p S).Sublist S := by
  induction S with
  | nil => intro p; exact List.Sublist.slnil
  | cons c rest ih =>
    intro p
    unfold dropSame
    split
    · exact (ih p).cons c
    · exact (ih c).cons₂ c

theorem sameKey_squeeze {a b c : List Byte} (ha : randomnessLength + 1 ≤ a.length)
    (hb : randomnessLength + 1 ≤ b.length) (hc : randomnessLength + 1 ≤ c.length)
    (hab : notAfter a b) (hbc : notAfter b c) (hac : SameKey a c) : SameKey a b := by
  rw [notAfter_iff] at hab hbc
  have hn : nonceOf a = nonceOf b := by
    by_contra hne
    have h1 : ¬ lexLt (nonceOf b) (nonceOf a) := fun h => hab (lexLt_of_nonce_lt hb ha h)
    have h2 : lexLt (nonceOf a) (nonceOf b) := lexLt_of_not h1 hne
    have h3 : ¬ lexLt (nonceOf c) (nonceOf b) := fun h => hbc (lexLt_of_nonce_lt hc hb h)
    rw [← hac.1] at h3
    exact h3 h2
  refine ⟨hn, ?_⟩
  have h1 : ¬ indexOf b < indexOf a := fun h => hab (lexLt_of_index_lt hb ha hn.symm h)
  have h2 : ¬ indexOf c < indexOf b :=
    fun h => hbc (lexLt_of_index_lt hc hb (hac.1.symm.trans hn) h)
  rw [← hac.2] at h2
  exact le_antisymm (not_lt.1 h1) (not_lt.1 h2)

theorem dropSame_keys (S : List (List Byte)) :
    ∀ p, (p :: S).Sorted notAfter → (∀ c ∈ p :: S, randomnessLength + 1 ≤ c.length) →
      (∀ k ∈ dropSame p S, ¬ SameKey p k) ∧
      (dropSame p S).Pairwise (fun a b => ¬ SameKey a b) := by
  induction S with
  | nil => intro p _ _; simp [dropSame]
  | cons c rest ih =>
    intro p hs hlen
    have hs' := hs
    unfold List.Sorted at hs'
    rw [List.pairwise_cons] at hs'
    obtain ⟨hp, hcr⟩ := hs'
    have hprest : (p :: rest).Sorted notAfter := by
      unfold List.Sorted
      rw [List.pairwise_cons]
      exact ⟨fun x hx => hp x (List.mem_cons_of_mem _ hx), (List.pairwise_cons.1 hcr).2⟩
    have hlp := hlen p (List.mem_cons_self _ _)
    have hlc := hlen c (List.mem_cons_of_mem _ (List.mem_cons_self _ _))
    have hlrest : ∀ x ∈ rest, randomnessLength + 1 ≤ x.length :=
      fun x hx => hlen x (List.mem_cons_of_mem _ (List.mem_cons_of_mem _ hx))
    unfold dropSame
    split
    · exact ih p hprest (fun x hx => by
        rcases List.mem_cons.1 hx with rfl | hx
        · exact hlp
        · exact hlrest x hx)
    · rename_i hne
      obtain ⟨h1, h2⟩ := ih c hcr (fun x hx => hlen x (List.mem_cons_of_mem _ hx))
      refine ⟨?_, ?_⟩
      · intro k hk
        rcases List.mem_cons.1 hk with rfl | hk
        · exact hne
        · have hkrest : k ∈ rest := (dropSame_sublist rest c).subset hk
          intro hsame
          exact hne (sameKey_squeeze hlp hlc (hlrest k hkrest)
            (hp c (List.mem_cons_self _ _)) ((List.pairwise_cons.1 hcr).1 k hkrest) hsame)
      · rw [List.pairwise_cons]
        exact ⟨h1, h2⟩

theorem dropSame_first (S : List (List Byte)) :
    ∀ p, (p :: S).Sorted notAfter →
      ∀ x ∈ S, SameKey p x ∨ ∃ k ∈ dropSame p S, SameKey k x ∧ notAfter k x := by
  induction S with
  | nil => intro p _ x hx; cases hx
  | cons c rest ih =>
    intro p hs x hx
    have hs' := hs
    unfold List.Sorted at hs'
    rw [List.pairwise_cons] at hs'
    obtain ⟨hp, hcr⟩ := hs'
    have hprest : (p :: rest).Sorted notAfter := by
      unfold List.Sorted
      rw [List.pairwise_cons]
      exact ⟨fun x hx => hp x (List.mem_cons_of_mem _ hx), (List.pairwise_cons.1 hcr).2⟩
    unfold dropSame
    split
    · rename_i hsame
      rcases List.mem_cons.1 hx with rfl | hx
      · exact Or.inl hsame
      · exact ih p hprest x hx
    · rcases List.mem_cons.1 hx with rfl | hx
      · exact Or.inr ⟨x, List.mem_cons_self _ _, ⟨rfl, rfl⟩, notAfter_refl x⟩
      · rcases ih c hcr x hx with h | ⟨k, hk, hkx⟩
        · exact Or.inr ⟨c, List.mem_cons_self _ _, h, (List.pairwise_cons.1 hcr).1 x hx⟩
        · exact Or.inr ⟨k, List.mem_cons_of_mem _ hk, hkx⟩

theorem keepFirst_keys (S : List (List Byte)) (hs : S.Sorted notAfter)
    (hlen : ∀ c ∈ S, randomnessLength + 1 ≤ c.length) :
    (keepFirst S).Pairwise (fun a b => ¬ SameKey a b) ∧
    ∀ x ∈ S, ∃ k ∈ keepFirst S, SameKey k x ∧ notAfter k x := by
  cases S with
  | nil => simp [keepFirst]
  | cons c rest =>
    obtain ⟨h1, h2⟩ := dropSame_keys rest c hs hlen
    refine ⟨?_, ?_⟩
    · simp only [keepFirst]
      rw [List.pairwise_cons]
      exact ⟨h1, h2⟩
    · intro x hx
      simp only [keepFirst]
      rcases List.mem_cons.1 hx with rfl | hx
      · exact ⟨x, List.mem_cons_self _ _, ⟨rfl, rfl⟩, notAfter_refl x⟩
      · rcases dropSame_first rest c hs x hx with h | ⟨k, hk, hkx⟩
        · exact ⟨c, List.mem_cons_self _ _, h,
            (List.pairwise_cons.1 (show List.Pairwise notAfter (c :: rest) from hs)).1 x hx⟩
        · exact ⟨k, List.mem_cons_of_mem _ hk, hkx⟩

theorem keepFirst_sublist (S : List (List Byte)) : (keepFirst S).Sublist S := by
  cases S with
  | nil => exact List.Sublist.slnil
  | cons c rest => exact (dropSame_sublist rest c).cons₂ c

theorem compileLoop_dropSame (S : List (List Byte)) :
    ∀ (p : List Byte) (st : CompileState),
      (∀ c ∈ S, randomnessLength + 1 ≤ c.length) →
      st.currentPrefix = nonceOf p → st.currentIndex = indexOf p →
      compileLoop st S = compileLoop st (dropSame p S) := by
  induction S with
  | nil => intro p st _ _ _; rfl
  | cons c rest ih =>
    intro p st hlen hp hi
    have hc := hlen c (List.mem_cons_self _ _)
    have hrest : ∀ x ∈ rest, randomnessLength + 1 ≤ x.length :=
      fun x hx => hlen x (List.mem_cons_of_mem _ hx)
    unfold dropSame
    split
    · rename_i hsame
      simp only [compileLoop]
      rw [compileStep_skip hc st (hp.trans hsame.1) (hi.trans hsame.2)]
      exact ih p st hrest hp hi
    · simp only [compileLoop]
      cases hstep : compileStep st c with
      | none => rfl
      | some st1 =>
        obtain ⟨_, h1, h2⟩ := compileStep_some hstep
        exact ih c st1 hrest h1 h2

theorem compileLoop_keepFirst (S : List (List Byte))
    (hlen : ∀ c ∈ S, randomnessLength + 1 ≤ c.length) :
    compileLoop initState S = compileLoop initState (keepFirst S) := by
  cases S with
  | nil => rfl
  | cons c rest =>
    simp only [keepFirst, compileLoop]
    cases hstep : compileStep initState c with
    | none => rfl
    | some st1 =>
      obtain ⟨_, h1, h2⟩ := compileStep_some hstep
      exact compileLoop_dropSame rest c st1
        (fun x hx => hlen x (List.mem_cons_of_mem _ hx)) h1 h2

theorem compileChunks_keepFirst (chunks : List (List Byte))
    (hlen : ∀ c ∈ chunks, randomnessLength + 1 ≤ c.length) :
    (keepFirst (sortChunks chunks)).Sublist (sortChunks chunks) ∧
    (keepFirst (sortChunks chunks)).Pairwise (fun a b => ¬ SameKey a b) ∧
    (∀ c ∈ chunks, ∃ k ∈ keepFirst (sortChunks chunks), SameKey k c ∧ notAfter k c) ∧
    ∃ nonces : List (List Byte),
      nonces.Pairwise lexLt ∧
      (∀ N, N ∈ nonces ↔ ∃ c ∈ chunks, nonceOf c = N) ∧
      compileChunks chunks =
        some (nonces.map (messageOfNonce (keepFirst (sortChunks chunks)))) := by
  have hperm := sortChunks_perm chunks
  have hsorted := sortChunks_sorted chunks
  have hlenS : ∀ c ∈ sortChunks chunks, randomnessLength + 1 ≤ c.length :=
    fun c hc => hlen c (hperm.subset hc)
  have hsub := keepFirst_sublist (sortChunks chunks)
  obtain ⟨hkeys, hfirst⟩ := keepFirst_keys (sortChunks chunks) hsorted hlenS
  have hlenK : ∀ c ∈ keepFirst (sortChunks chunks), randomnessLength + 1 ≤ c.length :=
    fun c hc => hlenS c (hsub.subset hc)
  have hKsorted : (keepFirst (sortChunks chunks)).Sorted notAfter :=
    List.Pairwise.sublist hsub hsorted
  have hfirst' : ∀ c ∈ chunks, ∃ k ∈ keepFirst (sortChunks chunks), SameKey k c ∧ notAfter k c :=
    fun c hc => hfirst c (hperm.symm.subset hc)
  have hcc : compileChunks chunks = compileChunks (keepFirst (sortChunks chunks)) := by
    unfold compileChunks
    rw [sortChunks_eq_of_sorted (List.Perm.refl _) hKsorted]
    exact congrArg _ (compileLoop_keepFirst (sortChunks chunks) hlenS)
  obtain ⟨nonces, hn1, hn2, hn3⟩ := compileChunks_mixed _ hlenK hkeys
  refine ⟨hsub, hkeys, hfirst', nonces, hn1, ?_, by rw [hcc, hn3]⟩
  intro N
  rw [hn2]
  constructor
  · rintro ⟨k, hk, hkN⟩
    exact ⟨k, hperm.subset (hsub.subset hk), hkN⟩
  · rintro ⟨c, hc, hcN⟩
    obtain ⟨k, hk, hsame, _⟩ := hfirst' c hc
    exact ⟨k, hk, hsame.1.trans hcN⟩

end CodecLemmas

/-! ## The claims: ElGamal and threshold decryption -/

section ElGamalTheorems

variable {F P : Type} [Field F] [AddCommGroup P] [Module F P]

/-- C3: for every secret `a`, message point `m` and randomness `r`,
`encryptMessage(m, a*G)` is the pair `(r*G, m + r*(a*G))` and `decryptMessage` of that
pair with secret `a` is `m`. -/
theorem elgamal_round_trip (G : P) (a r : F) (m : P) :
    encryptMessage G r m (a • G) = (r • G, m + r • (a • G)) ∧
    decryptMessage (encryptMessage G r m (a • G)).1 (encryptMessage G r m (a • G)).2 a = m := by
  refine ⟨?_, ?_⟩
  · simp [encryptMessage, add_comm]
  · simp only [encryptMessage, decryptMessage]
    rw [smul_smul, smul_smul, mul_comm a r]
    abel

end ElGamalTheorems

section ThresholdTheorems

variable {F P : Type} [Field F] [AddCommGroup P] [Module F P]

/-- C1: with a polynomial of `t` coefficients (degree `t-1`), joint key `f(0)*G` and
participants holding `f(x_i)` at distinct evaluation points, `decryptMessageSecretless` of
`encryptMessage(m, pk)` with the shadows `extractShadow` gives for any set of at least `t`
participants returns `m`; so any two such sets `S1`, `S2` give the same result. -/
theorem threshold_decryption_subset_independent (G : P) (xOf : Nat → F) (coeffs : List F)
    (t n : Nat) (S1 S2 : List (DistKeyShare F P)) (m : P) (r : F)
    (hdeg : coeffs.length = t)
    (h1 : ValidShares xOf coeffs t S1) (h2 : ValidShares xOf coeffs t S2) :
    decryptMessageSecretless xOf (encryptMessage G r m (evalPoly coeffs 0 • G)).1
        (encryptMessage G r m (evalPoly coeffs 0 • G)).2
        (S1.map (extractShadow (encryptMessage G r m (evalPoly coeffs 0 • G)).1
          (encryptMessage G r m (evalPoly coeffs 0 • G)).2)) t n = Except.ok m ∧
    decryptMessageSecretless xOf (encryptMessage G r m (evalPoly coeffs 0 • G)).1
        (encryptMessage G r m (evalPoly coeffs 0 • G)).2
        (S2.map (extractShadow (encryptMessage G r m (evalPoly coeffs 0 • G)).1
          (encryptMessage G r m (evalPoly coeffs 0 • G)).2)) t n = Except.ok m :=
  ⟨decrypt_valid G xOf coeffs t n S1 m r hdeg h1, decrypt_valid G xOf coeffs t n S2 m r hdeg h2⟩

/-- Witness for C1 over the rationals: `f = 3 + 2x`, `t = 2`, holders 0, 1, 2 at the points
1, 2, 3; the sets are holders {0, 1} and holders {1, 2}. -/
theorem threshold_decryption_subset_independent_witness :
    decryptMessageSecretless (fun i => ((i : ℚ) + 1))
        (encryptMessage (1 : ℚ) (5 : ℚ) (4 : ℚ) (evalPoly [(3 : ℚ), 2] 0 • (1 : ℚ))).1
        (encryptMessage (1 : ℚ) (5 : ℚ) (4 : ℚ) (evalPoly [(3 : ℚ), 2] 0 • (1 : ℚ))).2
        ([({ Commits := [3, 2], Share := { I := 0, V := 5 } } : DistKeyShare ℚ ℚ),
          { Commits := [3, 2], Share := { I := 1, V := 7 } }].map
          (extractShadow (encryptMessage (1 : ℚ) (5 : ℚ) (4 : ℚ) (evalPoly [(3 : ℚ), 2] 0 • (1 : ℚ))).1
            (encryptMessage (1 : ℚ) (5 : ℚ) (4 : ℚ) (evalPoly [(3 : ℚ), 2] 0 • (1 : ℚ))).2)) 2 3 =
        Except.ok 4 ∧
    decryptMessageSecretless (fun i => ((i : ℚ) + 1))
        (encryptMessage (1 : ℚ) (5 : ℚ) (4 : ℚ) (evalPoly [(3 : ℚ), 2] 0 • (1 : ℚ))).1
        (encryptMessage (1 : ℚ) (5 : ℚ) (4 : ℚ) (evalPoly [(3 : ℚ), 2] 0 • (1 : ℚ))).2
        ([({ Commits := [3, 2], Share := { I := 1, V := 7 } } : DistKeyShare ℚ ℚ),
          { Commits := [3, 2], Share := { I := 2, V := 9 } }].map
          (extractShadow (encryptMessage (1 : ℚ) (5 : ℚ) (4 : ℚ) (evalPoly [(3 : ℚ), 2] 0 • (1 : ℚ))).1
            (encryptMessage (1 : ℚ) (5 : ℚ) (4 : ℚ) (evalPoly [(3 : ℚ), 2] 0 • (1 : ℚ))).2)) 2 3 =
        Except.ok 4 :=
  threshold_decryption_subset_independent (1 : ℚ) (fun i => ((i : ℚ) + 1)) [3, 2] 2 3 _ _ 4 5 rfl
    (by
      refine ⟨?_, ?_, ?_, ?_⟩
      · intro s hs
        simp only [List.mem_cons, List.mem_singleton, List.not_mem_nil, or_false] at hs
        rcases hs with rfl | rfl <;> norm_num [evalPoly]
      · decide
      · intro s hs s' hs'
        simp only [List.mem_cons, List.mem_singleton, List.not_mem_nil, or_false] at hs hs'
        rcases hs with rfl | rfl <;> rcases hs' with rfl | rfl <;> norm_num
      · decide)
    (by
      refine ⟨?_, ?_, ?_, ?_⟩
      · intro s hs
        simp only [List.mem_cons, List.mem_singleton, List.not_mem_nil, or_false] at hs
        rcases hs with rfl | rfl <;> norm_num [evalPoly]
      · decide
      · intro s hs s' hs'
        simp only [List.mem_cons, List.mem_singleton, List.not_mem_nil, or_false] at hs hs'
        rcases hs with rfl | rfl <;> rcases hs' with rfl | rfl <;> norm_num
      · decide)

end ThresholdTheorems

section ShuffleTheorems

open List

variable {F P : Type} [Field F] [AddCommGroup P] [Module F P]

/-- C4: for every secret `a` with public key `h = a*G`, every list of ciphertext pairs,
every permutation `π` of the indices and all fresh scalars `s_i`, the list with `i`-th pair
`(elGamal1[π(i)] + s_i*G, elGamal2[π(i)] + s_i*h)` has the length of the input, `decryptAll`
of it with `a` is the list of the original plaintexts permuted by `π`, and `checkDecryption`
of the original plaintexts against it succeeds (points being told apart by their
`String()`, the key `str`). -/
theorem shuffle_preserves_plaintexts [DecidableEq P] {κ : Type} [LinearOrder κ] (str : P → κ)
    (G : P) (a : F) (elGamal1 elGamal2 : List P) (shufflePi : List Nat) (s : Nat → F)
    (hstr : Function.Injective str) (hlen : elGamal1.length = elGamal2.length)
    (hpi : shufflePi ~ List.range elGamal1.length) :
    (Shuffle G (a • G) elGamal1 elGamal2 shufflePi s).1.length = elGamal1.length ∧
    (Shuffle G (a • G) elGamal1 elGamal2 shufflePi s).2.length = elGamal2.length ∧
    ∃ messages decryptedMessages,
      decryptAll elGamal1 elGamal2 a = some messages ∧
      decryptAll (Shuffle G (a • G) elGamal1 elGamal2 shufflePi s).1
        (Shuffle G (a • G) elGamal1 elGamal2 shufflePi s).2 a = some decryptedMessages ∧
      decryptedMessages = shufflePi.map (fun j => messages.getD j 0) ∧
      checkDecryption str messages decryptedMessages = Except.ok () := by
  have hk : shufflePi.length = elGamal1.length := by simpa using hpi.length_eq
  have hget : ∀ j, ((List.range elGamal1.length).map
      (fun i => decryptMessage (elGamal1.getD i 0) (elGamal2.getD i 0) a)).getD j 0 =
      decryptMessage (elGamal1.getD j 0) (elGamal2.getD j 0) a := by
    intro j
    by_cases hj : j < elGamal1.length
    · simp [List.getD_eq_getElem?_getD, List.getElem?_map, List.getElem?_range hj]
    · have h1 : elGamal1.length ≤ j := Nat.le_of_not_lt hj
      have h2 : elGamal2.length ≤ j := hlen ▸ h1
      rw [List.getD_eq_default _ _ (by simpa using h1), List.getD_eq_default _ _ h1,
        List.getD_eq_default _ _ h2]
      simp [decryptMessage]
  have hdec : (List.range shufflePi.length).map (fun i =>
      decryptMessage (elGamal1.getD (shufflePi.getD i 0) 0 + s i • G)
        (elGamal2.getD (shufflePi.getD i 0) 0 + s i • a • G) a) =
      shufflePi.map (fun j => ((List.range elGamal1.length).map
        (fun i => decryptMessage (elGamal1.getD i 0) (elGamal2.getD i 0) a)).getD j 0) := by
    simp only [hget, decryptMessage_rerandomize]
    apply List.ext_getElem
    · simp
    · intro i h1 h2
      have hi : i < shufflePi.length := by simpa using h2
      simp [List.getElem?_eq_getElem hi]
  have hperm : shufflePi.map (fun j => ((List.range elGamal1.length).map
      (fun i => decryptMessage (elGamal1.getD i 0) (elGamal2.getD i 0) a)).getD j 0) ~
      (List.range elGamal1.length).map
        (fun i => decryptMessage (elGamal1.getD i 0) (elGamal2.getD i 0) a) :=
    map_getD_perm_range _ 0 shufflePi (by simpa using hpi)
  refine ⟨by simp [Shuffle, hk], by simp [Shuffle, hk, hlen], _, _,
    decryptAll_length elGamal1 elGamal2 a hlen, (decryptAll_map _ _ _ a).trans (by rw [hdec]),
    rfl, ?_⟩
  unfold checkDecryption
  rw [if_neg (by simpa using hperm.length_eq.symm), ← sortPoints_congr str hstr hperm]
  exact @checkPairs_self P _ _

/-- Witness for C4 over the rationals (a point is its own `String()` key): secret 2, two
ciphertexts, the permutation that swaps them, fresh scalars 5 and 6. -/
theorem shuffle_preserves_plaintexts_witness :
    (Shuffle (1 : ℚ) ((2 : ℚ) • (1 : ℚ)) [3, 4] [10, 20] [1, 0]
      (fun i => (i : ℚ) + 5)).1.length = [(3 : ℚ), 4].length ∧
    (Shuffle (1 : ℚ) ((2 : ℚ) • (1 : ℚ)) [3, 4] [10, 20] [1, 0]
      (fun i => (i : ℚ) + 5)).2.length = [(10 : ℚ), 20].length ∧
    ∃ messages decryptedMessages,
      decryptAll [(3 : ℚ), 4] [(10 : ℚ), 20] (2 : ℚ) = some messages ∧
      decryptAll (Shuffle (1 : ℚ) ((2 : ℚ) • (1 : ℚ)) [3, 4] [10, 20] [1, 0]
          (fun i => (i : ℚ) + 5)).1
        (Shuffle (1 : ℚ) ((2 : ℚ) • (1 : ℚ)) [3, 4] [10, 20] [1, 0]
          (fun i => (i : ℚ) + 5)).2 (2 : ℚ) = some decryptedMessages ∧
      decryptedMessages = [1, 0].map (fun j => messages.getD j 0) ∧
      checkDecryption (fun x : ℚ => x) messages decryptedMessages = Except.ok () :=
  shuffle_preserves_plaintexts (fun x : ℚ => x) (1 : ℚ) (2 : ℚ) [3, 4] [10, 20] [1, 0]
    (fun i => (i : ℚ) + 5) (fun _ _ h => h) rfl (List.Perm.swap _ _ _)

end ShuffleTheorems

/-! ## The claims: splitting and the chunk round trip -/

section CodecRoundTrip

open List

variable {F P E : Type} [Field F] [AddCommGroup P] [Module F P]

/-- C2, as amended: for every `data` with `len(data) <= 8 * (EmbedLen - 17)`, splitting it
with `encryptLongMessage`, decrypting every chunk and passing the recovered chunks in any
order to `compileMessages` yields exactly one message, which is `data` followed by
`8 * (EmbedLen - 17) - len(data)` zero bytes. -/
theorem chunk_round_trip_padded (G : P) (a : F) (Embed : List Byte → E → P)
    (Data : P → Option (List Byte)) (EmbedLen : Nat) (randomBytes : List Byte)
    (embedRand : Nat → E) (encRand : Nat → F) (data : List Byte)
    (hE : 17 ≤ EmbedLen) (hr : randomBytes.length = 16)
    (hData : ∀ b e, b.length = EmbedLen → Data (Embed b e) = some b)
    (hlen : data.length ≤ 8 * (EmbedLen - 17)) :
    ∃ portions e1 e2 dec,
      encryptLongMessage G Embed EmbedLen randomBytes embedRand encRand data (a • G) =
        some (portions, e1, e2) ∧
      decryptAll e1 e2 a = some dec ∧
      ∀ pts, pts ~ dec →
        compileMessages Data pts =
          some [data ++ List.replicate (8 * (EmbedLen - 17) - data.length) 0] := by
  have h := round_trip_padded_aux G a Embed Data EmbedLen randomBytes embedRand encRand data
    hE hr hData
  rwa [List.take_of_length_le hlen] at h

/-- Witness for C2 as amended: the three bytes 1, 2, 3 under the 29-byte embedding into
sequences of rationals, secret 2 and base point the constant sequence 1. -/
theorem chunk_round_trip_padded_witness :
    ∃ portions e1 e2 dec,
      encryptLongMessage (fun _ => 1 : SeqPoint) seqEmbed 29 (List.replicate 16 7)
          (fun _ => ()) (fun _ => (3 : ℚ)) [1, 2, 3] ((2 : ℚ) • (fun _ => 1 : SeqPoint)) =
        some (portions, e1, e2) ∧
      decryptAll e1 e2 (2 : ℚ) = some dec ∧
      ∀ pts, pts ~ dec →
        compileMessages (seqData 29) pts =
          some [[1, 2, 3] ++ List.replicate (8 * (29 - 17) - [(1 : Byte), 2, 3].length) 0] :=
  chunk_round_trip_padded (fun _ => 1 : SeqPoint) (2 : ℚ) seqEmbed (seqData 29) 29
    (List.replicate 16 7) (fun _ => ()) (fun _ => (3 : ℚ)) [1, 2, 3] (by decide) (by decide)
    (fun b e hb => seqData_seqEmbed 29 b e hb) (by decide)

/-- Counterexample to C2 as stated: the empty message has length `0 <= 8 * (29 - 17)`, and
its round trip under the 29-byte embedding yields one message of 96 zero bytes, not the
empty message. -/
theorem chunk_round_trip_counterexample :
    ([] : List Byte).length ≤ 8 * (29 - 17) ∧
    ∃ portions e1 e2 dec,
      encryptLongMessage (fun _ => 1 : SeqPoint) seqEmbed 29 (List.replicate 16 7)
          (fun _ => ()) (fun _ => (3 : ℚ)) [] ((2 : ℚ) • (fun _ => 1 : SeqPoint)) =
        some (portions, e1, e2) ∧
      decryptAll e1 e2 (2 : ℚ) = some dec ∧
      compileMessages (seqData 29) dec = some [List.replicate 96 0] ∧
      compileMessages (seqData 29) dec ≠ some [[]] := by
  refine ⟨by decide, ?_⟩
  obtain ⟨portions, e1, e2, dec, h1, h2, h3⟩ :=
    round_trip_padded_aux (fun _ => 1 : SeqPoint) (2 : ℚ) seqEmbed (seqData 29) 29
      (List.replicate 16 7) (fun _ => ()) (fun _ => (3 : ℚ)) [] (by decide) (by decide)
      (fun b e hb => seqData_seqEmbed 29 b e hb)
  have h4 := h3 dec (List.Perm.refl _)
  refine ⟨portions, e1, e2, dec, h1, h2, ?_, ?_⟩
  · rw [h4]; rfl
  · rw [h4]; decide

/-- C9: for every `data`, `encryptLongMessage` builds exactly 8 buffers of length
`EmbedLen` (and embeds and encrypts buffer `i` in iteration `i`); every buffer carries the
nonce `randomBytes` in bytes 0..15 and `byte(i)` at offset 16, and with `L = EmbedLen - 17`
the payload of buffer `i` is `data[i*L .. min((i+1)*L, len(data)))` followed by zero bytes
up to length `L` (all zeros when `i*L >= len(data)`). -/
theorem split_shape (G h : P) (Embed : List Byte → E → P) (EmbedLen : Nat)
    (randomBytes : List Byte) (embedRand : Nat → E) (encRand : Nat → F) (data : List Byte)
    (hE : 17 ≤ EmbedLen) (hr : randomBytes.length = 16) :
    ∃ bufs, messageBuffers EmbedLen randomBytes data = some bufs ∧
      encryptLongMessage G Embed EmbedLen randomBytes embedRand encRand data h =
        some ((List.range 8).map (fun i => Embed (bufs.getD i []) (embedRand i)),
              (List.range 8).map (fun i => encRand i • G),
              (List.range 8).map (fun i =>
                encRand i • h + Embed (bufs.getD i []) (embedRand i))) ∧
      bufs.length = 8 ∧
      ∀ i, i < 8 →
        (bufs.getD i []).length = EmbedLen ∧
        (bufs.getD i []).take 16 = randomBytes ∧
        (bufs.getD i []).getD 16 0 = byteOfInt i ∧
        (bufs.getD i []).drop 17 =
          (data.take (min ((i + 1) * (EmbedLen - 17)) data.length)).drop (i * (EmbedLen - 17)) ++
            List.replicate (EmbedLen - 17 -
              ((data.take (min ((i + 1) * (EmbedLen - 17)) data.length)).drop
                (i * (EmbedLen - 17))).length) 0 ∧
        (data.length ≤ i * (EmbedLen - 17) →
          (bufs.getD i []).drop 17 = List.replicate (EmbedLen - 17) 0) := by
  have hE' : randomnessLength + 1 ≤ EmbedLen := hE
  have hr' : randomBytes.length = randomnessLength := hr
  have hL : EmbedLen - randomnessLength - 1 = EmbedLen - 17 := by
    simp only [randomnessLength]; omega
  refine ⟨_, messageBuffers_eq EmbedLen randomBytes data hE' hr',
    encryptLongMessage_eq G Embed EmbedLen randomBytes embedRand encRand data h hE' hr',
    by simp [splitChunks, messagePartitions], ?_⟩
  intro i hi
  have hget : (splitChunks (EmbedLen - randomnessLength - 1) randomBytes data
      messagePartitions).getD i [] =
      chunkOf (EmbedLen - 17) randomBytes i
        ((data.drop (i * (EmbedLen - 17))).take (EmbedLen - 17)) := by
    have hi' : i < messagePartitions := hi
    simp [splitChunks, List.getD_eq_getElem?_getD, List.getElem?_map, List.getElem?_range hi', hL]
  have hslice : (data.take (min ((i + 1) * (EmbedLen - 17)) data.length)).drop
      (i * (EmbedLen - 17)) = (data.drop (i * (EmbedLen - 17))).take (EmbedLen - 17) := by
    rw [List.drop_take]
    have hb : (i + 1) * (EmbedLen - 17) = i * (EmbedLen - 17) + (EmbedLen - 17) := Nat.succ_mul _ _
    by_cases hc : (i + 1) * (EmbedLen - 17) ≤ data.length
    · rw [Nat.min_eq_left hc, hb, Nat.add_sub_cancel_left]
    · rw [Nat.min_eq_right (by omega),
        List.take_of_length_le (by rw [List.length_drop]),
        List.take_of_length_le (by rw [List.length_drop]; omega)]
  rw [hget, hslice]
  have hnon := nonceOf_chunkOf (EmbedLen - 17) randomBytes i
    ((data.drop (i * (EmbedLen - 17))).take (EmbedLen - 17)) hr'
  have hidx := indexOf_chunkOf (EmbedLen - 17) randomBytes i
    ((data.drop (i * (EmbedLen - 17))).take (EmbedLen - 17)) hr'
  have hpay := payloadOf_chunkOf (EmbedLen - 17) randomBytes i
    ((data.drop (i * (EmbedLen - 17))).take (EmbedLen - 17)) hr'
  refine ⟨?_, hnon, hidx, hpay, ?_⟩
  · rw [length_chunkOf _ _ _ _ hr' (by simp)]
    simp only [randomnessLength]; omega
  · intro hd
    have hpay' : List.drop 17 (chunkOf (EmbedLen - 17) randomBytes i
        ((data.drop (i * (EmbedLen - 17))).take (EmbedLen - 17))) = _ := hpay
    rw [hpay', List.drop_of_length_le hd]
    simp [zeroPad]

/-- Witness for C9: the three bytes 1, 2, 3 with embedding length 29 and nonce sixteen 7s,
over sequences of rationals. -/
theorem split_shape_witness :
    ∃ bufs, messageBuffers 29 (List.replicate 16 7) [1, 2, 3] = some bufs ∧
      encryptLongMessage (fun _ => 1 : SeqPoint) seqEmbed 29 (List.replicate 16 7)
          (fun _ => ()) (fun _ => (3 : ℚ)) [1, 2, 3] (fun _ => 2 : SeqPoint) =
        some ((List.range 8).map (fun i => seqEmbed (bufs.getD i []) ()),
              (List.range 8).map (fun _ => (3 : ℚ) • (fun _ => 1 : SeqPoint)),
              (List.range 8).map (fun i =>
                (3 : ℚ) • (fun _ => 2 : SeqPoint) + seqEmbed (bufs.getD i []) ())) ∧
      bufs.length = 8 ∧
      ∀ i, i < 8 →
        (bufs.getD i []).length = 29 ∧
        (bufs.getD i []).take 16 = List.replicate 16 7 ∧
        (bufs.getD i []).getD 16 0 = byteOfInt i ∧
        (bufs.getD i []).drop 17 =
          (([1, 2, 3] : List Byte).take (min ((i + 1) * (29 - 17)) [(1 : Byte), 2, 3].length)).drop
              (i * (29 - 17)) ++
            List.replicate (29 - 17 -
              ((([1, 2, 3] : List Byte).take
                (min ((i + 1) * (29 - 17)) [(1 : Byte), 2, 3].length)).drop
                (i * (29 - 17))).length) 0 ∧
        ([(1 : Byte), 2, 3].length ≤ i * (29 - 17) →
          (bufs.getD i []).drop 17 = List.replicate (29 - 17) 0) :=
  split_shape (fun _ => 1 : SeqPoint) (fun _ => 2 : SeqPoint) seqEmbed 29 (List.replicate 16 7)
    (fun _ => ()) (fun _ => (3 : ℚ)) [1, 2, 3] (by decide) (by decide)

end CodecRoundTrip

/-! ## The claims: reassembly -/

section CompileTheorems

open List

variable {P : Type}

/-- C6: when every chunk has at least 17 bytes, adding one more byte-identical copy of a
chunk that is already in the list, at any position, does not change the result of
`compileMessages`; in particular two identical chunks with nonce `N` and index 0 together
with one chunk with nonce `N` and index 1 give, in any order, the single message made of
the index-0 payload followed by the index-1 payload. -/
theorem duplicate_chunk_tolerance (Data : P → Option (List Byte)) (pts₁ pts₂ : List P) (p : P)
    (hlen : ∀ q ∈ pts₁ ++ pts₂, ∃ d, Data q = some d ∧ 17 ≤ d.length)
    (hdup : ∃ q ∈ pts₁ ++ pts₂, Data p = Data q) :
    (∃ msgs, compileMessages Data (pts₁ ++ pts₂) = some msgs ∧
      compileMessages Data (pts₁ ++ p :: pts₂) = some msgs) ∧
    ∀ (N p0 p1 : List Byte) (pts : List P), N.length = 16 →
      pts.map Data ~ [some (N ++ 0 :: p0), some (N ++ 0 :: p0), some (N ++ 1 :: p1)] →
      compileMessages Data pts = some [p0 ++ p1] := by
  refine ⟨?_, ?_⟩
  · obtain ⟨h1, h2⟩ := data_of_forall Data (pts₁ ++ pts₂) hlen
    obtain ⟨msgs, hmsgs⟩ := compileChunks_total _ h2
    obtain ⟨q, hq, hpq⟩ := hdup
    obtain ⟨d, hd, _⟩ := hlen q hq
    refine ⟨msgs, ?_, ?_⟩
    · rw [compileMessages_of_data Data _ _ h1, hmsgs]
    · have h3 : (pts₁ ++ p :: pts₂).map Data =
          (pts₁.map (fun x => (Data x).getD []) ++ d :: pts₂.map (fun x => (Data x).getD [])).map
            some := by
        have h1' := h1
        simp only [List.map_append, List.map_map] at h1' ⊢
        obtain ⟨ha, hb⟩ := List.append_inj h1' (by simp)
        rw [ha]
        simp only [List.map_cons, List.map_map, hb, hpq, hd]
      rw [compileMessages_of_data Data _ _ h3, compileChunks_duplicate, ← List.map_append, hmsgs]
      rw [← List.map_append]
      refine List.mem_map.2 ⟨q, hq, by simp [hd]⟩
  · intro N p0 p1 pts hN hperm
    rw [compileMessages_of_perm_data Data pts [N ++ 0 :: p0, N ++ 0 :: p0, N ++ 1 :: p1]
      (by simpa using hperm)]
    have h := compileChunks_duplicate [N ++ 0 :: p0] [N ++ 1 :: p1] (N ++ 0 :: p0) (by simp)
    simp only [List.singleton_append] at h
    rw [h]
    exact compileChunks_pair N p0 p1 hN

/-- Witness for C6: chunks are their own data; nonce sixteen 7s, an index-0 chunk with
payload 5, an index-1 chunk with payload 6, and a second copy of the index-0 chunk put
between them. -/
theorem duplicate_chunk_tolerance_witness :
    (∃ msgs, compileMessages (fun c : List Byte => some c)
        ([List.replicate 16 7 ++ [0, 5]] ++ [List.replicate 16 7 ++ [1, 6]]) = some msgs ∧
      compileMessages (fun c : List Byte => some c)
        ([List.replicate 16 7 ++ [0, 5]] ++
          (List.replicate 16 7 ++ [0, 5]) :: [List.replicate 16 7 ++ [1, 6]]) = some msgs) ∧
    ∀ (N p0 p1 : List Byte) (pts : List (List Byte)), N.length = 16 →
      pts.map (fun c : List Byte => some c) ~
        [some (N ++ 0 :: p0), some (N ++ 0 :: p0), some (N ++ 1 :: p1)] →
      compileMessages (fun c : List Byte => some c) pts = some [p0 ++ p1] :=
  duplicate_chunk_tolerance (fun c : List Byte => some c)
    [List.replicate 16 7 ++ [0, 5]] [List.replicate 16 7 ++ [1, 6]]
    (List.replicate 16 7 ++ [0, 5])
    (by
      intro q hq
      refine ⟨q, rfl, ?_⟩
      simp only [List.singleton_append, List.mem_cons, List.mem_singleton, List.not_mem_nil,
        or_false] at hq
      rcases hq with rfl | rfl <;> decide)
    ⟨List.replicate 16 7 ++ [0, 5], by simp, rfl⟩

/-- C7: for every list of chunks, each at least 17 bytes long, in which no two chunks share
both the 16-byte nonce and the index byte, `compileMessages` returns exactly one message per
distinct nonce of the list, in increasing lexicographic order of the nonces, and each
message is the concatenation of the payloads of the chunks with that nonce taken in
increasing order of the index byte. -/
theorem mixed_batch_reassembly (Data : P → Option (List Byte)) (pts : List P)
    (chunks : List (List Byte)) (hdata : pts.map Data = chunks.map some)
    (hlen : ∀ c ∈ chunks, 17 ≤ c.length)
    (hkey : chunks.Pairwise (fun a b => ¬ (nonceOf a = nonceOf b ∧ indexOf a = indexOf b))) :
    ∃ nonces : List (List Byte),
      nonces.Pairwise (fun M N => List.Lex (fun x y : Byte => x < y) M N) ∧
      (∀ N, N ∈ nonces ↔ ∃ c ∈ chunks, nonceOf c = N) ∧
      compileMessages Data pts = some (nonces.map (messageOfNonce chunks)) := by
  rw [compileMessages_of_data Data pts chunks hdata]
  exact compileChunks_mixed chunks hlen hkey

/-- Witness for C7: chunks are their own data; two chunks of the nonce of sixteen 7s, given
with index 1 before index 0, and one chunk of the nonce of sixteen 3s between them. -/
theorem mixed_batch_reassembly_witness :
    ∃ nonces : List (List Byte),
      nonces.Pairwise (fun M N => List.Lex (fun x y : Byte => x < y) M N) ∧
      (∀ N, N ∈ nonces ↔
        ∃ c ∈ [List.replicate 16 7 ++ [1, 6], List.replicate 16 3 ++ [0, 9],
                List.replicate 16 7 ++ [0, 5]], nonceOf c = N) ∧
      compileMessages (fun c : List Byte => some c)
          [List.replicate 16 7 ++ [1, 6], List.replicate 16 3 ++ [0, 9],
            List.replicate 16 7 ++ [0, 5]] =
        some (nonces.map (messageOfNonce
          [List.replicate 16 7 ++ [1, 6], List.replicate 16 3 ++ [0, 9],
            List.replicate 16 7 ++ [0, 5]])) :=
  mixed_batch_reassembly (fun c : List Byte => some c)
    [List.replicate 16 7 ++ [1, 6], List.replicate 16 3 ++ [0, 9], List.replicate 16 7 ++ [0, 5]]
    [List.replicate 16 7 ++ [1, 6], List.replicate 16 3 ++ [0, 9], List.replicate 16 7 ++ [0, 5]]
    rfl (by decide) (by decide)

/-- C8: for two lists of chunks, each chunk at least 17 bytes long, that are permutations
of one another, `compileMessages` returns the same list of messages in the same order. -/
theorem compile_order_independent (Data : P → Option (List Byte)) (pts₁ pts₂ : List P)
    (hperm : pts₁ ~ pts₂)
    (hlen : ∀ q ∈ pts₁, ∃ d, Data q = some d ∧ 17 ≤ d.length) :
    ∃ msgs, compileMessages Data pts₁ = some msgs ∧ compileMessages Data pts₂ = some msgs := by
  obtain ⟨h1, h2⟩ := data_of_forall Data pts₁ hlen
  obtain ⟨msgs, hmsgs⟩ := compileChunks_total _ h2
  refine ⟨msgs, ?_, ?_⟩
  · rw [compileMessages_of_data Data _ _ h1, hmsgs]
  · rw [compileMessages_perm Data pts₂ pts₁ _ hperm.symm h1, hmsgs]

/-- Witness for C8: two chunks of two different nonces, in both orders. -/
theorem compile_order_independent_witness :
    ∃ msgs,
      compileMessages (fun c : List Byte => some c)
        [List.replicate 16 7 ++ [0, 5], List.replicate 16 3 ++ [0, 6]] = some msgs ∧
      compileMessages (fun c : List Byte => some c)
        [List.replicate 16 3 ++ [0, 6], List.replicate 16 7 ++ [0, 5]] = some msgs :=
  compile_order_independent (fun c : List Byte => some c)
    [List.replicate 16 7 ++ [0, 5], List.replicate 16 3 ++ [0, 6]]
    [List.replicate 16 3 ++ [0, 6], List.replicate 16 7 ++ [0, 5]]
    (List.Perm.swap _ _ _)
    (by
      intro q hq
      refine ⟨q, rfl, ?_⟩
      simp only [List.mem_cons, List.mem_singleton, List.not_mem_nil, or_false] at hq
      rcases hq with rfl | rfl <;> decide)

end CompileTheorems

/-! ## The claims: key generation and missing shares -/

section DkgTheorems

variable {F P : Type} [Field F] [AddCommGroup P] [Module F P]

/-- C5: for `(n, t)` with `1 ≤ t ≤ n` and pairwise distinct identity keys, whenever
`createThresholdShares(n, t)` completes, every `DistKeyShare` of the returned list carries
the same public key, the aggregate of all `n` dealers' constant-term commitments, so that
`shares[0].Public()` is the public key of any other share; and for `2 ≤ t` the call does
complete, with one share per participant. -/
theorem create_shares_same_public_key [DecidableEq P] (G : P) (xOf : Nat → F)
    (keys : Nat → F) (coeffs : Nat → Nat → F) (n t : Nat)
    (hkeys : ((List.range n).map (fun i => keys i • G)).Nodup) (ht : 1 ≤ t) (htn : t ≤ n) :
    (∀ shares, createThresholdShares G xOf keys coeffs n t = Except.ok shares →
      (∀ s ∈ shares, s.Public = some ((List.range n).map (fun j => coeffs j 0 • G)).sum) ∧
      (∀ s0, shares.head? = some s0 → ∀ s ∈ shares, s.Public = s0.Public)) ∧
    (2 ≤ t → ∃ shares, createThresholdShares G xOf keys coeffs n t = Except.ok shares ∧
      shares.length = n) := by
  have hpub : ∀ shares, createThresholdShares G xOf keys coeffs n t = Except.ok shares →
      ∀ s ∈ shares, s.Public = some ((List.range n).map (fun j => coeffs j 0 • G)).sum := by
    intro shares hok s hs
    by_cases h2 : 2 ≤ t
    · rw [createThresholdShares_valid G xOf keys coeffs n t ((validT_iff t n).2 ⟨h2, htn⟩)
        hkeys] at hok
      cases hok
      obtain ⟨k, _, rfl⟩ := List.mem_map.1 hs
      exact jointShare_public G xOf coeffs n t k ht
    · rw [createThresholdShares_invalid G xOf keys coeffs n t (by omega)
        ((validT_false_iff t n).2 (Or.inl (by omega)))] at hok
      cases hok
  refine ⟨fun shares hok => ⟨hpub shares hok, ?_⟩, ?_⟩
  · intro s0 hs0 s hs
    rw [hpub shares hok s hs, hpub shares hok s0 (List.mem_of_mem_head? hs0)]
  · intro h2
    exact ⟨_, createThresholdShares_valid G xOf keys coeffs n t
      ((validT_iff t n).2 ⟨h2, htn⟩) hkeys, by simp⟩

/-- Witness for C5 over the rationals: three participants with threshold 2, identity keys
7, 8, 9 and the secret polynomials `1 + 2x`, `3 + 4x`, `5 + 6x`. -/
theorem create_shares_same_public_key_witness :
    ((List.range 3).map (fun i => ((i : ℚ) + 7) • (1 : ℚ))).Nodup ∧ 1 ≤ 2 ∧ 2 ≤ 3 ∧
    (∀ shares, createThresholdShares (1 : ℚ) (fun i => (i : ℚ) + 1) (fun i => (i : ℚ) + 7)
        (fun i c => 2 * (i : ℚ) + (c : ℚ) + 1) 3 2 = Except.ok shares →
      (∀ s ∈ shares, s.Public =
        some ((List.range 3).map (fun j => (2 * (j : ℚ) + ((0 : Nat) : ℚ) + 1) • (1 : ℚ))).sum) ∧
      (∀ s0, shares.head? = some s0 → ∀ s ∈ shares, s.Public = s0.Public)) ∧
    (2 ≤ 2 → ∃ shares, createThresholdShares (1 : ℚ) (fun i => (i : ℚ) + 1)
        (fun i => (i : ℚ) + 7) (fun i c => 2 * (i : ℚ) + (c : ℚ) + 1) 3 2 = Except.ok shares ∧
      shares.length = 3) :=
  have hkeys : ((List.range 3).map (fun i => ((i : ℚ) + 7) • (1 : ℚ))).Nodup := by
    simp only [List.range_succ, List.range_zero, List.nil_append, List.cons_append,
      List.map_cons, List.map_nil]
    norm_num
  ⟨hkeys, by decide, by decide,
    create_shares_same_public_key (1 : ℚ) (fun i => (i : ℚ) + 1) (fun i => (i : ℚ) + 7)
      (fun i c => 2 * (i : ℚ) + (c : ℚ) + 1) 3 2 hkeys (by decide) (by decide)⟩

/-- C10: for every ciphertext, every threshold `t` and every list of fewer than `t`
shadows, `decryptMessageSecretless` returns no message point: it fails with the
insufficient-shares error of the commitment recovery. -/
theorem decrypt_insufficient_shares (xOf : Nat → F) (elGamal1 elGamal2 : P)
    (shadows : List (PubShare P)) (t n : Nat) (h : shadows.length < t) :
    decryptMessageSecretless xOf elGamal1 elGamal2 shadows t n =
      Except.error ShareError.InsufficientShares := by
  simp [decryptMessageSecretless, RecoverCommit, h]

/-- Witness for C10 over the rationals: one shadow where the threshold is 2. -/
theorem decrypt_insufficient_shares_witness :
    decryptMessageSecretless (fun i => (i : ℚ) + 1) (5 : ℚ) (19 : ℚ)
      [({ I := 0, V := 25 } : PubShare ℚ)] 2 3 = Except.error ShareError.InsufficientShares :=
  decrypt_insufficient_shares (fun i => (i : ℚ) + 1) (5 : ℚ) (19 : ℚ)
    [({ I := 0, V := 25 } : PubShare ℚ)] 2 3 (by decide)

/-- C11 as amended: `createThresholdShares(n, t)` has no failure of its own (identity keys
pairwise distinct). With `n = 0` it returns the empty list for every `t`. With `n ≥ 1` and a
threshold the library refuses (`t < 2` or `n < t`) it panics in `generate` with the
library's error. With `2 ≤ t ≤ n` every key generator is certified and it returns the shares
of all `n` participants. So with `n ≥ 1` it never returns a list of fewer than `t` shares. -/
theorem create_shares_outcomes [DecidableEq P] (G : P) (xOf : Nat → F) (keys : Nat → F)
    (coeffs : Nat → Nat → F) (n t : Nat)
    (hkeys : ((List.range n).map (fun i => keys i • G)).Nodup) :
    (n = 0 → createThresholdShares G xOf keys coeffs n t = Except.ok []) ∧
    (1 ≤ n → t < 2 ∨ n < t →
      createThresholdShares G xOf keys coeffs n t = Except.error DkgPanic.InvalidThreshold) ∧
    (2 ≤ t → t ≤ n →
      createThresholdShares G xOf keys coeffs n t =
        Except.ok ((List.range n).map (jointShare G xOf coeffs n t))) ∧
    (1 ≤ n → ∀ shares, createThresholdShares G xOf keys coeffs n t = Except.ok shares →
      shares.length = n ∧ t ≤ shares.length) := by
  refine ⟨?_, ?_, ?_, ?_⟩
  · rintro rfl
    exact createThresholdShares_zero G xOf keys coeffs t
  · intro hn hbad
    exact createThresholdShares_invalid G xOf keys coeffs n t hn ((validT_false_iff t n).2 hbad)
  · intro h2 htn
    exact createThresholdShares_valid G xOf keys coeffs n t ((validT_iff t n).2 ⟨h2, htn⟩) hkeys
  · intro hn shares hok
    by_cases hv : 2 ≤ t ∧ t ≤ n
    · rw [createThresholdShares_valid G xOf keys coeffs n t ((validT_iff t n).2 hv) hkeys]
        at hok
      cases hok
      simp [hv.2]
    · rw [createThresholdShares_invalid G xOf keys coeffs n t hn
        ((validT_false_iff t n).2 (by omega))] at hok
      cases hok

/-- Witness for the amended C11 over the rationals: three participants with threshold 2,
identity keys 7, 8, 9 and the secret polynomials `1 + 2x`, `3 + 4x`, `5 + 6x`; all three
shares are returned. -/
theorem create_shares_outcomes_witness :
    ((List.range 3).map (fun i => ((i : ℚ) + 7) • (1 : ℚ))).Nodup ∧
    createThresholdShares (1 : ℚ) (fun i => (i : ℚ) + 1) (fun i => (i : ℚ) + 7)
        (fun i c => 2 * (i : ℚ) + (c : ℚ) + 1) 3 2 =
      Except.ok ((List.range 3).map (jointShare (1 : ℚ) (fun i => (i : ℚ) + 1)
        (fun i c => 2 * (i : ℚ) + (c : ℚ) + 1) 3 2)) :=
  have hkeys : ((List.range 3).map (fun i => ((i : ℚ) + 7) • (1 : ℚ))).Nodup := by
    simp only [List.range_succ, List.range_zero, List.nil_append, List.cons_append,
      List.map_cons, List.map_nil]
    norm_num
  ⟨hkeys, (create_shares_outcomes (1 : ℚ) (fun i => (i : ℚ) + 1) (fun i => (i : ℚ) + 7)
    (fun i c => 2 * (i : ℚ) + (c : ℚ) + 1) 3 2 hkeys).2.2.1 (by decide) (by decide)⟩

/-- Counterexample to C11: with no contributor and threshold 1, fewer than 1 key generators
are certified, yet `createThresholdShares(0, 1)` does not fail: it returns the empty list, a
list of fewer than 1 shares. -/
theorem create_shares_empty_counterexample :
    createThresholdShares (1 : ℚ) (fun i => (i : ℚ) + 1) (fun i => (i : ℚ) + 7)
        (fun i c => 2 * (i : ℚ) + (c : ℚ) + 1) 0 1 = Except.ok [] ∧
    ∀ shares, createThresholdShares (1 : ℚ) (fun i => (i : ℚ) + 1) (fun i => (i : ℚ) + 7)
        (fun i c => 2 * (i : ℚ) + (c : ℚ) + 1) 0 1 = Except.ok shares → shares.length < 1 := by
  have h := createThresholdShares_zero (1 : ℚ) (fun i => (i : ℚ) + 1) (fun i => (i : ℚ) + 7)
    (fun i c => 2 * (i : ℚ) + (c : ℚ) + 1) 1
  refine ⟨h, ?_⟩
  intro shares hok
  rw [h] at hok
  cases hok
  decide

end DkgTheorems

/-! ## The claims: shadows, the order of chunks, exact reassembly and totality -/

section ShadowTheorems

variable {F P : Type} [Field F] [AddCommGroup P] [Module F P]

/-- C13: for every ciphertext `(elGamal1, elGamal2)` and every key share with private share
value `x` and index `i`, `extractShadow` returns the shadow with index `i` and value
`x*elGamal1`, whatever `elGamal2` is. -/
theorem extract_shadow_value (elGamal1 elGamal2 other : P) (distShare : DistKeyShare F P) :
    extractShadow elGamal1 elGamal2 distShare =
      { I := distShare.Share.I, V := distShare.Share.V • elGamal1 } ∧
    extractShadow elGamal1 other distShare = extractShadow elGamal1 elGamal2 distShare :=
  ⟨rfl, rfl⟩

end ShadowTheorems

section OrderTheorems

open List

/-- C15: `SortableBytesList.Less` is the strict lexicographic order on byte strings: `x` is
before `y` exactly when `x` is a proper prefix of `y` or the byte of `x` is smaller at the
first position where they differ; it is irreflexive and transitive, and exactly one of
`x < y`, `y < x`, `x = y` holds. Among chunks of at least 17 bytes a chunk with a smaller
nonce precedes, and with equal nonces the chunk with the smaller index byte precedes. -/
theorem less_is_strict_lexicographic :
    (∀ x y : List Byte, SortableBytesList.Less x y = true ↔
      (∃ t, t ≠ [] ∧ y = x ++ t) ∨
      (∃ p a b s t, x = p ++ a :: s ∧ y = p ++ b :: t ∧ a < b)) ∧
    (∀ x : List Byte, SortableBytesList.Less x x = false) ∧
    (∀ x y z : List Byte, SortableBytesList.Less x y = true →
      SortableBytesList.Less y z = true → SortableBytesList.Less x z = true) ∧
    (∀ x y : List Byte,
      (SortableBytesList.Less x y = true ∧ SortableBytesList.Less y x = false ∧ x ≠ y) ∨
      (SortableBytesList.Less x y = false ∧ SortableBytesList.Less y x = true ∧ x ≠ y) ∨
      (SortableBytesList.Less x y = false ∧ SortableBytesList.Less y x = false ∧ x = y)) ∧
    (∀ a b : List Byte, 17 ≤ a.length → 17 ≤ b.length →
      SortableBytesList.Less (nonceOf a) (nonceOf b) = true →
      SortableBytesList.Less a b = true) ∧
    (∀ a b : List Byte, 17 ≤ a.length → 17 ≤ b.length → nonceOf a = nonceOf b →
      indexOf a < indexOf b → SortableBytesList.Less a b = true) := by
  have hirr : ∀ x : List Byte, SortableBytesList.Less x x = false := by
    intro x
    rw [← Bool.not_eq_true, Less_iff_lexLt]
    exact lexLt_irrefl x
  have hasymm : ∀ x y : List Byte, SortableBytesList.Less x y = true →
      SortableBytesList.Less y x = false := by
    intro x y h
    rw [← Bool.not_eq_true, Less_iff_lexLt]
    intro h'
    exact lexLt_irrefl x (lexLt_trans ((Less_iff_lexLt x y).1 h) h')
  refine ⟨?_, hirr, ?_, ?_, ?_, ?_⟩
  · intro x y
    rw [Less_iff_lexLt]
    exact lexLt_iff_first_difference x y
  · intro x y z h1 h2
    rw [Less_iff_lexLt] at *
    exact lexLt_trans h1 h2
  · intro x y
    by_cases hxy : SortableBytesList.Less x y = true
    · refine Or.inl ⟨hxy, hasymm x y hxy, ?_⟩
      intro e
      rw [e, hirr] at hxy
      exact absurd hxy (by decide)
    · have hxy' : SortableBytesList.Less x y = false := by simpa using hxy
      by_cases hyx : SortableBytesList.Less y x = true
      · refine Or.inr (Or.inl ⟨hxy', hyx, ?_⟩)
        intro e
        rw [e, hirr] at hyx
        exact absurd hyx (by decide)
      · have hyx' : SortableBytesList.Less y x = false := by simpa using hyx
        refine Or.inr (Or.inr ⟨hxy', hyx', ?_⟩)
        by_contra hne
        have := lexLt_of_not (x := x) (y := y) (by rwa [← Less_iff_lexLt]) hne
        exact hxy ((Less_iff_lexLt x y).2 this)
  · intro a b ha hb h
    rw [Less_iff_lexLt] at *
    exact lexLt_of_nonce_lt ha hb h
  · intro a b ha hb hn hi
    rw [Less_iff_lexLt]
    exact lexLt_of_index_lt ha hb hn hi

end OrderTheorems

section TotalityTheorems

open List

variable {P : Type}

/-- C17: with `L = EmbedLen - 17`, for every `data` of any length, `compileMessages` applied
in any order to the 8 chunk buffers that `encryptLongMessage` builds for `data` returns
exactly one message, of length exactly `8*L`: the first `min(len(data), 8*L)` bytes of
`data` followed by zero bytes; the bytes of `data` beyond `8*L` are dropped. -/
theorem split_reassemble_exact (Data : P → Option (List Byte)) (EmbedLen : Nat)
    (randomBytes data : List Byte) (hE : 17 ≤ EmbedLen) (hr : randomBytes.length = 16) :
    ∃ bufs, messageBuffers EmbedLen randomBytes data = some bufs ∧
      ∀ pts : List P, pts.map Data ~ bufs.map some →
        ∃ msg, compileMessages Data pts = some [msg] ∧
          msg.length = 8 * (EmbedLen - 17) ∧
          msg = data.take (min data.length (8 * (EmbedLen - 17))) ++
            List.replicate (8 * (EmbedLen - 17) - min data.length (8 * (EmbedLen - 17))) 0 := by
  have hE' : randomnessLength + 1 ≤ EmbedLen := hE
  have hr' : randomBytes.length = randomnessLength := hr
  have hL : EmbedLen - randomnessLength - 1 = EmbedLen - 17 := by
    simp only [randomnessLength]; omega
  refine ⟨_, messageBuffers_eq EmbedLen randomBytes data hE' hr', ?_⟩
  intro pts hp
  have hc := compileChunks_split (EmbedLen - randomnessLength - 1) randomBytes data 7
    (by omega) hr'
  rw [hL] at hc hp
  have h8 : (7 + 1) * (EmbedLen - 17) = 8 * (EmbedLen - 17) := rfl
  rw [h8] at hc
  refine ⟨data.take (8 * (EmbedLen - 17)) ++
    List.replicate (8 * (EmbedLen - 17) - data.length) 0, ?_, ?_, ?_⟩
  · rw [compileMessages_of_perm_data Data pts _ hp]
    exact hc
  · simp only [List.length_append, List.length_take, List.length_replicate]
    omega
  · by_cases hlen : data.length ≤ 8 * (EmbedLen - 17)
    · rw [Nat.min_eq_left hlen, List.take_of_length_le hlen, List.take_of_length_le (le_refl _)]
    · have h1 : 8 * (EmbedLen - 17) ≤ data.length := by omega
      rw [Nat.min_eq_right h1, Nat.sub_eq_zero_of_le h1, Nat.sub_self]

/-- Witness for C17: 100 bytes of value 9 do not fit the 96 payload bytes of the 29-byte
embedding; chunks are their own data. -/
theorem split_reassemble_exact_witness :
    ∃ bufs, messageBuffers 29 (List.replicate 16 7) (List.replicate 100 9) = some bufs ∧
      ∀ pts : List (List Byte), pts.map (fun c : List Byte => some c) ~ bufs.map some →
        ∃ msg, compileMessages (fun c : List Byte => some c) pts = some [msg] ∧
          msg.length = 8 * (29 - 17) ∧
          msg = (List.replicate 100 (9 : Byte)).take
              (min (List.replicate 100 (9 : Byte)).length (8 * (29 - 17))) ++
            List.replicate
              (8 * (29 - 17) - min (List.replicate 100 (9 : Byte)).length (8 * (29 - 17))) 0 :=
  split_reassemble_exact (fun c : List Byte => some c) 29 (List.replicate 16 7)
    (List.replicate 100 9) (by decide) (by decide)

/-- C18: when the data of every decrypted chunk has at least 17 bytes, `compileMessages`
returns a list of messages (so the last element of `completeMessages` is only read when
there is one); when the data of some chunk has fewer than 17 bytes, it fails with an
out-of-range access and returns nothing. -/
theorem compile_total_iff_long (Data : P → Option (List Byte)) (pts : List P)
    (chunks : List (List Byte)) (hdata : pts.map Data = chunks.map some) :
    ((∀ c ∈ chunks, 17 ≤ c.length) → ∃ msgs, compileMessages Data pts = some msgs) ∧
    ((∃ c ∈ chunks, c.length < 17) → compileMessages Data pts = none) := by
  rw [compileMessages_of_data Data pts chunks hdata]
  exact ⟨fun h => compileChunks_total chunks h, fun h => compileChunks_short chunks h⟩

/-- Witness for C18: chunks are their own data; one chunk of 18 bytes and one of 16. -/
theorem compile_total_iff_long_witness :
    ((∀ c ∈ [List.replicate 16 7 ++ [0, 5], List.replicate 16 (3 : Byte)], 17 ≤ c.length) →
      ∃ msgs, compileMessages (fun c : List Byte => some c)
        [List.replicate 16 7 ++ [0, 5], List.replicate 16 3] = some msgs) ∧
    ((∃ c ∈ [List.replicate 16 7 ++ [0, 5], List.replicate 16 (3 : Byte)], c.length < 17) →
      compileMessages (fun c : List Byte => some c)
        [List.replicate 16 7 ++ [0, 5], List.replicate 16 3] = none) :=
  compile_total_iff_long (fun c : List Byte => some c)
    [List.replicate 16 7 ++ [0, 5], List.replicate 16 3]
    [List.replicate 16 7 ++ [0, 5], List.replicate 16 3] rfl

end TotalityTheorems

/-! ## The claims: conflicting chunks -/

section ConflictTheorems

open List

variable {P : Type}

/-- C12: for every list of chunks, each at least 17 bytes long, let `kept` be the chunks
that are the first with their nonce and index byte in the sorted sequence. `kept` holds
exactly one chunk for every nonce and index byte of the list, none of the other chunks
with that nonce and index byte is before it, and the messages `compileMessages` returns are
made of the payloads of the chunks of `kept` alone: the later chunks with the same nonce and
index byte are ignored. -/
theorem conflicting_chunks_keep_first (Data : P → Option (List Byte)) (pts : List P)
    (chunks : List (List Byte)) (hdata : pts.map Data = chunks.map some)
    (hlen : ∀ c ∈ chunks, 17 ≤ c.length) :
    (keepFirst (sortChunks chunks)).Sublist (sortChunks chunks) ∧
    (keepFirst (sortChunks chunks)).Pairwise
      (fun a b => ¬ (nonceOf a = nonceOf b ∧ indexOf a = indexOf b)) ∧
    (∀ c ∈ chunks, ∃ k ∈ keepFirst (sortChunks chunks),
      (nonceOf k = nonceOf c ∧ indexOf k = indexOf c) ∧ SortableBytesList.Less c k = false) ∧
    ∃ nonces : List (List Byte),
      nonces.Pairwise (fun M N => List.Lex (fun x y : Byte => x < y) M N) ∧
      (∀ N, N ∈ nonces ↔ ∃ c ∈ chunks, nonceOf c = N) ∧
      compileMessages Data pts =
        some (nonces.map (messageOfNonce (keepFirst (sortChunks chunks)))) := by
  rw [compileMessages_of_data Data pts chunks hdata]
  exact compileChunks_keepFirst chunks hlen

/-- Witness for C12: chunks are their own data; under the nonce of sixteen 7s two chunks of
index 0 with the payloads 5 and 4, and one chunk of index 1 with payload 6. -/
theorem conflicting_chunks_keep_first_witness :
    (keepFirst (sortChunks [List.replicate 16 7 ++ [0, 5], List.replicate 16 7 ++ [0, 4],
        List.replicate 16 7 ++ [1, 6]])).Sublist
      (sortChunks [List.replicate 16 7 ++ [0, 5], List.replicate 16 7 ++ [0, 4],
        List.replicate 16 7 ++ [1, 6]]) ∧
    (keepFirst (sortChunks [List.replicate 16 7 ++ [0, 5], List.replicate 16 7 ++ [0, 4],
        List.replicate 16 7 ++ [1, 6]])).Pairwise
      (fun a b => ¬ (nonceOf a = nonceOf b ∧ indexOf a = indexOf b)) ∧
    (∀ c ∈ [List.replicate 16 7 ++ [0, 5], List.replicate 16 7 ++ [0, 4],
        List.replicate 16 (7 : Byte) ++ [1, 6]],
      ∃ k ∈ keepFirst (sortChunks [List.replicate 16 7 ++ [0, 5], List.replicate 16 7 ++ [0, 4],
        List.replicate 16 7 ++ [1, 6]]),
      (nonceOf k = nonceOf c ∧ indexOf k = indexOf c) ∧ SortableBytesList.Less c k = false) ∧
    ∃ nonces : List (List Byte),
      nonces.Pairwise (fun M N => List.Lex (fun x y : Byte => x < y) M N) ∧
      (∀ N, N ∈ nonces ↔
        ∃ c ∈ [List.replicate 16 7 ++ [0, 5], List.replicate 16 7 ++ [0, 4],
          List.replicate 16 (7 : Byte) ++ [1, 6]], nonceOf c = N) ∧
      compileMessages (fun c : List Byte => some c)
          [List.replicate 16 7 ++ [0, 5], List.replicate 16 7 ++ [0, 4],
            List.replicate 16 7 ++ [1, 6]] =
        some (nonces.map (messageOfNonce (keepFirst (sortChunks
          [List.replicate 16 7 ++ [0, 5], List.replicate 16 7 ++ [0, 4],
            List.replicate 16 7 ++ [1, 6]])))) :=
  conflicting_chunks_keep_first (fun c : List Byte => some c)
    [List.replicate 16 7 ++ [0, 5], List.replicate 16 7 ++ [0, 4], List.replicate 16 7 ++ [1, 6]]
    [List.replicate 16 7 ++ [0, 5], List.replicate 16 7 ++ [0, 4], List.replicate 16 7 ++ [1, 6]]
    rfl (by decide)

/-- The conflict of the witness, evaluated: the chunk with payload 4 is the first of the two
chunks of index 0 in the sorted sequence, and the message is `4, 6`. -/
theorem conflicting_chunks_example :
    keepFirst (sortChunks [List.replicate 16 7 ++ [0, 5], List.replicate 16 7 ++ [0, 4],
        List.replicate 16 7 ++ [1, 6]]) =
      [List.replicate 16 7 ++ [0, 4], List.replicate 16 7 ++ [1, 6]] ∧
    compileMessages (fun c : List Byte => some c)
        [List.replicate 16 7 ++ [0, 5], List.replicate 16 7 ++ [0, 4],
          List.replicate 16 7 ++ [1, 6]] = some [[4, 6]] := by
  decide

end ConflictTheorems

/-! ## The claims: the benchmark driver -/

section DriverTheorems

variable {F P : Type} [Field F] [AddCommGroup P] [Module F P]

/-- C16 fails on the code: the headers of `main` of testComplete.go record `n = 20` and
`t = 10`, but the environment loop leaves `t = 28`, so the environment is created with
`createThresholdShares(20, 28)` and the ballots are decrypted with threshold 28, which is
not at most `n`. -/
theorem benchmark_threshold_overwritten :
    mainParameters.headerN = 20 ∧ mainParameters.headerT = 10 ∧
    mainParameters.environmentN = 20 ∧ mainParameters.environmentT = 28 ∧
    mainParameters.decryptT = 28 ∧ mainParameters.decryptN = 20 ∧
    ¬ (mainParameters.environmentT ≤ mainParameters.environmentN) := by
  decide

end DriverTheorems

end CryptoVoting
